import Mathlib

/-!
# wmark/semver: versions, their comparison, and ranges

A shallow embedding of `semver.go`, `range.go` and `sort_generic.go`, and
theorems about it.

* A `[]byte` is a `List Nat` (a byte string has every element below 256); byte
  arithmetic is written with an explicit `% 256`.
* `int32` and `uint32` values are `Int` and `Nat`, with the wrap-around of
  the machine written out (`wrapInt`, `% 2 ^ 32`).
* The array `[14]int32` is a function `Fin 14 → Int`.
* A Go function that returns `(T, error)` returns `T × Option InvalidStringValue`
  inside `Except Fault`: a `Fault` is a run-time panic (an index or a slice
  expression out of range) or the exhaustion of the fuel of a loop.
* The loop of `unmarshalText` is `unmarshalLoop`, one pass of it is `step`; the
  local variables are a `PState`.
-/

namespace Semver

/-! ## Machine integers -/

/-- Two's complement wrap of an integer to `w` bits (signed). -/
def wrapInt (w : Nat) (x : Int) : Int :=
  (x + 2 ^ (w - 1)) % 2 ^ w - 2 ^ (w - 1)

/-- Conversion to `int32`. -/
def int32 (x : Int) : Int := wrapInt 32 x

/-- Conversion to `int8`. -/
def int8 (x : Int) : Int := wrapInt 8 x

/-- Subtraction of two bytes, as a byte. -/
def byteSub (a b : Nat) : Nat := (a + 256 - b % 256) % 256

/-! ## Errors and faults -/

/-- The error values of `semver.go` (constants of type `InvalidStringValue`). -/
inductive InvalidStringValue where
  | errInvalidVersionString
  | errTooManyColumns
  | errVersionStringLength
  | errInvalidBuildSuffix
  | errInvalidType
  | errOutOfBounds
  deriving DecidableEq, Repr

/-- What stops a Go function without a return value: a run-time panic on an
index or a slice expression, or (in the embedding only) a loop that has used
up its fuel. -/
inductive Fault where
  | indexOutOfRange
  | sliceOutOfRange
  | outOfFuel
  deriving DecidableEq, Repr

open InvalidStringValue

/-! ## Constants -/

def alpha : Int := -4
def beta : Int := -3
def pre : Int := -2
def rc : Int := -1
def common : Int := 0
def revision : Int := 1
def patch : Int := 2

def idxReleaseType : Nat := 4
def idxRelease : Nat := 5
def idxSpecifierType : Nat := 9
def idxSpecifier : Nat := 10

/-- The bytes of an ASCII string. -/
def bytesOf (s : String) : List Nat := s.toList.map Char.toNat

/-- The map `releaseValue`, from a tag to its release type. -/
def releaseValue (tag : List Nat) : Option Int :=
  if tag = [97, 108, 112, 104, 97] then some alpha      -- "alpha"
  else if tag = [98, 101, 116, 97] then some beta       -- "beta"
  else if tag = [112, 114, 101] then some pre           -- "pre"
  else if tag = [] then some pre                        -- ""
  else if tag = [114, 99] then some rc                  -- "rc"
  else if tag = [114] then some revision                -- "r"
  else if tag = [112] then some patch                   -- "p"
  else none

/-- The bytes of `+build`. -/
def buildsuffix : List Nat := [43, 98, 117, 105, 108, 100]

/-! ## Version -/

/-- The struct `Version`: the 14 fields and the build number (the blank
padding field takes no part in anything). -/
structure Version where
  version : Fin 14 → Int
  build : Int

instance : DecidableEq Version := fun a b =>
  decidable_of_iff (a.version = b.version ∧ a.build = b.build)
    ⟨fun h => by cases a; cases b; cases h; simp_all, fun h => by subst h; exact ⟨rfl, rfl⟩⟩

instance instDecidableEqExcept {ε α : Type} [DecidableEq ε] [DecidableEq α] :
    DecidableEq (Except ε α)
  | .ok a, .ok b => decidable_of_iff (a = b) ⟨fun h => by rw [h], fun h => by cases h; rfl⟩
  | .error a, .error b => decidable_of_iff (a = b) ⟨fun h => by rw [h], fun h => by cases h; rfl⟩
  | .ok _, .error _ => isFalse (fun h => by cases h)
  | .error _, .ok _ => isFalse (fun h => by cases h)

/-- The zero value `Version{}`. -/
def Version.zero : Version := ⟨fun _ => 0, 0⟩

/-- Indexing a byte slice: `str[i]`. -/
def byteAt (str : List Nat) (i : Nat) : Except Fault Nat :=
  match str[i]? with
  | some c => .ok c
  | none => .error .indexOutOfRange

/-- The slice expression `str[i:]`. -/
def sliceFrom (str : List Nat) (i : Nat) : Except Fault (List Nat) :=
  if i ≤ str.length then .ok (str.drop i) else .error .sliceOutOfRange

/-- The slice expression `str[i:j]`. -/
def slice (str : List Nat) (i j : Nat) : Except Fault (List Nat) :=
  if i ≤ j ∧ j ≤ str.length then .ok ((str.take j).drop i) else .error .sliceOutOfRange

/-- The assignment `t.version[i] = x`. -/
def setField (t : Version) (i : Nat) (x : Int) : Except Fault Version :=
  if h : i < 14 then .ok { t with version := Function.update t.version ⟨i, h⟩ x }
  else .error .indexOutOfRange

def isNumeric (ch : Nat) : Bool := decide (byteSub ch 48 ≤ 9)

def isSmallLetter (ch : Nat) : Bool := decide (byteSub ch 97 ≤ byteSub 122 97)

/-- The loop of `atoui` over the bytes not yet read: `n` is the number of bytes
read, `val` the `uint32` accumulated. -/
def atouiLoop : List Nat → Nat → Nat → Nat × Nat
  | [], n, val => (n, val)
  | c :: cs, n, val =>
    if n ≤ 10 then
      let v := byteSub c 48
      if v > 9 then (n, val)
      else atouiLoop cs (n + 1) ((val * 10 + v) % 2 ^ 32)
    else (n, val)

/-- The function `atoui`: the number of bytes consumed and their value. -/
def atoui (b : List Nat) : Nat × Nat := atouiLoop b 0 0

/-- The inner loop of the tag case, `for ; toIdx < strlen && isSmallLetter(str[toIdx]); toIdx++`,
over the bytes from `toIdx` on. -/
def scanLetters : List Nat → Nat → Nat
  | [], toIdx => toIdx
  | c :: cs, toIdx => if isSmallLetter c then scanLetters cs (toIdx + 1) else toIdx

/-- The local variables of `unmarshalText` and the receiver. -/
structure PState where
  idx : Nat
  fieldNum : Nat
  column : Nat
  t : Version

/-- One pass through the body of the loop of `unmarshalText`: it goes on with
new variables, or returns. -/
inductive Step where
  | next (st : PState)
  | ret (t : Version) (err : Option InvalidStringValue)

/-- The case `isNumeric(r)` (also reached by `fallthrough` from the dot). -/
def numericCase (str : List Nat) (st : PState) : Except Fault Step :=
  match sliceFrom str st.idx with
  | .error f => .error f
  | .ok b =>
    let (idxDelta, n) := atoui b
    if idxDelta = 0 ∨ idxDelta ≥ 10 then .ok (.ret st.t (some errInvalidVersionString))
    else
      match setField st.t st.fieldNum (int32 n) with
      | .error f => .error f
      | .ok t => .ok (.next { st with idx := st.idx + idxDelta, t := t })

/-- The case `isSmallLetter(r)` (also reached by `fallthrough` from the dash). -/
def tagCase (str : List Nat) (st : PState) : Except Fault Step :=
  let strlen := str.length
  let toIdx := scanLetters (str.drop (st.idx + 1)) (st.idx + 1)
  if toIdx > strlen then .ok (.ret st.t (some errInvalidVersionString))
  else
    match slice str st.idx toIdx with
    | .error f => .error f
    | .ok tag =>
      match releaseValue tag with
      | none => .ok (.ret st.t (some errInvalidVersionString))
      | some typ =>
        if st.fieldNum < idxReleaseType ∨ st.fieldNum < idxSpecifierType then
          let fieldNum := if st.fieldNum < idxReleaseType then idxReleaseType else idxSpecifierType
          match setField st.t fieldNum (int32 typ) with
          | .error f => .error f
          | .ok t =>
            let skip : Except Fault Bool :=
              if toIdx + 1 < strlen then
                match byteAt str toIdx with
                | .error f => .error f
                | .ok c => .ok (decide (c = 46))
              else .ok false
            match skip with
            | .error f => .error f
            | .ok b =>
              .ok (.next { idx := if b then toIdx + 1 else toIdx, fieldNum := fieldNum + 1,
                           column := 0, t := t })
        else .ok (.ret st.t (some errInvalidVersionString))

/-- The case `r == '+'`. -/
def buildCase (str : List Nat) (st : PState) : Except Fault Step :=
  let strlen := str.length
  if strlen < st.idx + buildsuffix.length + 1 then .ok (.ret st.t (some errInvalidBuildSuffix))
  else
    match slice str st.idx (st.idx + buildsuffix.length) with
    | .error f => .error f
    | .ok s =>
      if s ≠ buildsuffix then .ok (.ret st.t (some errInvalidBuildSuffix))
      else
        let idx := st.idx + buildsuffix.length
        match sliceFrom str idx with
        | .error f => .error f
        | .ok b =>
          let (idxDelta, n) := atoui b
          if idxDelta > 9 ∨ idx + idxDelta < strlen then
            .ok (.ret st.t (some errInvalidBuildSuffix))
          else .ok (.ret { st.t with build := int32 n } none)

/-- The body of the loop of `unmarshalText`, entered with `idx < strlen`. -/
def step (str : List Nat) (st : PState) : Except Fault Step :=
  let strlen := str.length
  match byteAt str st.idx with
  | .error f => .error f
  | .ok r =>
    if r = 46 then
      let idx := st.idx + 1
      let column := st.column + 1
      if column ≥ 4 ∨ idx ≥ strlen then .ok (.ret st.t (some errTooManyColumns))
      else numericCase str { st with idx := idx, column := column, fieldNum := st.fieldNum + 1 }
    else if isNumeric r then numericCase str st
    else if r = 45 ∨ r = 95 then
      let idx := st.idx + 1
      let numericNext : Except Fault Bool :=
        if idx < strlen then
          match byteAt str idx with
          | .error f => .error f
          | .ok c => .ok (isNumeric c)
        else .ok false
      match numericNext with
      | .error f => .error f
      | .ok true =>
        if st.fieldNum < idxReleaseType then
          .ok (.next { st with idx := idx, column := 0, fieldNum := idxReleaseType + 1 })
        else if st.fieldNum < idxSpecifierType then
          .ok (.next { st with idx := idx, column := 0, fieldNum := idxSpecifierType + 1 })
        else .ok (.ret st.t (some errInvalidVersionString))
      | .ok false => tagCase str { st with idx := idx }
    else if isSmallLetter r then tagCase str st
    else if r = 43 then buildCase str st
    else .ok (.ret st.t (some errInvalidVersionString))

/-- The loop `for idx < strlen` of `unmarshalText`, with fuel for the number of
passes. -/
def unmarshalLoop (str : List Nat) : Nat → PState → Except Fault (Version × Option InvalidStringValue)
  | fuel, st =>
    if st.idx < str.length then
      match fuel with
      | 0 => .error .outOfFuel
      | fuel + 1 =>
        match step str st with
        | .error f => .error f
        | .ok (.ret t err) => .ok (t, err)
        | .ok (.next st1) => unmarshalLoop str fuel st1
    else .ok (st.t, none)

/-- The method `unmarshalText` on the receiver `t`: the receiver afterwards and
the error. Each pass of the loop reads at least one byte, so `len(str)` passes
are the most there can be. -/
def Version.unmarshalText (t : Version) (str : List Nat) :
    Except Fault (Version × Option InvalidStringValue) :=
  let strlen := str.length
  let skipV : Except Fault Bool :=
    if strlen > 1 then
      match byteAt str 0 with
      | .error f => .error f
      | .ok c => .ok (decide (c = 118))
    else .ok false
  match skipV with
  | .error f => .error f
  | .ok b => unmarshalLoop str strlen { idx := if b then 1 else 0, fieldNum := 0, column := 0, t := t }

/-- The function `NewVersion`. -/
def NewVersion (str : List Nat) : Except Fault (Version × Option InvalidStringValue) :=
  Version.zero.unmarshalText str

/-! ## Comparison -/

/-- The loop of `signDelta` over the indices still to visit. -/
def signDeltaOver (a b : Fin 14 → Int) : List (Fin 14) → Int
  | [] => 0
  | i :: rest =>
    if a i = b i then signDeltaOver a b rest
    else
      let x := int32 (a i - b i)
      int8 (int32 (x >>> (31 : Nat) - int32 (-x) >>> (31 : Nat)))

/-- The function `signDelta`: the indices visited are `0 ≤ i < len(a)` with
`i < cutoffIdx`, in ascending order. (The slice expression `a[0:cutoffIdx]`
of the source needs `cutoffIdx ≤ 14`; the callers pass 4 and 9.) -/
def signDelta (a b : Fin 14 → Int) (cutoffIdx : Nat) : Int :=
  signDeltaOver a b ((List.finRange 14).filter fun i => decide (i.val < cutoffIdx))

def Version.limitedLess (t o : Version) : Bool :=
  decide (signDelta t.version o.version idxSpecifierType < 0)

def Version.sharesPrefixWith (t o : Version) : Bool :=
  decide (signDelta t.version o.version idxReleaseType = 0)

def Version.LimitedEqual (t o : Version) : Bool :=
  if t.version ⟨idxReleaseType, by decide⟩ = common ∧ o.version ⟨idxReleaseType, by decide⟩ > common then
    t.sharesPrefixWith o
  else decide (signDelta t.version o.version idxSpecifierType = 0)

def Version.IsAPreRelease (t : Version) : Bool :=
  decide (t.version ⟨idxReleaseType, by decide⟩ < common)

def Version.Major (t : Version) : Int := t.version 0

def Version.Minor (t : Version) : Int := t.version 1

def Version.Patch (t : Version) : Int := t.version 2

/-! ## Range -/

/-- The struct `Range`. -/
structure Range where
  lower : Version
  upper : Version
  hasLower : Bool
  equalsLower : Bool
  hasUpper : Bool
  equalsUpper : Bool

instance : DecidableEq Range := fun a b =>
  decidable_of_iff (a.lower = b.lower ∧ a.upper = b.upper ∧ a.hasLower = b.hasLower
      ∧ a.equalsLower = b.equalsLower ∧ a.hasUpper = b.hasUpper ∧ a.equalsUpper = b.equalsUpper)
    ⟨fun h => by cases a; cases b; simp_all, fun h => by subst h; simp⟩

/-- The zero value `Range{}`. -/
def Range.zero : Range := ⟨Version.zero, Version.zero, false, false, false, false⟩

/-! ### The functions of package `bytes` that `range.go` calls -/

/-- Go's `bytes.HasSuffix`. -/
def hasSuffix (s suffix : List Nat) : Bool := suffix.isSuffixOf s

/-- Go's `bytes.HasPrefix`. -/
def hasPrefix (s pre : List Nat) : Bool := pre.isPrefixOf s

/-- Go's `bytes.TrimRight`: the trailing bytes that are in `cutset` are removed. -/
def trimRight (s cutset : List Nat) : List Nat :=
  (s.reverse.dropWhile fun c => decide (c ∈ cutset)).reverse

/-- Go's `bytes.TrimLeft`: the leading bytes that are in `cutset` are removed. -/
def trimLeft (s cutset : List Nat) : List Nat :=
  s.dropWhile fun c => decide (c ∈ cutset)

/-- Go's `bytes.IndexByte`: the index of the first `c`, or -1. -/
def indexByte : List Nat → Nat → Int
  | [], _ => -1
  | b :: bs, c => if b = c then 0 else
    let i := indexByte bs c
    if i < 0 then -1 else i + 1

/-- Go's `bytes.LastIndexByte`: the index of the last `c`, or -1. -/
def lastIndexByte (s : List Nat) (c : Nat) : Int :=
  let i := indexByte s.reverse c
  if i < 0 then -1 else (s.length : Int) - 1 - i

/-- Go's `bytes.Count` for a separator of one byte. -/
def countByte (s : List Nat) (c : Nat) : Nat := s.count c

/-- The slice expression `str[i:]` for an `int` index. -/
def sliceFromInt (str : List Nat) (i : Int) : Except Fault (List Nat) :=
  if 0 ≤ i then sliceFrom str i.toNat else .error .sliceOutOfRange

/-- The slice expression `str[:j]` for an `int` index. -/
def sliceToInt (str : List Nat) (j : Int) : Except Fault (List Nat) :=
  if 0 ≤ j then slice str 0 j.toNat else .error .sliceOutOfRange

/-- The method `setBound` on the receiver `r`: the receiver afterwards and the
error. -/
def Range.setBound (r : Range) (str : List Nat) (isLower isUpper : Bool) :
    Except Fault (Range × Option InvalidStringValue) :=
  match str.findIdx? isNumeric with
  | none => .ok (r, some errInvalidVersionString)
  | some versionStartIdx =>
    match slice str 0 versionStartIdx, sliceFrom str versionStartIdx with
    | .error f, _ => .error f
    | _, .error f => .error f
    | .ok head, .ok tail =>
      let equalOk : Bool := decide (versionStartIdx = 0) || decide (indexByte head 61 > 0)
      let afterUpper : Except Fault (Range × Option InvalidStringValue) :=
        if isUpper then
          match r.upper.unmarshalText tail with
          | .error f => .error f
          | .ok (u, err) => .ok ({ r with equalsUpper := equalOk, hasUpper := true, upper := u }, err)
        else .ok (r, none)
      match afterUpper with
      | .error f => .error f
      | .ok (r1, err) =>
        if isLower then
          let r2 := { r1 with equalsLower := equalOk, hasLower := true }
          if isUpper then .ok ({ r2 with lower := r2.upper }, err)
          else
            match r2.lower.unmarshalText tail with
            | .error f => .error f
            | .ok (l, err2) => .ok ({ r2 with lower := l }, err2)
        else .ok (r1, err)

/-- The function `newRangeByShortcut`; `recur` stands for its call of `NewRange`. -/
def newRangeByShortcut (recur : List Nat → Except Fault (Range × Option InvalidStringValue))
    (str : List Nat) : Except Fault (Range × Option InvalidStringValue) :=
  let t := trimLeft str [126, 94]
  match NewVersion t with
  | .error f => .error f
  | .ok (_, some err) => .ok (Range.zero, some err)
  | .ok (num, none) =>
    if hasPrefix t [48, 46, 48, 46] then recur t
    else
      let r : Range := { lower := num, hasLower := true, equalsLower := true, hasUpper := true,
                         upper := Version.zero, equalsUpper := false }
      let minorUp : Fin 14 → Int :=
        Function.update (Function.update r.upper.version 0 (r.lower.version 0)) 1
          (int32 (r.lower.version 1 + 1))
      let majorUp : Fin 14 → Int :=
        Function.update r.upper.version 0 (int32 (r.lower.version 0 + 1))
      let bumpMinor : Range := { r with upper := { r.upper with version := minorUp } }
      let bumpMajor : Range := { r with upper := { r.upper with version := majorUp } }
      if hasPrefix t [48, 46] then .ok (bumpMinor, none)
      else
        match byteAt str 0 with
        | .error f => .error f
        | .ok c =>
          if c = 94 ∨ indexByte t 46 ≤ -1 then .ok (bumpMajor, none)
          else if c = 126 then .ok (bumpMinor, none)
          else .ok (r, none)

/-- The function `NewRange`, with fuel for its recursion through
`newRangeByShortcut`. -/
def NewRangeFuel : Nat → List Nat → Except Fault (Range × Option InvalidStringValue)
  | 0, _ => .error .outOfFuel
  | fuel + 1, str0 =>
    let wild : Except Fault Bool :=
      if str0.length = 1 then
        match byteAt str0 0 with
        | .error f => .error f
        | .ok c => .ok (decide (c = 42 ∨ c = 120))
      else .ok false
    match wild with
    | .error f => .error f
    | .ok w =>
    if str0.length = 0 ∨ w = true then .ok (Range.zero, none)
    else
      let trimmed : Bool := hasSuffix str0 [46, 120] || hasSuffix str0 [46, 42]
      let str := if trimmed then trimRight str0 [46, 120, 42] else str0
      let isNaturalRange0 : Bool := !trimmed
      match byteAt str 0 with
      | .error f => .error f
      | .ok c0 =>
      if c0 = 94 ∨ c0 = 126 then newRangeByShortcut (NewRangeFuel fuel) str
      else
        let bounds : Except Fault (Bool × Bool) :=
          if str.length ≥ 2 then
            match byteAt str 1 with
            | .error f => .error f
            | .ok c1 => .ok (!(decide (c0 = 60) || decide (c1 = 60)),
                             !(decide (c0 = 62) || decide (c1 = 62)))
          else .ok (true, true)
        match bounds with
        | .error f => .error f
        | .ok (lowerBound, upperBound) =>
        let idxSpace := indexByte str 32
        let idxComma := indexByte str 44
        let leftEnd : Int :=
          if idxSpace > 1 then idxSpace else if idxComma > 1 then idxComma else str.length
        let rightStart0 : Int :=
          if idxSpace > 1 then 0 else if idxComma > 1 then 0 else leftEnd
        let rightStart : Int :=
          if rightStart0 = 0 then
            let rs := lastIndexByte str 32 + 1
            if rs ≤ 0 then lastIndexByte str 44 + 1 else rs
          else rightStart0
        let isNaturalRange : Bool :=
          isNaturalRange0 && decide (leftEnd ≠ rightStart) && decide ((str.length : Int) - rightStart > 0)
        -- the slice `str[:leftEnd]` is taken on every path from here
        match sliceToInt str leftEnd with
        | .error f => .error f
        | .ok left =>
          let leftDotCount := countByte left 46
          if !isNaturalRange ∧ leftDotCount = 1 then
            newRangeByShortcut (NewRangeFuel fuel) (126 :: str)
          else if !isNaturalRange ∧ leftDotCount = 0 then
            newRangeByShortcut (NewRangeFuel fuel) (94 :: str)
          else if leftEnd = rightStart then Range.zero.setBound str lowerBound upperBound
          else
            match Range.zero.setBound left true false with
            | .error f => .error f
            | .ok (vr, some err) => .ok (vr, some err)
            | .ok (vr, none) =>
              match sliceFromInt str rightStart with
              | .error f => .error f
              | .ok right =>
                match vr.setBound right false true with
                | .error f => .error f
                | .ok (vr2, some err) => .ok (vr2, some err)
                | .ok (vr2, none) => .ok (vr2, none)

/-- The function `NewRange`. The recursion is at most two calls deep (a text
that begins with `0.0.` has two dots before its left end, so it does not go
back to the shortcut); the fuel is generous. -/
def NewRange (str : List Nat) : Except Fault (Range × Option InvalidStringValue) :=
  NewRangeFuel (str.length + 3) str

def Range.satisfiesLowerBound (r : Range) (v : Version) : Bool :=
  if !r.hasLower then true
  else
    let equal := r.lower.LimitedEqual v
    if r.equalsLower && equal then true
    else r.lower.limitedLess v && !equal

def Range.satisfiesUpperBound (r : Range) (v : Version) : Bool :=
  if !r.hasUpper then true
  else
    let equal := r.upper.LimitedEqual v
    if r.equalsUpper && equal then true
    else
      let equal :=
        if !r.equalsUpper ∧ r.upper.version ⟨idxReleaseType, by decide⟩ = common then
          r.upper.sharesPrefixWith v
        else equal
      v.limitedLess r.upper && !equal

def Range.Contains (r : Range) (v : Version) : Bool :=
  if r.upper = r.lower then r.lower.LimitedEqual v
  else r.satisfiesLowerBound v && r.satisfiesUpperBound v

def Range.IsSatisfiedBy (r : Range) (v : Version) : Bool :=
  if !r.Contains v then false
  else if v.IsAPreRelease then
    if r.hasLower && r.lower.IsAPreRelease && r.lower.sharesPrefixWith v then true
    else if r.hasUpper && r.upper.IsAPreRelease && r.upper.sharesPrefixWith v then true
    else false
  else true

/-- The function `Satisfies`. -/
def Satisfies (aVersion aRange : List Nat) : Except Fault (Bool × Option InvalidStringValue) :=
  match NewVersion aVersion with
  | .error f => .error f
  | .ok (_, some err) => .ok (false, some err)
  | .ok (v, none) =>
    match NewRange aRange with
    | .error f => .error f
    | .ok (_, some err) => .ok (false, some err)
    | .ok (r, none) => .ok (r.IsSatisfiedBy v, none)

/-! ## Sort keys (`sort_generic.go`) -/

/-- The conversion `uint8(x)` of an `int32`: the low byte. -/
def uint8 (x : Int) : Nat := (x % 256).toNat

/-- The function `magnitudeAwareKey`. -/
def magnitudeAwareKey (x : Int) : Nat :=
  if x ≤ 11 then uint8 x
  else if x ≤ 0xffff then
    if x ≤ 0xff then 12 else 13
  else if x ≤ 0xffffff then 14
  else 15

/-- Indexing the array of fields: `v[i]`. -/
def fieldAt (v : Fin 14 → Int) (i : Nat) : Except Fault Int :=
  if h : i < 14 then .ok (v ⟨i, h⟩) else .error .indexOutOfRange

/-- The function `twoFieldKey`; `keyIndex` is a `uint8`, the shift and the
sum `keyIndex+1` are taken in `uint8`. -/
def twoFieldKey (v : Fin 14 → Int) (keyIndex : Nat) : Except Fault Nat :=
  match fieldAt v keyIndex with
  | .error f => .error f
  | .ok x =>
    let n1 := (magnitudeAwareKey x <<< 4) % 256
    if n1 ≥ (12 <<< 4) % 256 then .ok n1
    else
      match fieldAt v ((keyIndex + 1) % 256) with
      | .error f => .error f
      | .ok y => .ok (n1 ||| magnitudeAwareKey y)

/-! ## The vocabulary of the statements -/

/-- A decimal digit, as a byte. -/
def isDigit (c : Nat) : Prop := 48 ≤ c ∧ c ≤ 57

instance : DecidablePred isDigit := fun c => by unfold isDigit; infer_instance

/-- The value of a decimal numeral read from the left, starting from `acc`. -/
def decFrom (acc : Nat) (ds : List Nat) : Nat := ds.foldl (fun a c => a * 10 + (c - 48)) acc

/-- The value of a decimal numeral. -/
def decVal (ds : List Nat) : Nat := decFrom 0 ds

/-- A decimal numeral of 1 to 9 digits (leading zeros allowed). -/
def isNumeral (ds : List Nat) : Prop := 1 ≤ ds.length ∧ ds.length ≤ 9 ∧ ∀ c ∈ ds, isDigit c

instance : DecidablePred isNumeral := fun ds => by unfold isNumeral; infer_instance

/-- Nothing more for `atoui` to read: the end of the input, or a byte that is
no digit. -/
def stopsNumber (rest : List Nat) : Prop := ∀ c, rest.head? = some c → ¬ byteSub c 48 ≤ 9

/-- A step seen from `k` bytes further left: the index it goes on with is
`k` larger. -/
def Step.shift (k : Nat) : Step → Step
  | .next st => .next { st with idx := st.idx + k }
  | .ret t err => .ret t err

/-- The same for a step that may have faulted. -/
def shiftResult (k : Nat) : Except Fault Step → Except Fault Step
  | .ok s => .ok (s.shift k)
  | .error f => .error f

/-- The version `t` with field `i` set to `x`. -/
def Version.set (t : Version) (i : Fin 14) (x : Int) : Version :=
  { t with version := Function.update t.version i x }

/-- The text `.n1.n2…` of a list of numerals, a dot before each. -/
def dotted : List (List Nat) → List Nat
  | [] => []
  | n :: ns => 46 :: (n ++ dotted ns)

/-- The text `n1.n2.….nk` of a list of numerals. -/
def numericCore : List (List Nat) → List Nat
  | [] => []
  | n :: ns => n ++ dotted ns

/-- The version `t` with the fields from `i` on set to the values `xs`. -/
def Version.setFrom (t : Version) : Nat → List Nat → Version
  | _, [] => t
  | i, x :: xs => if h : i < 14 then (t.set ⟨i, h⟩ x).setFrom (i + 1) xs else t

/-- The version that a numeric core alone stands for. -/
def coreVersion (ns : List (List Nat)) : Version := Version.zero.setFrom 0 (ns.map decVal)

/-- A lowercase ASCII letter, as a byte. -/
def isLower (c : Nat) : Prop := 97 ≤ c ∧ c ≤ 122

instance : DecidablePred isLower := fun c => by unfold isLower; infer_instance

/-- A non-empty word of lowercase ASCII letters. -/
def isWord (w : List Nat) : Prop := w ≠ [] ∧ ∀ c ∈ w, isLower c

instance : DecidablePred isWord := fun w => by unfold isWord; infer_instance

/-- The tags that `NewVersion` knows, with their release types:
`alpha`, `beta`, `pre`, `rc`, `r`, `p`. -/
def tagTable : List (List Nat × Int) :=
  [([97, 108, 112, 104, 97], alpha), ([98, 101, 116, 97], beta), ([112, 114, 101], pre),
   ([114, 99], rc), ([114], revision), ([112], patch)]

/-- The sign of the first differing field, over the indices still to visit. -/
def lexSign (a b : Fin 14 → Int) : List (Fin 14) → Int
  | [] => 0
  | i :: rest => if a i < b i then -1 else if b i < a i then 1 else lexSign a b rest

/-- Modelled from the spec: the function `Compare` is not in the source files
at hand. "Full ordering (`Less`, `Compare`): lexicographic over fields 0–13,
then build number as final tie-break; yields a strict total order plus a
three-way sign (-1/0/1)." -/
def Compare (a b : Version) : Int :=
  let s := lexSign a.version b.version (List.finRange 14)
  if s ≠ 0 then s
  else if a.build < b.build then -1
  else if b.build < a.build then 1
  else 0

/-- Modelled from the spec: the method `Less` is not in the source files at
hand; it is the strict order of the full ordering that `Compare` reports. -/
def Version.Less (t o : Version) : Bool := decide (Compare t o < 0)

/-- The texts `c-alpha`, `c-beta`, `c-pre`, `c-rc`, `c`, `c-r`, `c-p` of a core `c`. -/
def releaseTexts (c : List Nat) : List (List Nat) :=
  [c ++ 45 :: [97, 108, 112, 104, 97], c ++ 45 :: [98, 101, 116, 97], c ++ 45 :: [112, 114, 101],
   c ++ 45 :: [114, 99], c, c ++ 45 :: [114], c ++ 45 :: [112]]

/-- The seven versions of a core in ascending order of the release type. -/
def releaseVersions (ns : List (List Nat)) : List Version :=
  [(coreVersion ns).set ⟨idxReleaseType, by decide⟩ alpha,
   (coreVersion ns).set ⟨idxReleaseType, by decide⟩ beta,
   (coreVersion ns).set ⟨idxReleaseType, by decide⟩ pre,
   (coreVersion ns).set ⟨idxReleaseType, by decide⟩ rc,
   coreVersion ns,
   (coreVersion ns).set ⟨idxReleaseType, by decide⟩ revision,
   (coreVersion ns).set ⟨idxReleaseType, by decide⟩ patch]

/-- The version with the given 14 fields (those not listed are zero) and build
number. -/
def Version.ofList (fields : List Int) (build : Int) : Version :=
  ⟨fun i => fields.getD i.val 0, build⟩

/-- A canonical decimal numeral: 1 to 9 digits, no leading zero except for
`0` itself. -/
def isCanonical (ds : List Nat) : Prop := isNumeral ds ∧ (ds.head? = some 48 → ds = [48])

instance : DecidablePred isCanonical := fun ds => by unfold isCanonical; infer_instance

/-- The text `M.m.p`. -/
def triple (M m p : List Nat) : List Nat := numericCore [M, m, p]

/-- Every field is at least -4 and below 10^9, and the fields other than the
two type fields are not negative. -/
def Version.inBounds (v : Version) : Prop :=
  ∀ i : Fin 14, -4 ≤ v.version i ∧ v.version i < 1000000000
    ∧ (i.val ≠ idxReleaseType → i.val ≠ idxSpecifierType → 0 ≤ v.version i)

/-- The receiver that a pass of the loop leaves behind. -/
def Step.version : Step → Version
  | .next st => st.t
  | .ret t _ => t

/-- Every field lies between -10^9 and 10^9, so that no difference of two
fields leaves `int32`. -/
def bounded (a : Fin 14 → Int) : Prop := ∀ i, -1000000000 ≤ a i ∧ a i ≤ 1000000000

/-- What the loop returns when it finds the `+` of the text `+u` at the read
position with the receiver `t`. -/
def buildOutcome (t : Version) (u : List Nat) : Except Fault (Version × Option InvalidStringValue) :=
  unmarshalLoop (43 :: u) 1 ⟨0, 0, 0, t⟩

/-- A byte string: every element is below 256. -/
def isBytes (u : List Nat) : Prop := ∀ b ∈ u, b < 256

instance : DecidablePred isBytes := fun u => by unfold isBytes; infer_instance

/-- The sign that `signDelta` computes from the wrapped difference `x` of two
fields. -/
def signOfDelta (x : Int) : Int := int8 (int32 (x >>> (31 : Nat) - int32 (-x) >>> (31 : Nat)))

/-- The variables with which `unmarshalText` enters its loop: one leading `v`
of a text of more than one byte is skipped. -/
def startState (t : Version) (str : List Nat) : PState :=
  { idx := if str.length > 1 ∧ str.head? = some 118 then 1 else 0, fieldNum := 0, column := 0,
    t := t }

/-- The variables after `n` passes of the loop, if the loop makes that many. -/
def stateAfter (str : List Nat) (st0 : PState) : Nat → Option PState
  | 0 => some st0
  | n + 1 =>
    match stateAfter str st0 n with
    | none => none
    | some st =>
      if st.idx < str.length then
        match step str st with
        | .ok (.next st1) => some st1
        | _ => none
      else none

/-- The field that is written next lies in the group of the current column:
`fieldNum` is `column`, `5 + column` or `10 + column`, and `column` is at
most 3. -/
def PState.slotOk (st : PState) : Prop :=
  st.column ≤ 3 ∧ (st.fieldNum = st.column ∨ st.fieldNum = idxRelease + st.column
    ∨ st.fieldNum = idxSpecifier + st.column)

instance (st : PState) : Decidable st.slotOk := by unfold PState.slotOk; infer_instance

/-- The fields as the parser leaves them: a release type from `alpha` to
`patch` in the two type fields, a number from 0 to 10^9 - 1 in every other
field. -/
def Version.wellFormed (v : Version) : Prop :=
  ∀ i : Fin 14,
    (i.val = idxReleaseType ∨ i.val = idxSpecifierType → alpha ≤ v.version i ∧ v.version i ≤ patch)
    ∧ (i.val ≠ idxReleaseType → i.val ≠ idxSpecifierType →
        0 ≤ v.version i ∧ v.version i < 1000000000)

/-- One of the six tags `alpha`, `beta`, `pre`, `rc`, `r`, `p`. -/
def isTag (w : List Nat) : Prop := w ∈ tagTable.map Prod.fst

instance : DecidablePred isTag := fun w => by unfold isTag; infer_instance

/-- An optional numeral: nothing, or 1 to 9 decimal digits. -/
def isOptNumeral (d : List Nat) : Prop := d = [] ∨ isNumeral d

instance : DecidablePred isOptNumeral := fun d => by unfold isOptNumeral; infer_instance

/-- A separator: `-` or `_`. -/
def isSeparator (c : Nat) : Prop := c = 45 ∨ c = 95

instance : DecidablePred isSeparator := fun c => by unfold isSeparator; infer_instance

/-- A capital ASCII letter, as a byte. -/
def isUpper (c : Nat) : Prop := 65 ≤ c ∧ c ≤ 90

instance : DecidablePred isUpper := fun c => by unfold isUpper; infer_instance

/-- The word `w'` is the word `w` of small letters with the case of some of
its letters changed: every byte is kept or replaced by its capital. -/
def caseVariant : List Nat → List Nat → Prop
  | [], [] => True
  | a :: w, b :: w' => (b = a ∨ b + 32 = a) ∧ caseVariant w w'
  | [], _ :: _ => False
  | _ :: _, [] => False

instance caseVariant.instDecidable : ∀ w w', Decidable (caseVariant w w')
  | [], [] => isTrue trivial
  | a :: w, b :: w' =>
    match caseVariant.instDecidable w w' with
    | isTrue h =>
      if hab : b = a ∨ b + 32 = a then isTrue ⟨hab, h⟩ else isFalse (fun hh => hab hh.1)
    | isFalse h => isFalse (fun hh => h hh.2)
  | [], _ :: _ => isFalse (fun h => h)
  | _ :: _, [] => isFalse (fun h => h)

instance : DecidableEq PState := fun a b =>
  decidable_of_iff (a.idx = b.idx ∧ a.fieldNum = b.fieldNum ∧ a.column = b.column ∧ a.t = b.t)
    ⟨fun h => by cases a; cases b; simp_all, fun h => by subst h; simp⟩

instance instDecidableEqOptionPState : DecidableEq (Option PState)
  | some a, some b => decidable_of_iff (a = b) ⟨fun h => by rw [h], fun h => by cases h; rfl⟩
  | none, none => isTrue rfl
  | some _, none => isFalse (fun h => by cases h)
  | none, some _ => isFalse (fun h => by cases h)

/-- The build number as the parser leaves it: from 0 to 10^9 - 1. -/
def Version.buildOk (v : Version) : Prop := 0 ≤ v.build ∧ v.build < 1000000000

instance (v : Version) : Decidable v.buildOk := by unfold Version.buildOk; infer_instance

/-- The fields `0`, …, `n - 1` of `a` are lexicographically less than those of
`b`: at the first of these fields in which they differ, `a` is smaller. -/
def lexLess (a b : Fin 14 → Int) (n : Nat) : Prop :=
  ∃ k : Fin 14, k.val < n ∧ (∀ i : Fin 14, i.val < k.val → a i = b i) ∧ a k < b k

instance (a b : Fin 14 → Int) (n : Nat) : Decidable (lexLess a b n) := by
  unfold lexLess; infer_instance

instance (a : Fin 14 → Int) : Decidable (bounded a) := by unfold bounded; infer_instance

/-- The magnitude class of a field, in the words of the specification: a value
up to 11 is its own class, a larger one has class 12 if it is at most `0xFF`,
13 if at most `0xFFFF`, 14 if at most `0xFFFFFF`, and 15 otherwise. -/
def keyClass (x : Int) : Nat :=
  if x ≤ 11 then x.toNat
  else if x ≤ 0xFF then 12
  else if x ≤ 0xFFFF then 13
  else if x ≤ 0xFFFFFF then 14
  else 15

/-- The pair of fields `k`, `k + 1` of `v` is lexicographically at most that
of `w`. -/
def pairLe (v w : Fin 14 → Int) (k : Nat) (hk : k ≤ 12) : Prop :=
  v ⟨k, by omega⟩ < w ⟨k, by omega⟩
    ∨ (v ⟨k, by omega⟩ = w ⟨k, by omega⟩ ∧ v ⟨k + 1, by omega⟩ ≤ w ⟨k + 1, by omega⟩)

/-- The pair of fields `k`, `k + 1` of `v` is lexicographically less than that
of `w`. -/
def pairLt (v w : Fin 14 → Int) (k : Nat) (hk : k ≤ 12) : Prop :=
  v ⟨k, by omega⟩ < w ⟨k, by omega⟩
    ∨ (v ⟨k, by omega⟩ = w ⟨k, by omega⟩ ∧ v ⟨k + 1, by omega⟩ < w ⟨k + 1, by omega⟩)

instance (v w : Fin 14 → Int) (k : Nat) (hk : k ≤ 12) : Decidable (pairLe v w k hk) := by
  unfold pairLe; infer_instance

instance (v w : Fin 14 → Int) (k : Nat) (hk : k ≤ 12) : Decidable (pairLt v w k hk) := by
  unfold pairLt; infer_instance

/-- Every field is non-negative. -/
def nonNegative (v : Fin 14 → Int) : Prop := ∀ i, 0 ≤ v i

instance (v : Fin 14 → Int) : Decidable (nonNegative v) := by unfold nonNegative; infer_instance

/-! ## Lemmas and theorems -/

theorem byteSub_digit {c : Nat} (h : isDigit c) : byteSub c 48 = c - 48 := by
  unfold isDigit at h; unfold byteSub; omega

theorem isNumeric_digit {c : Nat} (h : isDigit c) : isNumeric c = true := by
  unfold isDigit at h; unfold isNumeric byteSub; simp; omega

theorem atouiLoop_digits (ds rest : List Nat) (hrest : stopsNumber rest) :
    ∀ (n val : Nat), (∀ c ∈ ds, isDigit c) → n + ds.length ≤ 9 → val < 10 ^ n →
      atouiLoop (ds ++ rest) n val = (n + ds.length, decFrom val ds)
        ∧ decFrom val ds < 10 ^ (n + ds.length) := by
  induction ds with
  | nil =>
    intro n val _ hn hval
    refine ⟨?_, by simpa [decFrom] using hval⟩
    cases rest with
    | nil => simp [atouiLoop, decFrom]
    | cons c cs =>
      have hc := hrest c rfl
      simp only [List.nil_append, atouiLoop, decFrom, List.foldl_nil, List.length_nil, Nat.add_zero]
      split
      · simp; omega
      · rfl
  | cons d ds ih =>
    intro n val hd hn hval
    have hdig : isDigit d := hd d (List.mem_cons_self _ _)
    have hds : ∀ c ∈ ds, isDigit c := fun c hc => hd c (List.mem_cons_of_mem _ hc)
    simp only [List.length_cons] at hn
    have hb := byteSub_digit hdig
    have hd9 : d - 48 ≤ 9 := by unfold isDigit at hdig; omega
    have hlt : val * 10 + (d - 48) < 10 ^ (n + 1) := by
      rw [pow_succ]; omega
    have hpow : 10 ^ (n + 1) ≤ 10 ^ 9 := Nat.pow_le_pow_right (by norm_num) (by omega)
    have hmod : (val * 10 + (d - 48)) % 2 ^ 32 = val * 10 + (d - 48) := by
      apply Nat.mod_eq_of_lt; norm_num at hpow ⊢; omega
    have := ih (n + 1) (val * 10 + (d - 48)) hds (by omega) hlt
    simp only [List.cons_append, atouiLoop, hb, List.length_cons, decFrom, List.foldl_cons]
    rw [if_pos (by omega), if_neg (by omega), hmod]
    simp only [decFrom] at this
    constructor
    · rw [show ds.append rest = ds ++ rest from rfl, this.1]; congr 1; omega
    · have h2 := this.2
      have : n + 1 + ds.length = n + (ds.length + 1) := by omega
      rwa [this] at h2

theorem atoui_numeral (ds rest : List Nat) (hds : isNumeral ds) (hrest : stopsNumber rest) :
    atoui (ds ++ rest) = (ds.length, decVal ds) ∧ decVal ds < 10 ^ 9 := by
  obtain ⟨h1, h9, hd⟩ := hds
  have := atouiLoop_digits ds rest hrest 0 0 hd (by omega) (by norm_num)
  simp only [Nat.zero_add] at this
  refine ⟨this.1, lt_of_lt_of_le this.2 (Nat.pow_le_pow_right (by norm_num) h9)⟩

theorem byteAt_drop (str : List Nat) (k i : Nat) :
    byteAt (str.drop k) i = byteAt str (k + i) := by
  simp [byteAt, List.getElem?_drop]

theorem sliceFrom_drop (str : List Nat) (k i : Nat) (hk : k ≤ str.length) :
    sliceFrom (str.drop k) i = sliceFrom str (k + i) := by
  unfold sliceFrom
  simp only [List.length_drop, List.drop_drop]
  by_cases h : k + i ≤ str.length
  · rw [if_pos (by omega), if_pos h, Nat.add_comm]
  · rw [if_neg (by omega), if_neg h]

theorem slice_drop (str : List Nat) (k i j : Nat) (hk : k ≤ str.length) :
    slice (str.drop k) i j = slice str (k + i) (k + j) := by
  unfold slice
  simp only [List.length_drop]
  by_cases h : i ≤ j ∧ k + j ≤ str.length
  · rw [if_pos (by omega), if_pos (by omega)]
    congr 1
    rw [List.take_drop, List.drop_drop]
  · rw [if_neg (by omega), if_neg (by omega)]

theorem scanLetters_add (l : List Nat) (a k : Nat) :
    scanLetters l (a + k) = scanLetters l a + k := by
  induction l generalizing a with
  | nil => rfl
  | cons c cs ih =>
    simp only [scanLetters]
    split
    · rw [show a + k + 1 = (a + 1) + k by omega, ih]
    · rfl

theorem numericCase_drop (str : List Nat) (st : PState) (h : st.idx ≤ str.length) :
    numericCase str st
      = shiftResult st.idx (numericCase (str.drop st.idx) { st with idx := 0 }) := by
  unfold numericCase
  simp only [sliceFrom_drop str st.idx 0 h, Nat.add_zero]
  cases hs : sliceFrom str st.idx with
  | error f => rfl
  | ok b =>
    simp only []
    split
    · rfl
    · cases hf : setField st.t st.fieldNum (int32 (atoui b).2) with
      | error f => rfl
      | ok t => simp [shiftResult, Step.shift, Nat.add_comm]

theorem tagCase_drop (str : List Nat) (st : PState) (h : st.idx ≤ str.length) :
    tagCase str st
      = shiftResult st.idx (tagCase (str.drop st.idx) { st with idx := 0 }) := by
  unfold tagCase
  simp only [List.length_drop, List.drop_drop, Nat.zero_add, slice_drop str st.idx _ _ h,
    byteAt_drop, Nat.add_zero]
  generalize List.drop (st.idx + 1) str = l
  have hscan : scanLetters l (st.idx + 1) = st.idx + scanLetters l 1 := by
    have := scanLetters_add l 1 st.idx
    rw [Nat.add_comm 1] at this
    omega
  rw [hscan]
  generalize scanLetters l 1 = toIdx
  by_cases h1 : st.idx + toIdx > str.length
  · rw [if_pos h1, if_pos (show toIdx > str.length - st.idx by omega)]; rfl
  · rw [if_neg h1, if_neg (show ¬ toIdx > str.length - st.idx by omega)]
    cases slice str st.idx (st.idx + toIdx) with
    | error f => rfl
    | ok tag =>
      simp only []
      cases releaseValue tag with
      | none => rfl
      | some typ =>
        simp only []
        by_cases h3 : st.fieldNum < idxReleaseType ∨ st.fieldNum < idxSpecifierType
        · rw [if_pos h3, if_pos h3]
          cases setField st.t (if st.fieldNum < idxReleaseType then idxReleaseType
              else idxSpecifierType) (int32 typ) with
          | error f => rfl
          | ok t =>
            simp only []
            by_cases h2 : st.idx + toIdx + 1 < str.length
            · rw [if_pos h2, if_pos (show toIdx + 1 < str.length - st.idx by omega)]
              cases byteAt str (st.idx + toIdx) with
              | error f => rfl
              | ok c =>
                simp only [shiftResult, Step.shift]
                congr 3
                split <;> omega
            · rw [if_neg h2, if_neg (show ¬ toIdx + 1 < str.length - st.idx by omega)]
              simp [shiftResult, Step.shift, Nat.add_comm]
        · rw [if_neg h3, if_neg h3]; rfl

theorem buildCase_drop (str : List Nat) (st : PState) (h : st.idx ≤ str.length) :
    buildCase str st
      = shiftResult st.idx (buildCase (str.drop st.idx) { st with idx := 0 }) := by
  unfold buildCase
  simp only [List.length_drop, Nat.zero_add, slice_drop str st.idx _ _ h,
    sliceFrom_drop str st.idx _ h, Nat.add_zero]
  by_cases h1 : str.length < st.idx + buildsuffix.length + 1
  · rw [if_pos h1, if_pos (show str.length - st.idx < buildsuffix.length + 1 by omega)]; rfl
  · rw [if_neg h1, if_neg (show ¬ str.length - st.idx < buildsuffix.length + 1 by omega)]
    cases slice str st.idx (st.idx + buildsuffix.length) with
    | error f => rfl
    | ok s =>
      simp only []
      split
      · rfl
      · cases sliceFrom str (st.idx + buildsuffix.length) with
        | error f => rfl
        | ok b =>
          simp only []
          by_cases h2 : (atoui b).1 > 9 ∨ st.idx + buildsuffix.length + (atoui b).1 < str.length
          · rw [if_pos h2, if_pos (show (atoui b).1 > 9 ∨
              buildsuffix.length + (atoui b).1 < str.length - st.idx by omega)]; rfl
          · rw [if_neg h2, if_neg (show ¬ ((atoui b).1 > 9 ∨
              buildsuffix.length + (atoui b).1 < str.length - st.idx) by omega)]; rfl

theorem shiftResult_shiftResult (a b : Nat) (x : Except Fault Step) :
    shiftResult a (shiftResult b x) = shiftResult (b + a) x := by
  cases x with
  | error f => rfl
  | ok s => cases s <;> simp [shiftResult, Step.shift, Nat.add_assoc]

theorem step_drop (str : List Nat) (st : PState) (h : st.idx < str.length) :
    step str st = shiftResult st.idx (step (str.drop st.idx) { st with idx := 0 }) := by
  unfold step
  simp only [byteAt_drop, List.length_drop, Nat.add_zero, Nat.zero_add]
  cases byteAt str st.idx with
  | error f => rfl
  | ok r =>
    simp only []
    by_cases hdot : r = 46
    · rw [if_pos hdot, if_pos hdot]
      by_cases h1 : st.column + 1 ≥ 4 ∨ st.idx + 1 ≥ str.length
      · rw [if_pos h1, if_pos (show st.column + 1 ≥ 4 ∨ 1 ≥ str.length - st.idx by omega)]; rfl
      · rw [if_neg h1, if_neg (show ¬ (st.column + 1 ≥ 4 ∨ 1 ≥ str.length - st.idx) by omega)]
        rw [numericCase_drop str _ (by simp only []; omega),
          numericCase_drop (str.drop st.idx) _ (by simp only [List.length_drop]; omega)]
        simp only [List.drop_drop, shiftResult_shiftResult, Nat.add_comm 1]
    · rw [if_neg hdot, if_neg hdot]
      by_cases hnum : isNumeric r = true
      · rw [if_pos hnum, if_pos hnum]
        exact numericCase_drop str st (by omega)
      · rw [if_neg hnum, if_neg hnum]
        by_cases hdash : r = 45 ∨ r = 95
        · rw [if_pos hdash, if_pos hdash]
          have hc : (1 < str.length - st.idx) ↔ (st.idx + 1 < str.length) := by omega
          simp only [hc]
          have htag : tagCase str { st with idx := st.idx + 1 }
              = shiftResult st.idx (tagCase (str.drop st.idx) { st with idx := 1 }) := by
            rw [tagCase_drop str _ (by simp only []; omega),
              tagCase_drop (str.drop st.idx) _ (by simp only [List.length_drop]; omega)]
            simp only [List.drop_drop, shiftResult_shiftResult, Nat.add_comm 1]
          by_cases h2 : st.idx + 1 < str.length
          · simp only [if_pos h2]
            cases byteAt str (st.idx + 1) with
            | error f => rfl
            | ok c =>
              cases hn : isNumeric c with
              | true =>
                by_cases h4 : st.fieldNum < idxReleaseType
                · simp [hn, h4, shiftResult, Step.shift, Nat.add_comm]
                · by_cases h9 : st.fieldNum < idxSpecifierType
                  · simp [hn, h4, h9, shiftResult, Step.shift, Nat.add_comm]
                  · simp [hn, h4, h9, shiftResult, Step.shift]
              | false => simp only [hn]; exact htag
          · simp only [if_neg h2]
            exact htag
        · rw [if_neg hdash, if_neg hdash]
          by_cases hlet : isSmallLetter r = true
          · rw [if_pos hlet, if_pos hlet]
            exact tagCase_drop str st (by omega)
          · rw [if_neg hlet, if_neg hlet]
            by_cases hplus : r = 43
            · rw [if_pos hplus, if_pos hplus]
              exact buildCase_drop str st (by omega)
            · rw [if_neg hplus, if_neg hplus]; rfl

theorem unmarshalLoop_drop (str : List Nat) (fuel : Nat) :
    ∀ st : PState, unmarshalLoop str fuel st
      = unmarshalLoop (str.drop st.idx) fuel { st with idx := 0 } := by
  induction fuel generalizing str with
  | zero =>
    intro st
    unfold unmarshalLoop
    simp only [List.length_drop]
    by_cases h : st.idx < str.length
    · rw [if_pos h, if_pos (show 0 < str.length - st.idx by omega)]
    · rw [if_neg h, if_neg (show ¬ 0 < str.length - st.idx by omega)]
  | succ fuel ih =>
    intro st
    rw [unmarshalLoop, unmarshalLoop]
    simp only [List.length_drop]
    by_cases h : st.idx < str.length
    · rw [if_pos h, if_pos (show 0 < str.length - st.idx by omega)]
      rw [step_drop str st h]
      cases step (str.drop st.idx) { st with idx := 0 } with
      | error f => rfl
      | ok s =>
        cases s with
        | ret t err => rfl
        | next st1 =>
          simp only [shiftResult, Step.shift]
          rw [ih str, ih (str.drop st.idx)]
          simp only [List.drop_drop, Nat.add_comm st1.idx st.idx]
    · rw [if_neg h, if_neg (show ¬ 0 < str.length - st.idx by omega)]

theorem setField_lt (t : Version) (i : Nat) (x : Int) (h : i < 14) :
    setField t i x = .ok (t.set ⟨i, h⟩ x) := by
  unfold setField; rw [dif_pos h]; rfl

theorem int32_of_bounds {x : Int} (h1 : -2147483648 ≤ x) (h2 : x < 2147483648) : int32 x = x := by
  unfold int32 wrapInt
  norm_num
  omega

theorem int32_natCast {n : Nat} (h : n < 10 ^ 9) : int32 (n : Int) = n := by
  apply int32_of_bounds <;> norm_num at h ⊢ <;> omega

theorem byteAt_cons_zero (c : Nat) (cs : List Nat) : byteAt (c :: cs) 0 = .ok c := by
  simp [byteAt]

theorem sliceFrom_zero (str : List Nat) : sliceFrom str 0 = .ok str := by
  simp [sliceFrom]

theorem numericCase_numeral (ds rest : List Nat) (hds : isNumeral ds) (hrest : stopsNumber rest)
    (fn col : Nat) (t : Version) (hfn : fn < 14) :
    numericCase (ds ++ rest) ⟨0, fn, col, t⟩
      = .ok (.next ⟨ds.length, fn, col, t.set ⟨fn, hfn⟩ (decVal ds)⟩) := by
  obtain ⟨hat, hval⟩ := atoui_numeral ds rest hds hrest
  unfold numericCase
  simp only [sliceFrom_zero, hat]
  rw [if_neg (by have := hds.1; have := hds.2.1; omega), int32_natCast hval, setField_lt _ _ _ hfn]
  simp

/-- A numeral at the read position is read into the current field. -/
theorem unmarshalLoop_numeral (ds rest : List Nat) (hds : isNumeral ds) (hrest : stopsNumber rest)
    (fuel fn col : Nat) (t : Version) (hfn : fn < 14) :
    unmarshalLoop (ds ++ rest) (fuel + 1) ⟨0, fn, col, t⟩
      = unmarshalLoop rest fuel ⟨0, fn, col, t.set ⟨fn, hfn⟩ (decVal ds)⟩ := by
  obtain ⟨d, ds1, rfl⟩ : ∃ d ds1, ds = d :: ds1 := by
    cases ds with
    | nil => exact absurd hds.1 (by simp)
    | cons d ds1 => exact ⟨d, ds1, rfl⟩
  have hd : isDigit d := hds.2.2 d (List.mem_cons_self _ _)
  rw [unmarshalLoop, if_pos (by simp)]
  have hstep : step (d :: ds1 ++ rest) ⟨0, fn, col, t⟩
      = .ok (.next ⟨(d :: ds1).length, fn, col, t.set ⟨fn, hfn⟩ (decVal (d :: ds1))⟩) := by
    rw [← numericCase_numeral (d :: ds1) rest hds hrest fn col t hfn]
    unfold step
    simp only [List.cons_append, byteAt_cons_zero]
    rw [if_neg (by unfold isDigit at hd; omega), if_pos (isNumeric_digit hd)]
  simp only [hstep]
  rw [unmarshalLoop_drop]
  simp

/-- A dot and a numeral at the read position: the next field of the group is read. -/
theorem unmarshalLoop_dot_numeral (ds rest : List Nat) (hds : isNumeral ds)
    (hrest : stopsNumber rest) (fuel fn col : Nat) (t : Version) (hfn : fn + 1 < 14)
    (hcol : col + 1 < 4) :
    unmarshalLoop (46 :: (ds ++ rest)) (fuel + 1) ⟨0, fn, col, t⟩
      = unmarshalLoop rest fuel ⟨0, fn + 1, col + 1, t.set ⟨fn + 1, hfn⟩ (decVal ds)⟩ := by
  rw [unmarshalLoop, if_pos (by simp)]
  have hstep : step (46 :: (ds ++ rest)) ⟨0, fn, col, t⟩
      = .ok (.next ⟨ds.length + 1, fn + 1, col + 1, t.set ⟨fn + 1, hfn⟩ (decVal ds)⟩) := by
    unfold step
    simp only [byteAt_cons_zero, if_true]
    rw [if_neg (by have := hds.1; simp only [List.length_cons, List.length_append]; omega)]
    rw [numericCase_drop _ _ (by simp)]
    simp only [List.drop_succ_cons, List.drop_zero, Nat.zero_add]
    rw [numericCase_numeral ds rest hds hrest (fn + 1) (col + 1) t hfn]
    simp [shiftResult, Step.shift]
  simp only [hstep]
  rw [unmarshalLoop_drop]
  simp

theorem unmarshalLoop_nil (fuel : Nat) (st : PState) :
    unmarshalLoop [] fuel st = .ok (st.t, none) := by
  unfold unmarshalLoop; simp

theorem stopsNumber_nil : stopsNumber [] := by
  intro c h; simp at h

theorem stopsNumber_cons {c : Nat} (cs : List Nat) (h : ¬ byteSub c 48 ≤ 9) :
    stopsNumber (c :: cs) := by
  intro d hd
  simp only [List.head?_cons, Option.some.injEq] at hd
  subst hd; exact h

theorem stopsNumber_dotted (ns : List (List Nat)) (rest : List Nat) (hrest : stopsNumber rest) :
    stopsNumber (dotted ns ++ rest) := by
  cases ns with
  | nil => simpa [dotted] using hrest
  | cons n ns => exact stopsNumber_cons _ (by decide)

theorem unmarshalLoop_dotted (rest : List Nat) (hrest : stopsNumber rest) (ns : List (List Nat)) :
    ∀ (fuel fn col : Nat) (t : Version), (∀ n ∈ ns, isNumeral n) → col + ns.length < 4 →
      fn + ns.length < 14 →
      unmarshalLoop (dotted ns ++ rest) (fuel + ns.length) ⟨0, fn, col, t⟩
        = unmarshalLoop rest fuel
            ⟨0, fn + ns.length, col + ns.length, t.setFrom (fn + 1) (ns.map decVal)⟩ := by
  induction ns with
  | nil => intro fuel fn col t _ _ _; simp [dotted, Version.setFrom]
  | cons n ns ih =>
    intro fuel fn col t hns hcol hfn
    simp only [List.length_cons] at hcol hfn
    have hn : isNumeral n := hns n (List.mem_cons_self _ _)
    have hns1 : ∀ m ∈ ns, isNumeral m := fun m hm => hns m (List.mem_cons_of_mem _ hm)
    have h1 : dotted (n :: ns) ++ rest = 46 :: (n ++ (dotted ns ++ rest)) := by
      simp [dotted]
    rw [h1, List.length_cons, ← Nat.add_assoc,
      unmarshalLoop_dot_numeral n _ hn (stopsNumber_dotted ns rest hrest) _ fn col t
        (by omega) (by omega),
      ih fuel (fn + 1) (col + 1) _ hns1 (by omega) (by omega)]
    simp only [List.map_cons, Version.setFrom]
    rw [dif_pos (show fn + 1 < 14 by omega)]
    congr 2 <;> omega

/-- The run of the loop over a numeric core that is followed by `rest`. -/
theorem unmarshalLoop_numericCore (rest : List Nat) (hrest : stopsNumber rest)
    (ns : List (List Nat)) (hns : ∀ n ∈ ns, isNumeral n) (h1 : 1 ≤ ns.length)
    (h4 : ns.length ≤ 4) (fuel : Nat) (t : Version) :
    unmarshalLoop (numericCore ns ++ rest) (fuel + ns.length) ⟨0, 0, 0, t⟩
      = unmarshalLoop rest fuel
          ⟨0, ns.length - 1, ns.length - 1, t.setFrom 0 (ns.map decVal)⟩ := by
  cases ns with
  | nil => simp at h1
  | cons n ns =>
    simp only [List.length_cons] at h4
    have hn : isNumeral n := hns n (List.mem_cons_self _ _)
    have hns1 : ∀ m ∈ ns, isNumeral m := fun m hm => hns m (List.mem_cons_of_mem _ hm)
    have h2 : numericCore (n :: ns) ++ rest = n ++ (dotted ns ++ rest) := by
      simp [numericCore]
    rw [h2, List.length_cons, ← Nat.add_assoc,
      unmarshalLoop_numeral n _ hn (stopsNumber_dotted ns rest hrest) _ 0 0 t (by omega),
      unmarshalLoop_dotted rest hrest ns fuel 0 0 _ hns1 (by omega) (by omega)]
    simp [Version.setFrom]

theorem setFrom_version (xs : List Nat) :
    ∀ (t : Version) (k : Nat) (i : Fin 14), k + xs.length ≤ 14 →
      (t.setFrom k xs).version i
        = if k ≤ i.val ∧ i.val < k + xs.length then ((xs.getD (i.val - k) 0 : Nat) : Int)
          else t.version i := by
  induction xs with
  | nil =>
    intro t k i _
    simp only [Version.setFrom, List.length_nil, Nat.add_zero]
    rw [if_neg (by omega)]
  | cons x xs ih =>
    intro t k i hk
    simp only [List.length_cons] at hk
    have hk14 : k < 14 := by omega
    simp only [Version.setFrom]
    rw [dif_pos hk14, ih _ _ _ (by omega)]
    by_cases h1 : i.val = k
    · have hi : i = ⟨k, hk14⟩ := Fin.ext h1
      rw [if_neg (by omega), if_pos (by simp only [List.length_cons]; omega), h1, hi]
      simp [Version.set]
    · have hne : i ≠ ⟨k, hk14⟩ := fun h => h1 (by rw [h])
      by_cases h2 : k + 1 ≤ i.val ∧ i.val < k + 1 + xs.length
      · rw [if_pos h2, if_pos (by simp only [List.length_cons]; omega)]
        have : i.val - k = (i.val - (k + 1)) + 1 := by omega
        rw [this]; simp
      · rw [if_neg h2, if_neg (by simp only [List.length_cons]; omega)]
        simp [Version.set, Function.update_noteq hne]

theorem setFrom_build (xs : List Nat) : ∀ (t : Version) (k : Nat),
    (t.setFrom k xs).build = t.build := by
  induction xs with
  | nil => intro t k; rfl
  | cons x xs ih =>
    intro t k
    simp only [Version.setFrom]
    split
    · rw [ih]; rfl
    · rfl

theorem length_dotted_ge (ns : List (List Nat)) (hns : ∀ n ∈ ns, isNumeral n) :
    ns.length ≤ (dotted ns).length := by
  induction ns with
  | nil => simp
  | cons n ns ih =>
    have := ih (fun m hm => hns m (List.mem_cons_of_mem _ hm))
    simp only [dotted, List.length_cons, List.length_append]; omega

theorem length_numericCore_ge (ns : List (List Nat)) (hns : ∀ n ∈ ns, isNumeral n) :
    ns.length ≤ (numericCore ns).length := by
  cases ns with
  | nil => simp
  | cons n ns =>
    have := length_dotted_ge ns (fun m hm => hns m (List.mem_cons_of_mem _ hm))
    have := (hns n (List.mem_cons_self _ _)).1
    simp only [numericCore, List.length_cons, List.length_append]; omega

/-- The first byte of a numeric core is a digit. -/
theorem numericCore_head (ns : List (List Nat)) (hns : ∀ n ∈ ns, isNumeral n)
    (h1 : 1 ≤ ns.length) (rest : List Nat) :
    ∃ d cs, isDigit d ∧ numericCore ns ++ rest = d :: cs := by
  cases ns with
  | nil => simp at h1
  | cons n ns =>
    have hn := hns n (List.mem_cons_self _ _)
    cases n with
    | nil => exact absurd hn.1 (by simp)
    | cons d ds =>
      exact ⟨d, ds ++ (dotted ns ++ rest), hn.2.2 d (List.mem_cons_self _ _),
        by simp [numericCore]⟩

/-- What `unmarshalText` does on a text that begins with a numeric core: no
leading `v` is skipped, and the loop goes on behind the core. -/
theorem unmarshalText_numericCore (rest : List Nat) (hrest : stopsNumber rest)
    (ns : List (List Nat)) (hns : ∀ n ∈ ns, isNumeral n) (h1 : 1 ≤ ns.length)
    (h4 : ns.length ≤ 4) (t : Version) :
    t.unmarshalText (numericCore ns ++ rest)
      = unmarshalLoop rest ((numericCore ns ++ rest).length - ns.length)
          ⟨0, ns.length - 1, ns.length - 1, t.setFrom 0 (ns.map decVal)⟩ := by
  obtain ⟨d, cs, hd, hcs⟩ := numericCore_head ns hns h1 rest
  have hlen : ns.length ≤ (numericCore ns ++ rest).length := by
    have := length_numericCore_ge ns hns
    simp only [List.length_append]; omega
  have hb : byteAt (numericCore ns ++ rest) 0 = .ok d := by rw [hcs, byteAt_cons_zero]
  have hv : decide (d = 118) = false := by
    have : d ≠ 118 := by unfold isDigit at hd; omega
    simp [this]
  unfold Version.unmarshalText
  simp only [hb, hv, ite_self, Bool.false_eq_true, if_false]
  have := unmarshalLoop_numericCore rest hrest ns hns h1 h4
    ((numericCore ns ++ rest).length - ns.length) t
  rw [Nat.sub_add_cancel hlen] at this
  exact this

theorem coreVersion_version (ns : List (List Nat)) (h4 : ns.length ≤ 4) (i : Fin 14) :
    (coreVersion ns).version i
      = if h : i.val < ns.length then ((decVal (ns.get ⟨i.val, h⟩) : Nat) : Int) else 0 := by
  unfold coreVersion
  rw [setFrom_version _ _ _ _ (by simp only [List.length_map]; omega)]
  simp only [Nat.zero_le, true_and, Nat.zero_add, List.length_map, Nat.sub_zero]
  by_cases h : i.val < ns.length
  · rw [if_pos h, dif_pos h, List.getD_eq_getElem _ _ (by simpa using h)]
    simp
  · rw [if_neg h, dif_neg h]; rfl

theorem coreVersion_build (ns : List (List Nat)) : (coreVersion ns).build = 0 := by
  unfold coreVersion; rw [setFrom_build]; rfl

/-- What `NewVersion` returns for a numeric core. -/
theorem newVersion_core_run (ns : List (List Nat)) (h1 : 1 ≤ ns.length) (h4 : ns.length ≤ 4)
    (hns : ∀ n ∈ ns, isNumeral n) :
    NewVersion (numericCore ns) = .ok (coreVersion ns, none) := by
  have := unmarshalText_numericCore [] stopsNumber_nil ns hns h1 h4 Version.zero
  rw [List.append_nil, unmarshalLoop_nil] at this
  exact this

/-- C7: a text of one to four dot-separated numerals of 1 to 9 digits (leading
zeros allowed) is accepted by `NewVersion`; field `i` of the result is the
value of the numeral `i`, every further field is zero, so that the release
type and the specifier type are `common`, and the build number is zero. -/
theorem newVersion_numericCore (ns : List (List Nat)) (h1 : 1 ≤ ns.length)
    (h4 : ns.length ≤ 4) (hns : ∀ n ∈ ns, isNumeral n) :
    ∃ v, NewVersion (numericCore ns) = .ok (v, none)
      ∧ (∀ (i : Fin 14) (h : i.val < ns.length),
          v.version i = ((decVal (ns.get ⟨i.val, h⟩) : Nat) : Int))
      ∧ (∀ i : Fin 14, ns.length ≤ i.val → v.version i = 0)
      ∧ v.version ⟨idxReleaseType, by decide⟩ = common
      ∧ v.version ⟨idxSpecifierType, by decide⟩ = common
      ∧ v.build = 0 := by
  refine ⟨coreVersion ns, newVersion_core_run ns h1 h4 hns, ?_, ?_, ?_, ?_,
    coreVersion_build ns⟩
  · intro i h; rw [coreVersion_version ns h4, dif_pos h]
  · intro i h; rw [coreVersion_version ns h4, dif_neg (by omega)]
  · rw [coreVersion_version ns h4, dif_neg (by simp only [idxReleaseType]; omega)]; rfl
  · rw [coreVersion_version ns h4, dif_neg (by simp only [idxSpecifierType]; omega)]; rfl

theorem newVersion_numericCore_witness :
    ∃ v, NewVersion (numericCore [[49], [50, 51], [56]]) = .ok (v, none)
      ∧ (∀ (i : Fin 14) (h : i.val < [[49], [50, 51], [56]].length),
          v.version i = ((decVal ([[49], [50, 51], [56]].get ⟨i.val, h⟩) : Nat) : Int))
      ∧ (∀ i : Fin 14, [[49], [50, 51], [56]].length ≤ i.val → v.version i = 0)
      ∧ v.version ⟨idxReleaseType, by decide⟩ = common
      ∧ v.version ⟨idxSpecifierType, by decide⟩ = common
      ∧ v.build = 0 :=
  newVersion_numericCore [[49], [50, 51], [56]] (by decide) (by decide) (by decide)

/-- C10: five dot-separated numerals of 1 to 9 digits are rejected by
`NewVersion`, and the error is `errTooManyColumns`. -/
theorem newVersion_five_columns (n1 n2 n3 n4 n5 : List Nat) (h1 : isNumeral n1)
    (h2 : isNumeral n2) (h3 : isNumeral n3) (h4 : isNumeral n4) (_h5 : isNumeral n5) :
    ∃ v, NewVersion (numericCore [n1, n2, n3, n4, n5]) = .ok (v, some errTooManyColumns) := by
  have hns : ∀ n ∈ [n1, n2, n3, n4], isNumeral n := by
    intro n hn
    simp only [List.mem_cons, List.mem_singleton, List.not_mem_nil, or_false] at hn
    rcases hn with rfl | rfl | rfl | rfl <;> assumption
  have hsplit : numericCore [n1, n2, n3, n4, n5] = numericCore [n1, n2, n3, n4] ++ 46 :: n5 := by
    simp [numericCore, dotted]
  have hlen := length_numericCore_ge [n1, n2, n3, n4] hns
  have := unmarshalText_numericCore (46 :: n5) (stopsNumber_cons _ (by decide))
    [n1, n2, n3, n4] hns (by simp) (by simp) Version.zero
  refine ⟨coreVersion [n1, n2, n3, n4], ?_⟩
  unfold NewVersion
  rw [hsplit, this]
  obtain ⟨f, hf⟩ : ∃ f, (numericCore [n1, n2, n3, n4] ++ 46 :: n5).length
      - [n1, n2, n3, n4].length = f + 1 := by
    refine ⟨(numericCore [n1, n2, n3, n4] ++ 46 :: n5).length - [n1, n2, n3, n4].length - 1, ?_⟩
    simp only [List.length_append, List.length_cons] at hlen ⊢
    omega
  rw [hf, unmarshalLoop, if_pos (by simp)]
  simp [step, byteAt_cons_zero, coreVersion]

theorem newVersion_five_columns_witness :
    ∃ v, NewVersion (numericCore [[49], [48], [48], [48], [52]])
      = .ok (v, some errTooManyColumns) :=
  newVersion_five_columns [49] [48] [48] [48] [52] (by decide) (by decide) (by decide)
    (by decide) (by decide)

theorem isSmallLetter_lower {c : Nat} (h : isLower c) : isSmallLetter c = true := by
  unfold isLower at h; unfold isSmallLetter byteSub; simp; omega

theorem isNumeric_lower {c : Nat} (h : isLower c) : isNumeric c = false := by
  unfold isLower at h; unfold isNumeric byteSub; simp; omega

theorem scanLetters_word (w : List Nat) (hw : ∀ c ∈ w, isLower c) (k : Nat) :
    scanLetters w k = k + w.length := by
  induction w generalizing k with
  | nil => rfl
  | cons c cs ih =>
    simp only [scanLetters]
    rw [if_pos (isSmallLetter_lower (hw c (List.mem_cons_self _ _))),
      ih (fun d hd => hw d (List.mem_cons_of_mem _ hd))]
    simp only [List.length_cons]; omega

/-- The tag case on a word that ends the text, read from index 1 (behind a
dash). -/
theorem tagCase_word_end (c0 : Nat) (w : List Nat) (hw : isWord w) (fn col : Nat) (t : Version) :
    tagCase (c0 :: w) ⟨1, fn, col, t⟩
      = match releaseValue w with
        | none => .ok (.ret t (some errInvalidVersionString))
        | some typ =>
          if fn < idxReleaseType then
            .ok (.next ⟨1 + w.length, idxReleaseType + 1, 0, t.set ⟨idxReleaseType, by decide⟩ (int32 typ)⟩)
          else if fn < idxSpecifierType then
            .ok (.next ⟨1 + w.length, idxSpecifierType + 1, 0, t.set ⟨idxSpecifierType, by decide⟩ (int32 typ)⟩)
          else .ok (.ret t (some errInvalidVersionString)) := by
  obtain ⟨c, cs, rfl⟩ : ∃ c cs, w = c :: cs := by
    cases w with
    | nil => exact absurd rfl hw.1
    | cons c cs => exact ⟨c, cs, rfl⟩
  have hcs : ∀ d ∈ cs, isLower d := fun d hd => hw.2 d (List.mem_cons_of_mem _ hd)
  unfold tagCase
  simp only [List.drop_succ_cons, List.drop_zero, scanLetters_word cs hcs, List.length_cons]
  rw [if_neg (by omega)]
  have hslice : slice (c0 :: c :: cs) 1 (1 + 1 + cs.length) = .ok (c :: cs) := by
    unfold slice
    rw [if_pos (by simp only [List.length_cons]; omega)]
    rw [show 1 + 1 + cs.length = (cs.length + 1) + 1 by omega]
    simp
  simp only [hslice]
  cases releaseValue (c :: cs) with
  | none => rfl
  | some typ =>
    simp only []
    by_cases h4 : fn < idxReleaseType
    · rw [if_pos (Or.inl h4), if_pos h4, if_pos h4, setField_lt _ _ _ (by decide)]
      simp only []
      rw [if_neg (by omega)]
      simp; omega
    · by_cases h9 : fn < idxSpecifierType
      · rw [if_pos (Or.inr h9), if_neg h4, if_neg h4, if_pos h9, setField_lt _ _ _ (by decide)]
        simp only []
        rw [if_neg (by omega)]
        simp; omega
      · rw [if_neg (by simp only [not_or]; exact ⟨h4, h9⟩), if_neg h4, if_neg h9]

theorem releaseValue_eq_some {w : List Nat} {typ : Int} (hw : w ≠ []) :
    releaseValue w = some typ ↔ (w, typ) ∈ tagTable := by
  unfold releaseValue tagTable
  simp only [List.mem_cons, Prod.mk.injEq, List.mem_singleton, List.not_mem_nil, or_false]
  constructor
  · intro h
    split_ifs at h <;> simp_all
  · rintro (⟨rfl, rfl⟩ | ⟨rfl, rfl⟩ | ⟨rfl, rfl⟩ | ⟨rfl, rfl⟩ | ⟨rfl, rfl⟩ | ⟨rfl, rfl⟩) <;> rfl

theorem releaseValue_eq_none {w : List Nat} (hw : w ≠ []) :
    releaseValue w = none ↔ w ∉ tagTable.map Prod.fst := by
  unfold releaseValue tagTable
  simp only [List.map_cons, List.map_nil, List.mem_cons, List.mem_singleton, List.not_mem_nil,
    or_false, not_or]
  constructor
  · intro h
    split_ifs at h with h1 h2 h3 h4 h5 h6
    exact ⟨h1, h2, h3, h4, h5, h6⟩
  · rintro ⟨h1, h2, h3, h5, h6, h7⟩
    simp [h1, h2, h3, h5, h6, h7, hw]

theorem releaseValue_range {w : List Nat} {typ : Int} (h : releaseValue w = some typ) :
    -4 ≤ typ ∧ typ ≤ 2 := by
  unfold releaseValue at h
  split_ifs at h <;> simp only [Option.some.injEq] at h <;> subst h <;> decide

/-- At the end of the text the loop returns without an error. -/
theorem unmarshalLoop_end (str : List Nat) (fuel : Nat) (st : PState)
    (h : str.length ≤ st.idx) : unmarshalLoop str fuel st = .ok (st.t, none) := by
  unfold unmarshalLoop
  rw [if_neg (by omega)]

/-- The pass of the loop over a dash and a word that ends the text. -/
theorem unmarshalLoop_dash_word_end (w : List Nat) (hw : isWord w) (fuel fn col : Nat)
    (t : Version) (hfn : fn < idxReleaseType) :
    unmarshalLoop (45 :: w) (fuel + 1) ⟨0, fn, col, t⟩
      = match releaseValue w with
        | none => .ok (t, some errInvalidVersionString)
        | some typ => .ok (t.set ⟨idxReleaseType, by decide⟩ typ, none) := by
  obtain ⟨c, cs, rfl⟩ : ∃ c cs, w = c :: cs := by
    cases w with
    | nil => exact absurd rfl hw.1
    | cons c cs => exact ⟨c, cs, rfl⟩
  have hc : isLower c := hw.2 c (List.mem_cons_self _ _)
  have hstep : step (45 :: c :: cs) ⟨0, fn, col, t⟩ = tagCase (45 :: c :: cs) ⟨1, fn, col, t⟩ := by
    unfold step
    simp only [byteAt_cons_zero]
    rw [if_neg (by decide), if_neg (by decide), if_pos (by decide)]
    have h1 : byteAt (45 :: c :: cs) (0 + 1) = .ok c := by simp [byteAt]
    simp only [List.length_cons, h1, isNumeric_lower hc]
    rw [if_pos (by omega)]
  rw [unmarshalLoop, if_pos (by simp), hstep, tagCase_word_end 45 (c :: cs) hw]
  cases h : releaseValue (c :: cs) with
  | none => rfl
  | some typ =>
    have hr := releaseValue_range h
    simp only []
    rw [if_pos hfn]
    simp only []
    rw [unmarshalLoop_end _ _ _ (by simp only [List.length_cons]; omega),
      int32_of_bounds (by omega) (by omega)]

/-- What `NewVersion` returns for a numeric core, a dash and a word. -/
theorem newVersion_core_dash_word_run (ns : List (List Nat)) (h1 : 1 ≤ ns.length)
    (h4 : ns.length ≤ 4) (hns : ∀ n ∈ ns, isNumeral n) (w : List Nat) (hw : isWord w) :
    NewVersion (numericCore ns ++ 45 :: w)
      = match releaseValue w with
        | none => .ok (coreVersion ns, some errInvalidVersionString)
        | some typ => .ok ((coreVersion ns).set ⟨idxReleaseType, by decide⟩ typ, none) := by
  have hlen := length_numericCore_ge ns hns
  unfold NewVersion
  rw [unmarshalText_numericCore (45 :: w) (stopsNumber_cons _ (by decide)) ns hns h1 h4]
  obtain ⟨f, hf⟩ : ∃ f, (numericCore ns ++ 45 :: w).length - ns.length = f + 1 := by
    refine ⟨(numericCore ns ++ 45 :: w).length - ns.length - 1, ?_⟩
    simp only [List.length_append, List.length_cons]
    omega
  rw [hf, unmarshalLoop_dash_word_end w hw f _ _ _ (by simp only [idxReleaseType]; omega)]
  rfl

/-- C8: a numeric core, a dash and a non-empty word of lowercase letters are
accepted by `NewVersion` exactly when the word is one of `alpha`, `beta`,
`pre`, `rc`, `r`, `p`; then the release type (field 4) is -4, -3, -2, -1, 1, 2
respectively, the fields 0–3 are those of the core, every other field and the
build number are zero; otherwise the error is `errInvalidVersionString`. -/
theorem newVersion_core_dash_word (ns : List (List Nat)) (h1 : 1 ≤ ns.length)
    (h4 : ns.length ≤ 4) (hns : ∀ n ∈ ns, isNumeral n) (w : List Nat) (hw : isWord w) :
    ((∃ v, NewVersion (numericCore ns ++ 45 :: w) = .ok (v, none))
        ↔ w ∈ tagTable.map Prod.fst)
      ∧ (∀ typ, (w, typ) ∈ tagTable →
          ∃ v, NewVersion (numericCore ns ++ 45 :: w) = .ok (v, none)
            ∧ v.version ⟨idxReleaseType, by decide⟩ = typ
            ∧ (∀ (i : Fin 14) (h : i.val < ns.length),
                v.version i = ((decVal (ns.get ⟨i.val, h⟩) : Nat) : Int))
            ∧ (∀ i : Fin 14, ns.length ≤ i.val → i.val ≠ idxReleaseType → v.version i = 0)
            ∧ v.build = 0)
      ∧ (w ∉ tagTable.map Prod.fst →
          ∃ v, NewVersion (numericCore ns ++ 45 :: w) = .ok (v, some errInvalidVersionString)) := by
  have hrun := newVersion_core_dash_word_run ns h1 h4 hns w hw
  have hsome : ∀ typ, (w, typ) ∈ tagTable → NewVersion (numericCore ns ++ 45 :: w)
      = .ok ((coreVersion ns).set ⟨idxReleaseType, by decide⟩ typ, none) := by
    intro typ htyp
    rw [hrun, (releaseValue_eq_some hw.1).2 htyp]
  have hnone : w ∉ tagTable.map Prod.fst → NewVersion (numericCore ns ++ 45 :: w)
      = .ok (coreVersion ns, some errInvalidVersionString) := by
    intro hnot
    rw [hrun, (releaseValue_eq_none hw.1).2 hnot]
  refine ⟨⟨?_, ?_⟩, ?_, fun hnot => ⟨_, hnone hnot⟩⟩
  · rintro ⟨v, hv⟩
    by_contra hnot
    rw [hnone hnot] at hv
    simp at hv
  · intro hmem
    obtain ⟨⟨w1, typ⟩, hmem1, rfl⟩ := List.mem_map.1 hmem
    exact ⟨_, hsome typ hmem1⟩
  · intro typ htyp
    refine ⟨_, hsome typ htyp, ?_, ?_, ?_, ?_⟩
    · simp [Version.set]
    · intro i h
      have hne : i ≠ ⟨idxReleaseType, by decide⟩ := by
        intro hi; rw [hi] at h; simp only [idxReleaseType] at h; omega
      simp only [Version.set, Function.update_noteq hne]
      rw [coreVersion_version ns h4, dif_pos h]
    · intro i h hi
      have hne : i ≠ ⟨idxReleaseType, by decide⟩ := fun h => hi (by rw [h])
      simp only [Version.set, Function.update_noteq hne]
      rw [coreVersion_version ns h4, dif_neg (by omega)]
    · exact coreVersion_build ns

theorem newVersion_core_dash_word_witness :
    ∃ v, NewVersion (numericCore [[49], [50, 51], [56]] ++ 45 :: [97, 108, 112, 104, 97])
        = .ok (v, none)
      ∧ v.version ⟨idxReleaseType, by decide⟩ = alpha := by
  obtain ⟨v, hv, h4, _⟩ := (newVersion_core_dash_word [[49], [50, 51], [56]] (by decide)
    (by decide) (by decide) [97, 108, 112, 104, 97] (by decide)).2.1 alpha (by decide)
  exact ⟨v, hv, h4⟩

theorem int8_of_bounds {x : Int} (h1 : -128 ≤ x) (h2 : x < 128) : int8 x = x := by
  unfold int8 wrapInt
  norm_num
  omega

/-- The sign computed from the sign bits, for a difference that fits `int32`. -/
theorem signBits (x : Int) (h1 : -2147483648 < x) (h2 : x < 2147483648) :
    int8 (int32 (int32 x >>> (31 : Nat) - int32 (-(int32 x)) >>> (31 : Nat)))
      = if x < 0 then -1 else if x = 0 then 0 else 1 := by
  have e0 : int32 x = x := int32_of_bounds (by omega) h2
  have e0' : int32 (-x) = -x := int32_of_bounds (by omega) (by omega)
  have e1 : x >>> (31 : Nat) = x / 2147483648 := by
    rw [Int.shiftRight_eq_div_pow]; norm_num
  have e2 : (-x) >>> (31 : Nat) = (-x) / 2147483648 := by
    rw [Int.shiftRight_eq_div_pow]; norm_num
  rw [e0, e0', e1, e2]
  have h3 : -1 ≤ x / 2147483648 - -x / 2147483648 ∧ x / 2147483648 - -x / 2147483648 ≤ 1 := by
    omega
  rw [int32_of_bounds (by omega) (by omega), int8_of_bounds (by omega) (by omega)]
  split_ifs <;> omega

/-- One pass of the loop of `signDelta`, for two fields whose difference fits
`int32`. -/
theorem signDeltaOver_cons (a b : Fin 14 → Int) (i : Fin 14) (rest : List (Fin 14))
    (h1 : -2147483648 < a i - b i) (h2 : a i - b i < 2147483648) :
    signDeltaOver a b (i :: rest)
      = if a i = b i then signDeltaOver a b rest else if a i < b i then -1 else 1 := by
  simp only [signDeltaOver]
  split
  · rfl
  · rename_i hne
    rw [signBits _ h1 h2]
    split_ifs <;> omega

theorem signDeltaOver_cons_eq (a b : Fin 14 → Int) (i : Fin 14) (rest : List (Fin 14))
    (h : a i = b i) : signDeltaOver a b (i :: rest) = signDeltaOver a b rest := by
  simp only [signDeltaOver, if_pos h]

theorem finRange_filter_14 :
    (List.finRange 14).filter (fun i => decide (i.val < 14))
      = [0, 1, 2, 3, 4, 5, 6, 7, 8, 9, 10, 11, 12, 13] := by decide

theorem finRange_filter_9 :
    (List.finRange 14).filter (fun i => decide (i.val < idxSpecifierType))
      = [0, 1, 2, 3, 4, 5, 6, 7, 8] := by decide

theorem finRange_filter_4 :
    (List.finRange 14).filter (fun i => decide (i.val < idxReleaseType))
      = [0, 1, 2, 3] := by decide

/-- Two tuples that agree on the fields 0–3 and differ in the release type are
ordered by the release type. -/
theorem signDelta_releaseType (a b : Fin 14 → Int) (h0 : a 0 = b 0) (h1 : a 1 = b 1)
    (h2 : a 2 = b 2) (h3 : a 3 = b 3) (hlt : a 4 < b 4) (ha : -4 ≤ a 4) (hb : b 4 ≤ 2) :
    signDelta a b 14 = -1 := by
  unfold signDelta
  rw [finRange_filter_14, signDeltaOver_cons_eq _ _ _ _ h0, signDeltaOver_cons_eq _ _ _ _ h1,
    signDeltaOver_cons_eq _ _ _ _ h2, signDeltaOver_cons_eq _ _ _ _ h3,
    signDeltaOver_cons _ _ _ _ (by omega) (by omega), if_neg (by omega), if_pos hlt]

theorem finRange_14 :
    List.finRange 14 = [0, 1, 2, 3, 4, 5, 6, 7, 8, 9, 10, 11, 12, 13] := by decide

theorem compare_releaseType (a b : Version) (h0 : a.version 0 = b.version 0)
    (h1 : a.version 1 = b.version 1) (h2 : a.version 2 = b.version 2)
    (h3 : a.version 3 = b.version 3) (hlt : a.version 4 < b.version 4) :
    Compare a b = -1 ∧ a.Less b = true := by
  have hs : lexSign a.version b.version (List.finRange 14) = -1 := by
    rw [finRange_14]
    simp only [lexSign, h0, h1, h2, h3, lt_self_iff_false, if_false, hlt, if_true]
  have hc : Compare a b = -1 := by
    unfold Compare
    simp only [hs]
    rfl
  exact ⟨hc, by unfold Version.Less; rw [hc]; decide⟩

theorem set_releaseType_version (t : Version) (x : Int) :
    ((t.set ⟨idxReleaseType, by decide⟩ x).version 0 = t.version 0
      ∧ (t.set ⟨idxReleaseType, by decide⟩ x).version 1 = t.version 1
      ∧ (t.set ⟨idxReleaseType, by decide⟩ x).version 2 = t.version 2
      ∧ (t.set ⟨idxReleaseType, by decide⟩ x).version 3 = t.version 3)
      ∧ (t.set ⟨idxReleaseType, by decide⟩ x).version 4 = x := by
  refine ⟨⟨?_, ?_, ?_, ?_⟩, ?_⟩ <;> simp [Version.set, idxReleaseType, Function.update]

theorem coreVersion_releaseType (ns : List (List Nat)) (h4 : ns.length ≤ 4) :
    (coreVersion ns).version 4 = 0 := by
  rw [coreVersion_version ns h4, dif_neg (by simp; omega)]

/-- C6: for a numeric core `c` of one to four numerals, `NewVersion` accepts
`c-alpha`, `c-beta`, `c-pre`, `c-rc`, `c`, `c-r` and `c-p`, and the versions it
returns are strictly ascending in this order: for each consecutive pair
`signDelta` with cutoff 14 is -1, and so are `Compare` and `Less` as the spec
describes them. -/
theorem releaseTypes_ascending (ns : List (List Nat)) (h1 : 1 ≤ ns.length)
    (h4 : ns.length ≤ 4) (hns : ∀ n ∈ ns, isNumeral n) :
    ∃ vs : List Version,
      (releaseTexts (numericCore ns)).map NewVersion = vs.map (fun v => .ok (v, none))
        ∧ List.Chain' (fun a b => signDelta a.version b.version 14 = -1
            ∧ Compare a b = -1 ∧ a.Less b = true) vs := by
  refine ⟨releaseVersions ns, ?_, ?_⟩
  · simp only [releaseTexts, releaseVersions, List.map_cons, List.map_nil]
    rw [newVersion_core_run ns h1 h4 hns,
      newVersion_core_dash_word_run ns h1 h4 hns _ (by decide),
      newVersion_core_dash_word_run ns h1 h4 hns _ (by decide),
      newVersion_core_dash_word_run ns h1 h4 hns _ (by decide),
      newVersion_core_dash_word_run ns h1 h4 hns _ (by decide),
      newVersion_core_dash_word_run ns h1 h4 hns _ (by decide),
      newVersion_core_dash_word_run ns h1 h4 hns _ (by decide)]
    rfl
  · have hc := coreVersion_releaseType ns h4
    have key : ∀ a b : Version, a.version 0 = b.version 0 → a.version 1 = b.version 1 →
        a.version 2 = b.version 2 → a.version 3 = b.version 3 → a.version 4 < b.version 4 →
        -4 ≤ a.version 4 → b.version 4 ≤ 2 →
        signDelta a.version b.version 14 = -1 ∧ Compare a b = -1 ∧ a.Less b = true :=
      fun a b h0 h1 h2 h3 hlt ha hb =>
        ⟨signDelta_releaseType _ _ h0 h1 h2 h3 hlt ha hb, compare_releaseType a b h0 h1 h2 h3 hlt⟩
    have hs := fun x => set_releaseType_version (coreVersion ns) x
    simp only [releaseVersions, List.chain'_cons, List.chain'_singleton, and_true]
    refine ⟨?_, ?_, ?_, ?_, ?_, ?_⟩ <;> apply key <;>
      simp only [(hs _).1.1, (hs _).1.2.1, (hs _).1.2.2.1, (hs _).1.2.2.2, (hs _).2, hc] <;>
      decide

theorem releaseTypes_ascending_witness :
    ∃ vs : List Version,
      (releaseTexts (numericCore [[49], [48], [48]])).map NewVersion
          = vs.map (fun v => .ok (v, none))
        ∧ List.Chain' (fun a b => signDelta a.version b.version 14 = -1
            ∧ Compare a b = -1 ∧ a.Less b = true) vs :=
  releaseTypes_ascending [[49], [48], [48]] (by decide) (by decide) (by decide)

/-- C3: `IsSatisfiedBy` holds exactly when `Contains` holds and the version is
no pre-release, or a bound that is present is a pre-release and shares the
prefix with it. So `IsSatisfiedBy` implies `Contains`, the two agree on every
version that is no pre-release, and a pre-release is rejected when no present
bound is a pre-release, as `1.2.5-beta` is by the range `1.2.3 - 1.2.9`. -/
theorem isSatisfiedBy_iff (r : Range) (v : Version) :
    (r.IsSatisfiedBy v = true ↔
        r.Contains v = true ∧
          (v.IsAPreRelease = false
            ∨ (r.hasLower = true ∧ r.lower.IsAPreRelease = true
                ∧ r.lower.sharesPrefixWith v = true)
            ∨ (r.hasUpper = true ∧ r.upper.IsAPreRelease = true
                ∧ r.upper.sharesPrefixWith v = true)))
      ∧ (r.IsSatisfiedBy v = true → r.Contains v = true)
      ∧ (v.IsAPreRelease = false → r.IsSatisfiedBy v = r.Contains v)
      ∧ (v.IsAPreRelease = true → (r.hasLower = true → r.lower.IsAPreRelease = false) →
          (r.hasUpper = true → r.upper.IsAPreRelease = false) → r.IsSatisfiedBy v = false)
      ∧ Satisfies (bytesOf "1.2.5-beta") (bytesOf "1.2.3 - 1.2.9") = .ok (false, none)
      ∧ (∃ r0 v0, NewRange (bytesOf "1.2.3 - 1.2.9") = .ok (r0, none)
          ∧ NewVersion (bytesOf "1.2.5-beta") = .ok (v0, none) ∧ r0.Contains v0 = true) := by
  refine ⟨?_, ?_, ?_, ?_, by decide!, ?_⟩
  · unfold Range.IsSatisfiedBy
    cases r.Contains v <;> cases v.IsAPreRelease <;> cases r.hasLower <;> cases r.hasUpper <;>
      cases r.lower.IsAPreRelease <;> cases r.upper.IsAPreRelease <;>
      cases r.lower.sharesPrefixWith v <;> cases r.upper.sharesPrefixWith v <;> simp
  · unfold Range.IsSatisfiedBy
    cases r.Contains v <;> simp
  · intro h
    unfold Range.IsSatisfiedBy
    rw [h]
    cases r.Contains v <;> simp
  · intro h hl hu
    unfold Range.IsSatisfiedBy
    rw [h]
    cases hL : r.hasLower <;> cases hU : r.hasUpper <;> simp_all
  · refine ⟨⟨Version.ofList [1, 2, 3] 0, Version.ofList [1, 2, 9] 0, true, true, true, true⟩,
      Version.ofList [1, 2, 5, 0, -3] 0, by decide!, by decide!, by decide!⟩

/-- C4, the code at the failing input: `NewRange` returns the empty range for
the empty text, for `*` and for `x`, and the empty range does not contain the
version `1.0.0`, because `Contains` finds its two zero bounds identical and
compares the version with them. -/
theorem emptyRange_not_contains :
    NewRange [] = .ok (Range.zero, none)
      ∧ NewRange (bytesOf "*") = .ok (Range.zero, none)
      ∧ NewRange (bytesOf "x") = .ok (Range.zero, none)
      ∧ Range.zero.hasLower = false ∧ Range.zero.hasUpper = false
      ∧ NewVersion (bytesOf "1.0.0") = .ok (Version.ofList [1] 0, none)
      ∧ Range.zero.Contains (Version.ofList [1] 0) = false
      ∧ Range.zero.satisfiesLowerBound (Version.ofList [1] 0) = true
      ∧ Range.zero.satisfiesUpperBound (Version.ofList [1] 0) = true
      ∧ Satisfies (bytesOf "1.0.0") [] = .ok (false, none) := by
  refine ⟨by decide!, by decide!, by decide!, rfl, rfl, by decide!, by decide!, by decide!,
    by decide!, by decide!⟩

theorem signDelta_prefix_eq (a b : Fin 14 → Int) (h0 : a 0 = b 0) (h1 : a 1 = b 1)
    (h2 : a 2 = b 2) (h3 : a 3 = b 3) : signDelta a b idxReleaseType = 0 := by
  unfold signDelta
  rw [finRange_filter_4, signDeltaOver_cons_eq _ _ _ _ h0, signDeltaOver_cons_eq _ _ _ _ h1,
    signDeltaOver_cons_eq _ _ _ _ h2, signDeltaOver_cons_eq _ _ _ _ h3]
  rfl

/-- C5: a range whose upper bound is present, exclusive and of release type
`common`, and whose two bounds are not identical, contains no version that has
the major, minor, patch and revision of the upper bound. -/
theorem contains_false_of_upper_prefix (r : Range) (v : Version) (hU : r.hasUpper = true)
    (hx : r.equalsUpper = false) (hc : r.upper.version ⟨idxReleaseType, by decide⟩ = common)
    (hne : r.upper ≠ r.lower) (h0 : v.version 0 = r.upper.version 0)
    (h1 : v.version 1 = r.upper.version 1) (h2 : v.version 2 = r.upper.version 2)
    (h3 : v.version 3 = r.upper.version 3) : r.Contains v = false := by
  have hp : r.upper.sharesPrefixWith v = true := by
    unfold Version.sharesPrefixWith
    rw [signDelta_prefix_eq _ _ h0.symm h1.symm h2.symm h3.symm]
    rfl
  have hu : r.satisfiesUpperBound v = false := by
    unfold Range.satisfiesUpperBound
    simp [hU, hx, hc, hp]
  unfold Range.Contains
  rw [if_neg hne, hu, Bool.and_false]

theorem contains_false_of_upper_prefix_witness :
    (⟨Version.ofList [1, 2, 3] 0, Version.ofList [2] 0, true, true, true, false⟩ : Range).Contains
      (Version.ofList [2, 0, 0, 0, -4, 1] 0) = false :=
  contains_false_of_upper_prefix
    ⟨Version.ofList [1, 2, 3] 0, Version.ofList [2] 0, true, true, true, false⟩
    (Version.ofList [2, 0, 0, 0, -4, 1] 0) rfl rfl (by decide) (by decide) (by decide)
    (by decide) (by decide) (by decide)

theorem hasSuffix_false (l suf : List Nat) (d x : Nat) (hl : l.getLast? = some d)
    (hs : suf.getLast? = some x) (hne : d ≠ x) : hasSuffix l suf = false := by
  unfold hasSuffix
  cases h : suf.isSuffixOf l with
  | false => rfl
  | true =>
    exfalso
    obtain ⟨t, rfl⟩ := List.isSuffixOf_iff_suffix.1 h
    rw [List.getLast?_append, hs] at hl
    simp only [Option.or_some, Option.some.injEq] at hl
    exact hne hl.symm

theorem numeral_getLast (p : List Nat) (hp : isNumeral p) :
    ∃ d, isDigit d ∧ p.getLast? = some d := by
  cases h : p.getLast? with
  | none =>
    rw [List.getLast?_eq_none_iff] at h
    exact absurd hp.1 (by simp [h])
  | some d => exact ⟨d, hp.2.2 d (List.mem_of_getLast?_eq_some h), rfl⟩

theorem numeral_cons (p : List Nat) (hp : isNumeral p) :
    ∃ d ds, isDigit d ∧ p = d :: ds := by
  cases p with
  | nil => exact absurd hp.1 (by simp)
  | cons d ds => exact ⟨d, ds, hp.2.2 d (List.mem_cons_self _ _), rfl⟩

theorem indexByte_nonneg_of_mem (l : List Nat) (c : Nat) (h : c ∈ l) : 0 ≤ indexByte l c := by
  induction l with
  | nil => simp at h
  | cons b bs ih =>
    simp only [indexByte]
    by_cases hb : b = c
    · rw [if_pos hb]
    · rw [if_neg hb]
      have hc : c ∈ bs := by
        rcases List.mem_cons.1 h with h1 | h1
        · exact absurd h1.symm hb
        · exact h1
      have := ih hc
      rw [if_neg (by omega)]
      omega

theorem triple_eq (M m p : List Nat) : triple M m p = M ++ 46 :: (m ++ 46 :: p) := by
  simp [triple, numericCore, dotted]

theorem triple_getLast (c : Nat) (M m p : List Nat) (hp : isNumeral p) :
    ∃ d, isDigit d ∧ (c :: triple M m p).getLast? = some d := by
  obtain ⟨d, hd, hl⟩ := numeral_getLast p hp
  refine ⟨d, hd, ?_⟩
  rw [triple_eq, show c :: (M ++ 46 :: (m ++ 46 :: p)) = (c :: (M ++ 46 :: (m ++ [46]))) ++ p by simp,
    List.getLast?_append, hl]
  rfl

theorem triple_noSuffix (c : Nat) (M m p : List Nat) (hp : isNumeral p) :
    (hasSuffix (c :: triple M m p) [46, 120] || hasSuffix (c :: triple M m p) [46, 42]) = false := by
  obtain ⟨d, hd, hl⟩ := triple_getLast c M m p hp
  unfold isDigit at hd
  rw [hasSuffix_false _ [46, 120] d 120 hl rfl (by omega),
    hasSuffix_false _ [46, 42] d 42 hl rfl (by omega)]
  rfl

theorem newRangeFuel_caret_tilde (c : Nat) (hc : c = 94 ∨ c = 126) (M m p : List Nat)
    (hp : isNumeral p) (fuel : Nat) :
    NewRangeFuel (fuel + 1) (c :: triple M m p)
      = newRangeByShortcut (NewRangeFuel fuel) (c :: triple M m p) := by
  have hlen : (c :: triple M m p).length ≠ 1 := by
    rw [triple_eq]; simp
  have hlen0 : (c :: triple M m p).length ≠ 0 := by simp
  rw [NewRangeFuel]
  simp only [hlen, hlen0, if_false, triple_noSuffix c M m p hp, byteAt_cons_zero, hc, if_true,
    false_or, Bool.false_eq_true]

theorem trimLeft_caret_tilde (c : Nat) (hc : c = 94 ∨ c = 126) (d : Nat) (hd : isDigit d)
    (l : List Nat) : trimLeft (c :: d :: l) [126, 94] = d :: l := by
  unfold isDigit at hd
  have h1 : decide (c ∈ [126, 94]) = true := by
    rcases hc with rfl | rfl <;> decide
  have h2 : decide (d ∈ [126, 94]) = false := by
    simp only [List.mem_cons, List.mem_singleton, List.not_mem_nil, or_false, decide_eq_false_iff_not]
    omega
  simp only [trimLeft, List.dropWhile_cons, h1, h2, if_true]
  rfl

theorem triple_isNumeral (M m p : List Nat) (hM : isNumeral M) (hm : isNumeral m)
    (hp : isNumeral p) : ∀ n ∈ [M, m, p], isNumeral n := by
  intro n hn
  simp only [List.mem_cons, List.mem_singleton, List.not_mem_nil, or_false] at hn
  rcases hn with rfl | rfl | rfl <;> assumption

theorem newVersion_triple (M m p : List Nat) (hM : isNumeral M) (hm : isNumeral m)
    (hp : isNumeral p) : NewVersion (triple M m p) = .ok (coreVersion [M, m, p], none) :=
  newVersion_core_run [M, m, p] (by simp) (by simp) (triple_isNumeral M m p hM hm hp)

theorem coreVersion_triple_fields (M m p : List Nat) :
    (coreVersion [M, m, p]).version 0 = (decVal M : Nat)
      ∧ (coreVersion [M, m, p]).version 1 = (decVal m : Nat) := by
  constructor
  · rw [coreVersion_version _ (by simp), dif_pos (by simp)]; rfl
  · rw [coreVersion_version _ (by simp), dif_pos (by simp)]; rfl

theorem version_ext (a b : Version) (hv : ∀ i, a.version i = b.version i)
    (hb : a.build = b.build) : a = b := by
  cases a; cases b
  simp only [Version.mk.injEq]
  exact ⟨funext hv, hb⟩

theorem update_zero_eq_ofList (x : Int) :
    (⟨Function.update Version.zero.version 0 x, Version.zero.build⟩ : Version)
      = Version.ofList [x] 0 := by
  refine version_ext _ _ (fun i => ?_) rfl
  by_cases h : i = 0
  · subst h; simp [Version.ofList]
  · have hv : i.val ≠ 0 := fun hv => h (Fin.ext hv)
    obtain ⟨k, hk⟩ : ∃ k, i.val = k + 1 := ⟨i.val - 1, by omega⟩
    simp [Version.ofList, Function.update_noteq h, Version.zero, hk]

theorem update_zero_one_eq_ofList (x y : Int) :
    (⟨Function.update (Function.update Version.zero.version 0 x) 1 y,
        Version.zero.build⟩ : Version)
      = Version.ofList [x, y] 0 := by
  refine version_ext _ _ (fun i => ?_) rfl
  by_cases h1 : i = 1
  · subst h1; simp [Version.ofList]
  · by_cases h : i = 0
    · subst h; simp [Version.ofList]
    · have hv : i.val ≠ 0 := fun hv => h (Fin.ext hv)
      have hv1 : i.val ≠ 1 := fun hv => h1 (Fin.ext hv)
      obtain ⟨k, hk⟩ : ∃ k, i.val = k + 2 := ⟨i.val - 2, by omega⟩
      simp [Version.ofList, Function.update_noteq h, Function.update_noteq h1, Version.zero, hk]

/-- The range that a caret or a tilde before `M.m.p` stands for, when `M` does
not begin with `0`. -/
theorem newRange_shortcut_major (c : Nat) (hc : c = 94 ∨ c = 126) (M m p : List Nat)
    (hM : isNumeral M) (hm : isNumeral m) (hp : isNumeral p) (h0 : M.head? ≠ some 48) :
    NewRange (c :: triple M m p)
      = .ok (⟨coreVersion [M, m, p],
          if c = 94 then Version.ofList [(decVal M : Nat) + 1] 0
          else Version.ofList [(decVal M : Nat), (decVal m : Nat) + 1] 0,
          true, true, true, false⟩, none) := by
  obtain ⟨d, ds, hd, rfl⟩ := numeral_cons M hM
  have hd48 : d ≠ 48 := by simpa using h0
  have hM9 := (atoui_numeral (d :: ds) [] hM stopsNumber_nil).2
  have hm9 := (atoui_numeral m [] hm stopsNumber_nil).2
  obtain ⟨f0, hf1⟩ := coreVersion_triple_fields (d :: ds) m p
  unfold NewRange
  rw [newRangeFuel_caret_tilde c hc _ m p hp]
  unfold newRangeByShortcut
  have ht : trimLeft (c :: triple (d :: ds) m p) [126, 94] = triple (d :: ds) m p := by
    rw [triple_eq]; exact trimLeft_caret_tilde c hc d hd _
  have hpre4 : hasPrefix (triple (d :: ds) m p) [48, 46, 48, 46] = false := by
    rw [triple_eq]; simp [hasPrefix, List.isPrefixOf, hd48, Ne.symm hd48]
  have hpre2 : hasPrefix (triple (d :: ds) m p) [48, 46] = false := by
    rw [triple_eq]; simp [hasPrefix, List.isPrefixOf, hd48, Ne.symm hd48]
  have hidx : ¬ indexByte (triple (d :: ds) m p) 46 ≤ -1 := by
    have := indexByte_nonneg_of_mem (triple (d :: ds) m p) 46 (by rw [triple_eq]; simp)
    omega
  simp only [ht, newVersion_triple _ m p hM hm hp, hpre4, hpre2, byteAt_cons_zero, hidx, or_false,
    Bool.false_eq_true, if_false, f0, hf1]
  rw [int32_of_bounds (by omega) (by norm_num at hM9; omega),
    int32_of_bounds (by omega) (by norm_num at hm9; omega)]
  rcases hc with rfl | rfl
  · simp only [if_true, update_zero_eq_ofList]
  · simp only [show ¬ (126 = 94) by decide, if_false, if_true, update_zero_one_eq_ofList]

/-- The range that a caret before `0.m.p` stands for, when `m` does not begin
with `0`. -/
theorem newRange_shortcut_zero (m p : List Nat) (hm : isNumeral m) (hp : isNumeral p)
    (h0 : m.head? ≠ some 48) :
    NewRange (94 :: triple [48] m p)
      = .ok (⟨coreVersion [[48], m, p], Version.ofList [0, (decVal m : Nat) + 1] 0,
          true, true, true, false⟩, none) := by
  obtain ⟨d, ds, hd, rfl⟩ := numeral_cons m hm
  have hd48 : d ≠ 48 := by simpa using h0
  have hM : isNumeral [48] := by decide
  have hm9 := (atoui_numeral (d :: ds) [] hm stopsNumber_nil).2
  obtain ⟨f0, hf1⟩ := coreVersion_triple_fields [48] (d :: ds) p
  unfold NewRange
  rw [newRangeFuel_caret_tilde 94 (Or.inl rfl) _ _ p hp]
  unfold newRangeByShortcut
  have ht : trimLeft (94 :: triple [48] (d :: ds) p) [126, 94] = triple [48] (d :: ds) p := by
    rw [triple_eq]; exact trimLeft_caret_tilde 94 (Or.inl rfl) 48 (by decide) _
  have hpre4 : hasPrefix (triple [48] (d :: ds) p) [48, 46, 48, 46] = false := by
    rw [triple_eq]; simp [hasPrefix, List.isPrefixOf, hd48, Ne.symm hd48]
  have hpre2 : hasPrefix (triple [48] (d :: ds) p) [48, 46] = true := by
    rw [triple_eq]; simp [hasPrefix, List.isPrefixOf]
  simp only [ht, newVersion_triple _ _ p hM hm hp, hpre4, hpre2,
    Bool.false_eq_true, if_false, if_true, f0, hf1]
  rw [int32_of_bounds (by omega) (by norm_num at hm9; omega)]
  simp only [update_zero_one_eq_ofList]
  rfl

theorem canonical_head (M : List Nat) (hM : isCanonical M) (h1 : 1 ≤ decVal M) :
    M.head? ≠ some 48 := by
  intro h
  rw [hM.2 h] at h1
  exact absurd h1 (by decide)

/-- C1: for canonical numerals `M`, `m`, `p` with `M ≥ 1`, `NewRange` of `^M.m.p`
is the range from `NewVersion` of `M.m.p`, inclusive, to the plain version
`(M+1).0.0`, exclusive; `NewRange` of `~M.m.p` has the upper bound `M.(m+1).0`
instead; and for `m ≥ 1`, `NewRange` of `^0.m.p` has the exclusive upper bound
`0.(m+1).0`. -/
theorem newRange_caret_tilde (M m p : List Nat) (hM : isCanonical M) (hm : isCanonical m)
    (hp : isCanonical p) :
    (1 ≤ decVal M → ∃ lo, NewVersion (triple M m p) = .ok (lo, none)
        ∧ NewRange (94 :: triple M m p)
            = .ok ({ lower := lo, hasLower := true, equalsLower := true,
                     upper := Version.ofList [(decVal M : Nat) + 1] 0, hasUpper := true,
                     equalsUpper := false }, none)
        ∧ NewRange (126 :: triple M m p)
            = .ok ({ lower := lo, hasLower := true, equalsLower := true,
                     upper := Version.ofList [(decVal M : Nat), (decVal m : Nat) + 1] 0,
                     hasUpper := true, equalsUpper := false }, none))
      ∧ (1 ≤ decVal m → ∃ lo, NewVersion (triple [48] m p) = .ok (lo, none)
        ∧ NewRange (94 :: triple [48] m p)
            = .ok ({ lower := lo, hasLower := true, equalsLower := true,
                     upper := Version.ofList [0, (decVal m : Nat) + 1] 0, hasUpper := true,
                     equalsUpper := false }, none)) := by
  constructor
  · intro h1
    have h0 := canonical_head M hM h1
    refine ⟨coreVersion [M, m, p], newVersion_triple M m p hM.1 hm.1 hp.1, ?_, ?_⟩
    · rw [newRange_shortcut_major 94 (Or.inl rfl) M m p hM.1 hm.1 hp.1 h0, if_pos rfl]
    · rw [newRange_shortcut_major 126 (Or.inr rfl) M m p hM.1 hm.1 hp.1 h0,
        if_neg (by decide)]
  · intro h1
    have h0 := canonical_head m hm h1
    exact ⟨coreVersion [[48], m, p], newVersion_triple [48] m p (by decide) hm.1 hp.1,
      newRange_shortcut_zero m p hm.1 hp.1 h0⟩

theorem newRange_caret_tilde_witness :
    (∃ lo, NewVersion (triple [49] [50] [51]) = .ok (lo, none)
        ∧ NewRange (94 :: triple [49] [50] [51])
            = .ok ({ lower := lo, hasLower := true, equalsLower := true,
                     upper := Version.ofList [(decVal [49] : Nat) + 1] 0, hasUpper := true,
                     equalsUpper := false }, none)
        ∧ NewRange (126 :: triple [49] [50] [51])
            = .ok ({ lower := lo, hasLower := true, equalsLower := true,
                     upper := Version.ofList [(decVal [49] : Nat), (decVal [50] : Nat) + 1] 0,
                     hasUpper := true, equalsUpper := false }, none))
      ∧ (∃ lo, NewVersion (triple [48] [50] [51]) = .ok (lo, none)
        ∧ NewRange (94 :: triple [48] [50] [51])
            = .ok ({ lower := lo, hasLower := true, equalsLower := true,
                     upper := Version.ofList [0, (decVal [50] : Nat) + 1] 0, hasUpper := true,
                     equalsUpper := false }, none)) :=
  ⟨(newRange_caret_tilde [49] [50] [51] (by decide) (by decide) (by decide)).1 (by decide),
   (newRange_caret_tilde [49] [50] [51] (by decide) (by decide) (by decide)).2 (by decide)⟩

theorem atouiLoop_bound (b : List Nat) :
    ∀ (n val : Nat), val < 10 ^ n → (atouiLoop b n val).1 ≤ 9 →
      (atouiLoop b n val).2 < 10 ^ (atouiLoop b n val).1 := by
  induction b with
  | nil => intro n val h _; simpa [atouiLoop] using h
  | cons c cs ih =>
    intro n val h h9
    simp only [atouiLoop] at h9 ⊢
    by_cases h10 : n ≤ 10
    · rw [if_pos h10] at h9 ⊢
      by_cases hv : byteSub c 48 > 9
      · rw [if_pos hv] at h9 ⊢; exact h
      · rw [if_neg hv] at h9 ⊢
        apply ih _ _ _ h9
        have : val * 10 + byteSub c 48 < 10 ^ (n + 1) := by rw [pow_succ]; omega
        exact lt_of_le_of_lt (Nat.mod_le _ _) this
    · rw [if_neg h10] at h9 ⊢; exact h

theorem atoui_bound (b : List Nat) (h : (atoui b).1 < 10) : (atoui b).2 < 10 ^ 9 := by
  have := atouiLoop_bound b 0 0 (by norm_num) (by unfold atoui at h; omega)
  exact lt_of_lt_of_le this (Nat.pow_le_pow_right (by norm_num) (by unfold atoui at h; omega))

theorem inBounds_zero : Version.zero.inBounds := by
  intro i; simp [Version.zero]

theorem inBounds_set (t : Version) (ht : t.inBounds) (i : Fin 14) (x : Int) (h1 : -4 ≤ x)
    (h2 : x < 1000000000) (h3 : i.val ≠ idxReleaseType → i.val ≠ idxSpecifierType → 0 ≤ x) :
    (t.set i x).inBounds := by
  intro j
  by_cases hj : j = i
  · subst hj; simp only [Version.set, Function.update_same]; exact ⟨h1, h2, h3⟩
  · simp only [Version.set, Function.update_noteq hj]; exact ht j

theorem setField_inBounds (t t1 : Version) (ht : t.inBounds) (i : Nat) (x : Int)
    (h : setField t i x = .ok t1) (h1 : -4 ≤ x) (h2 : x < 1000000000)
    (h3 : i ≠ idxReleaseType → i ≠ idxSpecifierType → 0 ≤ x) : t1.inBounds := by
  unfold setField at h
  split at h
  · rename_i hi
    simp only [Except.ok.injEq] at h
    subst h
    exact inBounds_set t ht ⟨i, hi⟩ x h1 h2 h3
  · simp at h

theorem numericCase_inBounds (str : List Nat) (st : PState) (ht : st.t.inBounds) (s : Step)
    (h : numericCase str st = .ok s) : s.version.inBounds := by
  unfold numericCase at h
  cases hs : sliceFrom str st.idx with
  | error f => rw [hs] at h; simp at h
  | ok b =>
    rw [hs] at h
    simp only [] at h
    by_cases hd : (atoui b).1 = 0 ∨ (atoui b).1 ≥ 10
    · rw [if_pos hd] at h
      simp only [Except.ok.injEq] at h
      subst h; exact ht
    · rw [if_neg hd] at h
      have hb := atoui_bound b (by omega)
      have hint : int32 ((atoui b).2 : Int) = (atoui b).2 := int32_natCast hb
      cases hf : setField st.t st.fieldNum (int32 ((atoui b).2 : Int)) with
      | error f => rw [hf] at h; simp at h
      | ok t1 =>
        rw [hf] at h
        simp only [Except.ok.injEq] at h
        subst h
        rw [hint] at hf
        exact setField_inBounds _ _ ht _ _ hf (by omega) (by norm_num at hb; omega)
          (fun _ _ => by omega)

theorem tagCase_inBounds (str : List Nat) (st : PState) (ht : st.t.inBounds) (s : Step)
    (h : tagCase str st = .ok s) : s.version.inBounds := by
  unfold tagCase at h
  simp only [] at h
  split at h
  · simp only [Except.ok.injEq] at h; subst h; exact ht
  · split at h
    · simp at h
    · rename_i tag _
      split at h
      · simp only [Except.ok.injEq] at h; subst h; exact ht
      · rename_i typ htyp
        have hr := releaseValue_range htyp
        split at h
        · split at h
          · simp at h
          · rename_i t1 hf
            have ht1 : t1.inBounds := by
              refine setField_inBounds _ _ ht _ _ hf ?_ ?_ ?_
              · rw [int32_of_bounds (by omega) (by omega)]; omega
              · rw [int32_of_bounds (by omega) (by omega)]; omega
              · intro h4 h9
                by_cases hlt : st.fieldNum < idxReleaseType
                · rw [if_pos hlt] at h4; exact absurd rfl h4
                · rw [if_neg hlt] at h9; exact absurd rfl h9
            split at h
            · simp at h
            · simp only [Except.ok.injEq] at h; subst h; exact ht1
        · simp only [Except.ok.injEq] at h; subst h; exact ht

theorem buildCase_inBounds (str : List Nat) (st : PState) (ht : st.t.inBounds) (s : Step)
    (h : buildCase str st = .ok s) : s.version.inBounds := by
  unfold buildCase at h
  simp only [] at h
  split at h
  · simp only [Except.ok.injEq] at h; subst h; exact ht
  · split at h
    · simp at h
    · split at h
      · simp only [Except.ok.injEq] at h; subst h; exact ht
      · split at h
        · simp at h
        · split at h
          · simp only [Except.ok.injEq] at h; subst h; exact ht
          · simp only [Except.ok.injEq] at h; subst h; exact fun i => ht i

theorem step_inBounds (str : List Nat) (st : PState) (ht : st.t.inBounds) (s : Step)
    (h : step str st = .ok s) : s.version.inBounds := by
  unfold step at h
  simp only [] at h
  split at h
  · simp at h
  · split at h
    · split at h
      · simp only [Except.ok.injEq] at h; subst h; exact ht
      · exact numericCase_inBounds str ⟨st.idx + 1, st.fieldNum + 1, st.column + 1, st.t⟩ ht s h
    · split at h
      · exact numericCase_inBounds str _ ht s h
      · split at h
        · split at h
          · simp at h
          · split at h
            · simp only [Except.ok.injEq] at h; subst h; exact ht
            · split at h
              · simp only [Except.ok.injEq] at h; subst h; exact ht
              · simp only [Except.ok.injEq] at h; subst h; exact ht
          · exact tagCase_inBounds str ⟨st.idx + 1, st.fieldNum, st.column, st.t⟩ ht s h
        · split at h
          · exact tagCase_inBounds str _ ht s h
          · split at h
            · exact buildCase_inBounds str _ ht s h
            · simp only [Except.ok.injEq] at h; subst h; exact ht

theorem unmarshalLoop_inBounds (str : List Nat) (fuel : Nat) :
    ∀ (st : PState) (v : Version) (e : Option InvalidStringValue), st.t.inBounds →
      unmarshalLoop str fuel st = .ok (v, e) → v.inBounds := by
  induction fuel with
  | zero =>
    intro st v e ht h
    unfold unmarshalLoop at h
    split at h
    · simp at h
    · simp only [Except.ok.injEq, Prod.mk.injEq] at h
      rw [← h.1]; exact ht
  | succ fuel ih =>
    intro st v e ht h
    rw [unmarshalLoop] at h
    split at h
    · cases hs : step str st with
      | error f => rw [hs] at h; simp at h
      | ok s =>
        have hb := step_inBounds str st ht s hs
        rw [hs] at h
        cases s with
        | ret t err =>
          simp only [Except.ok.injEq, Prod.mk.injEq] at h
          rw [← h.1]; exact hb
        | next st1 => exact ih st1 v e hb h
    · simp only [Except.ok.injEq, Prod.mk.injEq] at h
      rw [← h.1]; exact ht

/-- Whatever `unmarshalText` leaves in the receiver, on success or on failure,
keeps every field between -4 and 10^9 - 1 and the number fields non-negative. -/
theorem unmarshalText_inBounds (t : Version) (ht : t.inBounds) (str : List Nat) (v : Version)
    (e : Option InvalidStringValue) (h : t.unmarshalText str = .ok (v, e)) : v.inBounds := by
  unfold Version.unmarshalText at h
  simp only [] at h
  split at h
  · simp at h
  · exact unmarshalLoop_inBounds str _ _ v e ht h

theorem newVersion_inBounds (str : List Nat) (v : Version) (e : Option InvalidStringValue)
    (h : NewVersion str = .ok (v, e)) : v.inBounds :=
  unmarshalText_inBounds _ inBounds_zero str v e h

theorem bounded_of_inBounds (v : Version) (h : v.inBounds) : bounded v.version := by
  intro i
  have := h i
  omega

theorem signDeltaOver_eq_lexSign (a b : Fin 14 → Int) (ha : bounded a) (hb : bounded b)
    (l : List (Fin 14)) : signDeltaOver a b l = lexSign a b l := by
  induction l with
  | nil => rfl
  | cons i rest ih =>
    have h1 := ha i
    have h2 := hb i
    rw [signDeltaOver_cons a b i rest (by omega) (by omega), ih]
    simp only [lexSign]
    split_ifs <;> omega

theorem signDelta_eq_lexSign (a b : Fin 14 → Int) (ha : bounded a) (hb : bounded b)
    (cutoffIdx : Nat) :
    signDelta a b cutoffIdx
      = lexSign a b ((List.finRange 14).filter fun i => decide (i.val < cutoffIdx)) := by
  unfold signDelta
  exact signDeltaOver_eq_lexSign a b ha hb _

theorem lexSign_antisymm (a b : Fin 14 → Int) (l : List (Fin 14)) :
    lexSign b a l = -lexSign a b l := by
  induction l with
  | nil => rfl
  | cons i rest ih =>
    simp only [lexSign, ih]
    split_ifs <;> omega

theorem lexSign_range (a b : Fin 14 → Int) (l : List (Fin 14)) :
    -1 ≤ lexSign a b l ∧ lexSign a b l ≤ 1 := by
  induction l with
  | nil => simp [lexSign]
  | cons i rest ih =>
    simp only [lexSign]
    split_ifs <;> omega

theorem lexSign_cons_eq (a b : Fin 14 → Int) (i : Fin 14) (l : List (Fin 14)) (h : a i = b i) :
    lexSign a b (i :: l) = lexSign a b l := by
  simp only [lexSign, h, lt_self_iff_false, if_false]

theorem lexSign_eq_zero (a b : Fin 14 → Int) (l : List (Fin 14)) :
    lexSign a b l = 0 ↔ ∀ i ∈ l, a i = b i := by
  induction l with
  | nil => simp [lexSign]
  | cons i rest ih =>
    simp only [lexSign, List.mem_cons, forall_eq_or_imp]
    split_ifs with h1 h2
    · constructor
      · intro h; exact absurd h (by decide)
      · intro h; have := h.1; omega
    · constructor
      · intro h; exact absurd h (by decide)
      · intro h; have := h.1; omega
    · rw [ih]
      constructor
      · intro h; exact ⟨by omega, h⟩
      · intro h; exact h.2

theorem lexSign_append_eq (a b : Fin 14 → Int) (l1 l2 : List (Fin 14))
    (h : ∀ i ∈ l1, a i = b i) : lexSign a b (l1 ++ l2) = lexSign a b l2 := by
  induction l1 with
  | nil => rfl
  | cons i rest ih =>
    rw [List.cons_append, lexSign_cons_eq a b i _ (h i (List.mem_cons_self _ _)),
      ih (fun j hj => h j (List.mem_cons_of_mem _ hj))]

theorem limitedLess_iff (t o : Version) (ht : bounded t.version) (ho : bounded o.version) :
    t.limitedLess o = true
      ↔ lexSign t.version o.version [0, 1, 2, 3, 4, 5, 6, 7, 8] < 0 := by
  unfold Version.limitedLess
  rw [signDelta_eq_lexSign _ _ ht ho, finRange_filter_9]
  simp

theorem sharesPrefixWith_iff (t o : Version) (ht : bounded t.version) (ho : bounded o.version) :
    t.sharesPrefixWith o = true ↔ lexSign t.version o.version [0, 1, 2, 3] = 0 := by
  unfold Version.sharesPrefixWith
  rw [signDelta_eq_lexSign _ _ ht ho, finRange_filter_4]
  simp

theorem limitedEqual_iff (t o : Version) (ht : bounded t.version) (ho : bounded o.version) :
    t.LimitedEqual o = true
      ↔ if t.version 4 = 0 ∧ 0 < o.version 4 then lexSign t.version o.version [0, 1, 2, 3] = 0
        else lexSign t.version o.version [0, 1, 2, 3, 4, 5, 6, 7, 8] = 0 := by
  unfold Version.LimitedEqual
  have h4 : (⟨idxReleaseType, by decide⟩ : Fin 14) = 4 := rfl
  simp only [h4, common, gt_iff_lt]
  split
  · exact sharesPrefixWith_iff t o ht ho
  · rw [signDelta_eq_lexSign _ _ ht ho, finRange_filter_9]
    simp

/-- The lower bound test of a range with an inclusive lower bound of release
type `common`. -/
theorem satisfiesLowerBound_iff (r : Range) (v : Version) (hl : r.hasLower = true)
    (he : r.equalsLower = true) (h4 : r.lower.version 4 = 0) (hb : bounded r.lower.version)
    (hv : bounded v.version) :
    r.satisfiesLowerBound v = true
      ↔ lexSign r.lower.version v.version [0, 1, 2, 3, 4, 5, 6, 7, 8] ≤ 0 := by
  have hE := limitedEqual_iff r.lower v hb hv
  have hL := limitedLess_iff r.lower v hb hv
  have F1 : lexSign r.lower.version v.version [0, 1, 2, 3, 4, 5, 6, 7, 8] = 0 →
      r.lower.version 4 = v.version 4 := fun h =>
    (lexSign_eq_zero _ _ _).1 h 4 (by decide)
  have F2 : lexSign r.lower.version v.version [0, 1, 2, 3] = 0 → r.lower.version 4 < v.version 4 →
      lexSign r.lower.version v.version [0, 1, 2, 3, 4, 5, 6, 7, 8] = -1 := by
    intro h hlt
    rw [show ([0, 1, 2, 3, 4, 5, 6, 7, 8] : List (Fin 14)) = [0, 1, 2, 3] ++ [4, 5, 6, 7, 8] from rfl,
      lexSign_append_eq _ _ _ _ ((lexSign_eq_zero _ _ _).1 h)]
    simp only [lexSign, hlt, if_true]
  have hr := lexSign_range r.lower.version v.version [0, 1, 2, 3, 4, 5, 6, 7, 8]
  rw [h4] at hE
  unfold Range.satisfiesLowerBound
  simp only [hl, he, Bool.not_true, Bool.false_eq_true, if_false, Bool.true_and]
  cases hEq : r.lower.LimitedEqual v with
  | true =>
    simp only [if_true, true_iff]
    have := hE.1 hEq
    split at this
    · rename_i hc; have := F2 this (by omega); omega
    · omega
  | false =>
    simp only [Bool.false_eq_true, if_false, Bool.not_false, Bool.and_true]
    rw [hL]
    have hne : ¬ (if (0 : Int) = 0 ∧ 0 < v.version 4 then
        lexSign r.lower.version v.version [0, 1, 2, 3] = 0
        else lexSign r.lower.version v.version [0, 1, 2, 3, 4, 5, 6, 7, 8] = 0) := by
      intro h; rw [hE.2 h] at hEq; simp at hEq
    constructor
    · intro h; omega
    · intro h
      by_cases hc : (0 : Int) = 0 ∧ 0 < v.version 4
      · have := F1
        omega
      · rw [if_neg hc] at hne; omega

theorem lexSign_cons (a b : Fin 14 → Int) (i : Fin 14) (l : List (Fin 14)) :
    lexSign a b (i :: l) = if a i < b i then -1 else if b i < a i then 1 else lexSign a b l :=
  rfl

theorem lexSign_nonneg_of_ge (a b : Fin 14 → Int) (l : List (Fin 14))
    (h : ∀ i ∈ l, b i ≤ a i) : 0 ≤ lexSign a b l := by
  induction l with
  | nil => simp [lexSign]
  | cons i rest ih =>
    have hi := h i (List.mem_cons_self _ _)
    have := ih (fun j hj => h j (List.mem_cons_of_mem _ hj))
    rw [lexSign_cons]
    split_ifs <;> omega

theorem lexSign_append_of_ne_zero (a b : Fin 14 → Int) (l1 l2 : List (Fin 14))
    (h : lexSign a b l1 ≠ 0) : lexSign a b (l1 ++ l2) = lexSign a b l1 := by
  induction l1 with
  | nil => exact absurd rfl h
  | cons i rest ih =>
    rw [List.cons_append, lexSign_cons, lexSign_cons]
    rw [lexSign_cons] at h
    split_ifs with h1 h2
    · rfl
    · rfl
    · rw [if_neg h1, if_neg h2] at h
      exact ih h

theorem lexSign_upper (v u : Fin 14 → Int) (hu : ∀ i : Fin 14, i ≠ 0 → u i = 0)
    (h1 : 0 ≤ v 1) (h2 : 0 ≤ v 2) (h3 : 0 ≤ v 3) :
    (lexSign v u [0, 1, 2, 3, 4, 5, 6, 7, 8] < 0 ∧ lexSign u v [0, 1, 2, 3] ≠ 0) ↔ v 0 < u 0 := by
  rcases lt_trichotomy (v 0) (u 0) with hlt | heq | hgt
  · have e1 : lexSign v u [0, 1, 2, 3, 4, 5, 6, 7, 8] = -1 := by rw [lexSign_cons, if_pos hlt]
    have e2 : lexSign u v [0, 1, 2, 3] = 1 := by
      rw [lexSign_cons, if_neg (by omega), if_pos hlt]
    rw [e1, e2]
    simp [hlt]
  · have hge : ∀ i ∈ ([0, 1, 2, 3] : List (Fin 14)), u i ≤ v i := by
      intro i hi
      simp only [List.mem_cons, List.mem_singleton, List.not_mem_nil, or_false] at hi
      rcases hi with rfl | rfl | rfl | rfl
      · omega
      · rw [hu 1 (by decide)]; exact h1
      · rw [hu 2 (by decide)]; exact h2
      · rw [hu 3 (by decide)]; exact h3
    have hnn := lexSign_nonneg_of_ge v u _ hge
    have hanti := lexSign_antisymm v u [0, 1, 2, 3]
    constructor
    · rintro ⟨hA, hB⟩
      have hne : lexSign v u [0, 1, 2, 3] ≠ 0 := by omega
      have := lexSign_append_of_ne_zero v u [0, 1, 2, 3] [4, 5, 6, 7, 8] hne
      rw [show ([0, 1, 2, 3] : List (Fin 14)) ++ [4, 5, 6, 7, 8] = [0, 1, 2, 3, 4, 5, 6, 7, 8]
        from rfl] at this
      omega
    · intro h; omega
  · have e1 : lexSign v u [0, 1, 2, 3, 4, 5, 6, 7, 8] = 1 := by
      rw [lexSign_cons, if_neg (by omega), if_pos hgt]
    rw [e1]
    constructor
    · rintro ⟨hA, _⟩; omega
    · intro h; omega

/-- The upper bound test of a range with an exclusive upper bound that is a
plain major version. -/
theorem satisfiesUpperBound_iff (r : Range) (v : Version) (hU : r.hasUpper = true)
    (hx : r.equalsUpper = false) (hu : ∀ i : Fin 14, i ≠ 0 → r.upper.version i = 0)
    (hb : bounded r.upper.version) (hv : v.inBounds) :
    r.satisfiesUpperBound v = true ↔ v.version 0 < r.upper.version 0 := by
  have hvb := bounded_of_inBounds v hv
  have hL := limitedLess_iff v r.upper hvb hb
  have hP := sharesPrefixWith_iff r.upper v hb hvb
  have key := lexSign_upper v.version r.upper.version hu ((hv 1).2.2 (by decide) (by decide))
    ((hv 2).2.2 (by decide) (by decide)) ((hv 3).2.2 (by decide) (by decide))
  have h4 : r.upper.version ⟨idxReleaseType, by decide⟩ = common := hu 4 (by decide)
  unfold Range.satisfiesUpperBound
  simp only [hU, hx, h4, Bool.not_true, Bool.not_false, Bool.false_eq_true, if_false,
    Bool.false_and, and_self, if_true]
  rw [← key, ← hL, Ne, ← hP]
  cases v.limitedLess r.upper <;> cases r.upper.sharesPrefixWith v <;> simp

theorem ofList_singleton_version (x : Int) (i : Fin 14) (h : i ≠ 0) :
    (Version.ofList [x] 0).version i = 0 := by
  have hv : i.val ≠ 0 := fun hv => h (Fin.ext hv)
  obtain ⟨k, hk⟩ : ∃ k, i.val = k + 1 := ⟨i.val - 1, by omega⟩
  simp [Version.ofList, hk]

theorem ofList_singleton_zero (x : Int) : (Version.ofList [x] 0).version 0 = x := by
  simp [Version.ofList]

theorem lexSign_first (a b : Fin 14 → Int) (i : Fin 14) (l : List (Fin 14))
    (h : lexSign a b (i :: l) ≤ 0) : a i ≤ b i := by
  rw [lexSign_cons] at h
  split_ifs at h <;> omega

/-- C2: for canonical numerals `M ≥ 1`, `m`, `p` and a version `v` that
`NewVersion` returns, the range of `^M.m.p` contains `v` exactly when the major
of `v` is `M` and `v` is not `limitedLess` than the version `M.m.p`; so
`Satisfies("1.2.3", "^1.2.0")` is true and `Satisfies("2.0.0", "^1.2.0")` is
false. -/
theorem contains_caret_iff (M m p : List Nat) (hM : isCanonical M) (hm : isCanonical m)
    (hp : isCanonical p) (h1 : 1 ≤ decVal M) (s : List Nat) (v : Version)
    (e : Option InvalidStringValue) (hv : NewVersion s = .ok (v, e)) :
    (∃ r lo, NewRange (94 :: triple M m p) = .ok (r, none)
        ∧ NewVersion (triple M m p) = .ok (lo, none)
        ∧ (r.Contains v = true ↔ v.Major = (decVal M : Nat) ∧ v.limitedLess lo = false))
      ∧ Satisfies (bytesOf "1.2.3") (bytesOf "^1.2.0") = .ok (true, none)
      ∧ Satisfies (bytesOf "2.0.0") (bytesOf "^1.2.0") = .ok (false, none) := by
  refine ⟨?_, by decide!, by decide!⟩
  have h0 := canonical_head M hM h1
  have hlo := newVersion_triple M m p hM.1 hm.1 hp.1
  have hM9 := (atoui_numeral M [] hM.1 stopsNumber_nil).2
  have hvI := newVersion_inBounds s v e hv
  have hvb := bounded_of_inBounds v hvI
  have hlob := bounded_of_inBounds _ (newVersion_inBounds _ _ _ hlo)
  have hlo0 := (coreVersion_triple_fields M m p).1
  have hlo4 := coreVersion_releaseType [M, m, p] (by simp)
  have hupb : bounded (Version.ofList [(decVal M : Nat) + 1] 0).version := by
    intro i
    by_cases hi : i = 0
    · subst hi; rw [ofList_singleton_zero]; norm_num at hM9; omega
    · rw [ofList_singleton_version _ i hi]; omega
  refine ⟨⟨coreVersion [M, m, p], Version.ofList [(decVal M : Nat) + 1] 0, true, true, true,
    false⟩, coreVersion [M, m, p], ?_, hlo, ?_⟩
  · rw [newRange_shortcut_major 94 (Or.inl rfl) M m p hM.1 hm.1 hp.1 h0, if_pos rfl]
  · have hne : Version.ofList [(decVal M : Nat) + 1] 0 ≠ coreVersion [M, m, p] := by
      intro h
      have := congrArg (fun x => x.version 0) h
      simp only [ofList_singleton_zero, hlo0] at this
      omega
    have hL := satisfiesLowerBound_iff
      ⟨coreVersion [M, m, p], Version.ofList [(decVal M : Nat) + 1] 0, true, true, true, false⟩
      v rfl rfl hlo4 hlob hvb
    have hU := satisfiesUpperBound_iff
      ⟨coreVersion [M, m, p], Version.ofList [(decVal M : Nat) + 1] 0, true, true, true, false⟩
      v rfl rfl (fun i hi => ofList_singleton_version _ i hi) hupb hvI
    dsimp only at hL hU
    simp only [ofList_singleton_zero] at hU
    have hLL := limitedLess_iff v (coreVersion [M, m, p]) hvb hlob
    have hanti := lexSign_antisymm (coreVersion [M, m, p]).version v.version
      [0, 1, 2, 3, 4, 5, 6, 7, 8]
    have hfirst := lexSign_first (coreVersion [M, m, p]).version v.version 0
      [1, 2, 3, 4, 5, 6, 7, 8]
    rw [hlo0] at hfirst
    unfold Range.Contains
    rw [if_neg hne, Bool.and_eq_true, hL, hU, ← Bool.not_eq_true, hLL, hanti]
    unfold Version.Major
    constructor
    · rintro ⟨ha, hb⟩
      have := hfirst ha
      exact ⟨by omega, by omega⟩
    · rintro ⟨ha, hb⟩
      exact ⟨by omega, by omega⟩

theorem contains_caret_iff_witness :
    (∃ r lo, NewRange (94 :: triple [49] [50] [48]) = .ok (r, none)
        ∧ NewVersion (triple [49] [50] [48]) = .ok (lo, none)
        ∧ (r.Contains (Version.ofList [1, 2, 3] 0) = true
            ↔ (Version.ofList [1, 2, 3] 0).Major = (decVal [49] : Nat)
              ∧ (Version.ofList [1, 2, 3] 0).limitedLess lo = false))
      ∧ Satisfies (bytesOf "1.2.3") (bytesOf "^1.2.0") = .ok (true, none)
      ∧ Satisfies (bytesOf "2.0.0") (bytesOf "^1.2.0") = .ok (false, none) :=
  contains_caret_iff [49] [50] [48] (by decide) (by decide) (by decide) (by decide)
    (bytesOf "1.2.3") (Version.ofList [1, 2, 3] 0) none (by decide!)

theorem byteAt_append_left (s x : List Nat) (i : Nat) (h : i < s.length) :
    byteAt (s ++ x) i = byteAt s i := by
  unfold byteAt
  rw [List.getElem?_append_left h]

theorem byteAt_append_length (s x : List Nat) (c : Nat) :
    byteAt (s ++ c :: x) s.length = .ok c := by
  unfold byteAt
  rw [List.getElem?_append_right (Nat.le_refl _)]
  simp

theorem byteAt_mem (s : List Nat) (i c : Nat) (h : byteAt s i = .ok c) : c ∈ s := by
  unfold byteAt at h
  cases hg : s[i]? with
  | none => rw [hg] at h; simp at h
  | some d =>
    rw [hg] at h
    simp only [Except.ok.injEq] at h
    subst h
    exact List.getElem?_mem hg

theorem sliceFrom_append (s x : List Nat) (i : Nat) (h : i ≤ s.length) :
    sliceFrom (s ++ x) i = .ok (s.drop i ++ x) := by
  unfold sliceFrom
  rw [if_pos (by simp only [List.length_append]; omega), List.drop_append_of_le_length h]

theorem slice_append (s x : List Nat) (i j : Nat) (h : j ≤ s.length) :
    slice (s ++ x) i j = slice s i j := by
  unfold slice
  by_cases hij : i ≤ j
  · rw [if_pos ⟨hij, by simp only [List.length_append]; omega⟩, if_pos ⟨hij, h⟩,
      List.take_append_of_le_length h]
  · rw [if_neg (fun hc => hij hc.1), if_neg (fun hc => hij hc.1)]

theorem atouiLoop_append_stop (a x : List Nat) (hx : stopsNumber x) :
    ∀ n val, atouiLoop (a ++ x) n val = atouiLoop a n val := by
  induction a with
  | nil =>
    intro n val
    cases x with
    | nil => rfl
    | cons c cs =>
      have hc := hx c rfl
      simp only [List.nil_append, atouiLoop]
      split
      · rw [if_pos (by omega)]
      · rfl
  | cons d ds ih =>
    intro n val
    simp only [List.cons_append, atouiLoop]
    split
    · split
      · rfl
      · exact ih _ _
    · rfl

theorem atoui_append_stop (a x : List Nat) (hx : stopsNumber x) : atoui (a ++ x) = atoui a :=
  atouiLoop_append_stop a x hx 0 0

theorem scanLetters_append_stop (a x : List Nat)
    (hx : ∀ c, x.head? = some c → isSmallLetter c = false) :
    ∀ k, scanLetters (a ++ x) k = scanLetters a k := by
  induction a with
  | nil =>
    intro k
    cases x with
    | nil => rfl
    | cons c cs =>
      simp only [List.nil_append, scanLetters, hx c rfl, Bool.false_eq_true, if_false]
  | cons d ds ih =>
    intro k
    simp only [List.cons_append, scanLetters]
    split
    · exact ih _
    · rfl

theorem scanLetters_le (a : List Nat) : ∀ k, scanLetters a k ≤ k + a.length := by
  induction a with
  | nil => intro k; simp [scanLetters]
  | cons d ds ih =>
    intro k
    simp only [scanLetters, List.length_cons]
    split
    · have := ih (k + 1); omega
    · omega

theorem scanLetters_ge (a : List Nat) : ∀ k, k ≤ scanLetters a k := by
  induction a with
  | nil => intro k; simp [scanLetters]
  | cons d ds ih =>
    intro k
    simp only [scanLetters]
    split
    · have := ih (k + 1); omega
    · omega

theorem stopsNumber_plus (u : List Nat) : stopsNumber (43 :: u) :=
  stopsNumber_cons u (by decide)

/-- The numeric case does not see a `+…` that is appended to the text. -/
theorem numericCase_append (s u : List Nat) (st : PState) (h : st.idx ≤ s.length) :
    numericCase (s ++ 43 :: u) st = numericCase s st := by
  unfold numericCase
  rw [sliceFrom_append s _ _ h]
  simp only [atoui_append_stop _ _ (stopsNumber_plus u), sliceFrom, h, if_true]

/-- The tag case on a text with an appended `+…`: it goes on as on the text
alone, unless the text ends in a dot right behind the tag (a text that the
loop then rejects). -/
theorem tagCase_append (s u : List Nat) (st st1 : PState) (h : st.idx < s.length)
    (hs : tagCase s st = .ok (.next st1)) :
    tagCase (s ++ 43 :: u) st = .ok (.next st1)
      ∨ (st1.idx + 1 = s.length ∧ byteAt s st1.idx = .ok 46) := by
  unfold tagCase at hs ⊢
  simp only [] at hs ⊢
  have hdrop : List.drop (st.idx + 1) (s ++ 43 :: u) = List.drop (st.idx + 1) s ++ 43 :: u :=
    List.drop_append_of_le_length (by omega)
  rw [hdrop, scanLetters_append_stop _ _ (fun c hc => by
    simp only [List.head?_cons, Option.some.injEq] at hc; subst hc; decide)]
  have hle := scanLetters_le (List.drop (st.idx + 1) s) (st.idx + 1)
  have hge := scanLetters_ge (List.drop (st.idx + 1) s) (st.idx + 1)
  simp only [List.length_drop] at hle
  generalize scanLetters (List.drop (st.idx + 1) s) (st.idx + 1) = T at hs hle hge ⊢
  have hT : T ≤ s.length := by omega
  rw [if_neg (by omega)] at hs
  rw [if_neg (by simp only [List.length_append, List.length_cons]; omega), slice_append s _ _ _ hT]
  cases hsl : slice s st.idx T with
  | error f => rw [hsl] at hs; simp at hs
  | ok tag =>
    rw [hsl] at hs
    simp only [] at hs ⊢
    cases hrv : releaseValue tag with
    | none => rw [hrv] at hs; simp at hs
    | some typ =>
      rw [hrv] at hs
      simp only [] at hs ⊢
      by_cases hf : st.fieldNum < idxReleaseType ∨ st.fieldNum < idxSpecifierType
      · rw [if_pos hf] at hs ⊢
        cases hset : setField st.t (if st.fieldNum < idxReleaseType then idxReleaseType
            else idxSpecifierType) (int32 typ) with
        | error f => rw [hset] at hs; simp at hs
        | ok t1 =>
          rw [hset] at hs
          simp only [] at hs ⊢
          by_cases h1 : T + 1 < s.length
          · rw [if_pos h1] at hs
            rw [if_pos (by simp only [List.length_append, List.length_cons]; omega),
              byteAt_append_left s _ T (by omega)]
            exact Or.inl hs
          · rw [if_neg h1] at hs
            simp only [Except.ok.injEq, Step.next.injEq] at hs
            by_cases h2 : T = s.length
            · left
              by_cases h3 : T + 1 < (s ++ 43 :: u).length
              · rw [if_pos h3, h2, byteAt_append_length]
                simp only [show decide ((43 : Nat) = 46) = false by decide]
                rw [← hs, h2]
              · rw [if_neg h3, ← hs]
            · have hT1 : T + 1 = s.length := by omega
              rw [if_pos (by simp only [List.length_append, List.length_cons]; omega),
                byteAt_append_left s _ T (by omega)]
              cases hb : byteAt s T with
              | error f =>
                exfalso
                unfold byteAt at hb
                rw [List.getElem?_eq_getElem (by omega)] at hb
                simp at hb
              | ok c =>
                by_cases hc : c = 46
                · right
                  rw [← hs]
                  simp only [Bool.false_eq_true, if_false]
                  exact ⟨hT1, by rw [hb, hc]⟩
                · left
                  simp only [hc, decide_False, Bool.false_eq_true, if_false]
                  rw [← hs]
                  simp
      · rw [if_neg hf] at hs; simp at hs

theorem atouiLoop_le (b : List Nat) : ∀ n val, (atouiLoop b n val).1 ≤ n + b.length := by
  induction b with
  | nil => intro n val; simp [atouiLoop]
  | cons c cs ih =>
    intro n val
    simp only [atouiLoop, List.length_cons]
    split
    · split
      · simp only []; omega
      · have := ih (n + 1) ((val * 10 + byteSub c 48) % 2 ^ 32); omega
    · simp only []; omega

theorem atoui_le (b : List Nat) : (atoui b).1 ≤ b.length := by
  have := atouiLoop_le b 0 0
  unfold atoui; omega

theorem numericCase_idx_le (s : List Nat) (st st1 : PState) (h : st.idx ≤ s.length)
    (hs : numericCase s st = .ok (.next st1)) : st1.idx ≤ s.length := by
  unfold numericCase at hs
  unfold sliceFrom at hs
  rw [if_pos h] at hs
  simp only [] at hs
  have hle := atoui_le (s.drop st.idx)
  simp only [List.length_drop] at hle
  split at hs
  · simp at hs
  · split at hs
    · simp at hs
    · simp only [Except.ok.injEq, Step.next.injEq] at hs
      rw [← hs]; simp only []; omega

theorem tagCase_idx_le (s : List Nat) (st st1 : PState)
    (hs : tagCase s st = .ok (.next st1)) : st1.idx ≤ s.length := by
  unfold tagCase at hs
  simp only [] at hs
  generalize scanLetters (List.drop (st.idx + 1) s) (st.idx + 1) = T at hs
  split at hs
  · simp at hs
  · rename_i hT
    split at hs
    · simp at hs
    · split at hs
      · simp at hs
      · split at hs
        · split at hs
          · simp at hs
          · by_cases h1 : T + 1 < s.length
            · rw [if_pos h1] at hs
              split at hs
              · simp at hs
              · rename_i b hb
                split at hb
                · simp at hb
                · simp only [Except.ok.injEq, Step.next.injEq] at hs
                  rw [← hs]; simp only []
                  split <;> omega
            · rw [if_neg h1] at hs
              simp only [Except.ok.injEq, Step.next.injEq] at hs
              rw [← hs]; simp only [Bool.false_eq_true, if_false]; omega
        · simp at hs

theorem byteAt_lt (s : List Nat) (i : Nat) (h : i < s.length) : ∃ c, byteAt s i = .ok c := by
  unfold byteAt
  rw [List.getElem?_eq_getElem h]
  exact ⟨_, rfl⟩

theorem numericCase_ne_ret_none (s : List Nat) (st : PState) (t : Version) :
    numericCase s st ≠ .ok (.ret t none) := by
  unfold numericCase
  intro hs
  split at hs
  · simp at hs
  · simp only [] at hs
    split at hs
    · simp at hs
    · split at hs <;> simp at hs

theorem tagCase_ne_ret_none (s : List Nat) (st : PState) (t : Version) :
    tagCase s st ≠ .ok (.ret t none) := by
  unfold tagCase
  intro hs
  simp only [] at hs
  split at hs
  · simp at hs
  · split at hs
    · simp at hs
    · split at hs
      · simp at hs
      · split at hs
        · split at hs
          · simp at hs
          · split at hs <;> simp at hs
        · simp at hs

/-- A pass of the loop over a text without `+` does not end the parse without
an error. -/
theorem step_ne_ret_none (s : List Nat) (st : PState) (t : Version) (hplus : 43 ∉ s) :
    step s st ≠ .ok (.ret t none) := by
  intro hs
  unfold step at hs
  simp only [] at hs
  cases hb : byteAt s st.idx with
  | error f => rw [hb] at hs; simp at hs
  | ok r =>
    rw [hb] at hs
    simp only [] at hs
    split at hs
    · split at hs
      · simp at hs
      · exact numericCase_ne_ret_none _ _ _ hs
    · split at hs
      · exact numericCase_ne_ret_none _ _ _ hs
      · split at hs
        · split at hs
          · simp at hs
          · split at hs
            · simp at hs
            · split at hs <;> simp at hs
          · exact tagCase_ne_ret_none _ _ _ hs
        · split at hs
          · exact tagCase_ne_ret_none _ _ _ hs
          · split at hs
            · rename_i h43
              rw [h43] at hb
              exact hplus (byteAt_mem s _ _ hb)
            · simp at hs

/-- A pass of the loop that goes on stays within the text; and on the text
with an appended `+…` it goes on in the same way, unless the text ends in a dot
right behind a tag. -/
theorem step_append (s u : List Nat) (st st1 : PState) (h : st.idx < s.length)
    (hplus : 43 ∉ s) (hs : step s st = .ok (.next st1)) :
    st1.idx ≤ s.length
      ∧ (step (s ++ 43 :: u) st = .ok (.next st1)
          ∨ (st1.idx + 1 = s.length ∧ byteAt s st1.idx = .ok 46)) := by
  unfold step at hs ⊢
  simp only [] at hs ⊢
  rw [byteAt_append_left s _ _ h]
  cases hb : byteAt s st.idx with
  | error f => rw [hb] at hs; simp at hs
  | ok r =>
    rw [hb] at hs
    simp only [] at hs ⊢
    by_cases hdot : r = 46
    · rw [if_pos hdot] at hs ⊢
      by_cases hc : st.column + 1 ≥ 4 ∨ st.idx + 1 ≥ s.length
      · rw [if_pos hc] at hs; simp at hs
      · rw [if_neg hc] at hs
        rw [if_neg (by simp only [List.length_append, List.length_cons]; omega),
          numericCase_append s u _ (by simp only []; omega)]
        exact ⟨numericCase_idx_le s _ _ (by simp only []; omega) hs, Or.inl hs⟩
    · rw [if_neg hdot] at hs ⊢
      by_cases hnum : isNumeric r = true
      · rw [if_pos hnum] at hs ⊢
        rw [numericCase_append s u _ (by omega)]
        exact ⟨numericCase_idx_le s _ _ (by omega) hs, Or.inl hs⟩
      · rw [if_neg hnum] at hs ⊢
        by_cases hdash : r = 45 ∨ r = 95
        · rw [if_pos hdash] at hs ⊢
          by_cases h1 : st.idx + 1 < s.length
          · rw [if_pos h1] at hs
            rw [if_pos (by simp only [List.length_append, List.length_cons]; omega),
              byteAt_append_left s _ _ h1]
            obtain ⟨c, hc⟩ := byteAt_lt s _ h1
            rw [hc] at hs ⊢
            simp only [] at hs ⊢
            cases hn : isNumeric c with
            | true =>
              rw [hn] at hs
              simp only [] at hs ⊢
              refine ⟨?_, Or.inl hs⟩
              split at hs
              · simp only [Except.ok.injEq, Step.next.injEq] at hs
                rw [← hs]; simp only []; omega
              · split at hs
                · simp only [Except.ok.injEq, Step.next.injEq] at hs
                  rw [← hs]; simp only []; omega
                · simp at hs
            | false =>
              rw [hn] at hs
              simp only [] at hs ⊢
              exact ⟨tagCase_idx_le s _ _ hs, tagCase_append s u _ _ (by simp only []; omega) hs⟩
          · exfalso
            rw [if_neg h1] at hs
            simp only [] at hs
            unfold tagCase at hs
            simp only [] at hs
            have hge := scanLetters_ge (List.drop (st.idx + 1 + 1) s) (st.idx + 1 + 1)
            rw [if_pos (by omega)] at hs
            simp at hs
        · rw [if_neg hdash] at hs ⊢
          by_cases hlet : isSmallLetter r = true
          · rw [if_pos hlet] at hs ⊢
            exact ⟨tagCase_idx_le s _ _ hs, tagCase_append s u _ _ h hs⟩
          · rw [if_neg hlet] at hs ⊢
            by_cases h43 : r = 43
            · exfalso
              rw [h43] at hb
              exact hplus (byteAt_mem s _ _ hb)
            · rw [if_neg h43] at hs; simp at hs

theorem step_plus (u : List Nat) (fn col : Nat) (t : Version) :
    step (43 :: u) ⟨0, fn, col, t⟩ = buildCase (43 :: u) ⟨0, 0, 0, t⟩ := by
  unfold step
  simp only [byteAt_cons_zero]
  rw [if_neg (by decide), if_neg (by decide), if_neg (by decide), if_neg (by decide),
    if_pos trivial]
  rfl

theorem buildCase_ne_next (s : List Nat) (st st1 : PState) :
    buildCase s st ≠ .ok (.next st1) := by
  unfold buildCase
  intro hs
  simp only [] at hs
  split at hs
  · simp at hs
  · split at hs
    · simp at hs
    · split at hs
      · simp at hs
      · split at hs
        · simp at hs
        · split at hs <;> simp at hs

/-- With a `+` at the read position the loop returns what the build case
returns, whatever the field and the column are. -/
theorem unmarshalLoop_plus (u : List Nat) (k fn col : Nat) (t : Version) :
    unmarshalLoop (43 :: u) (k + 1) ⟨0, fn, col, t⟩ = buildOutcome t u := by
  unfold buildOutcome
  rw [unmarshalLoop, unmarshalLoop, if_pos (by simp), if_pos (by simp)]
  simp only [step_plus]
  cases hb : buildCase (43 :: u) ⟨0, 0, 0, t⟩ with
  | error f => rfl
  | ok r =>
    cases r with
    | ret t1 e => rfl
    | next st1 => exact absurd hb (buildCase_ne_next _ _ _)

theorem unmarshalLoop_trailing_dot (s : List Nat) (f : Nat) (st : PState) (v : Version)
    (h1 : st.idx + 1 = s.length) (hb : byteAt s st.idx = .ok 46) :
    unmarshalLoop s f st ≠ .ok (v, none) := by
  intro hs
  cases f with
  | zero =>
    unfold unmarshalLoop at hs
    rw [if_pos (by omega)] at hs
    simp at hs
  | succ f =>
    rw [unmarshalLoop, if_pos (by omega)] at hs
    have hstep : step s st = .ok (.ret st.t (some errTooManyColumns)) := by
      unfold step
      simp only [hb, if_true]
      rw [if_pos (Or.inr (by omega))]
    rw [hstep] at hs
    simp at hs

/-- The run of the loop over a text without `+` that is accepted, followed by
`+u`: the loop reaches the `+` with the version of the text in the receiver. -/
theorem unmarshalLoop_append (s u : List Nat) (v : Version) (hplus : 43 ∉ s) (f : Nat) :
    ∀ (st : PState) (g : Nat), f < g → st.idx ≤ s.length →
      unmarshalLoop s f st = .ok (v, none) →
      unmarshalLoop (s ++ 43 :: u) g st = buildOutcome v u := by
  induction f with
  | zero =>
    intro st g hg hidx hs
    obtain ⟨g1, rfl⟩ : ∃ g1, g = g1 + 1 := ⟨g - 1, by omega⟩
    unfold unmarshalLoop at hs
    by_cases hlt : st.idx < s.length
    · rw [if_pos hlt] at hs; simp at hs
    · rw [if_neg hlt] at hs
      simp only [Except.ok.injEq, Prod.mk.injEq, and_true] at hs
      have hi : st.idx = s.length := by omega
      rw [unmarshalLoop_drop, hi, List.drop_left, hs]
      exact unmarshalLoop_plus u g1 _ _ v
  | succ f ih =>
    intro st g hg hidx hs
    obtain ⟨g1, rfl⟩ : ∃ g1, g = g1 + 1 := ⟨g - 1, by omega⟩
    by_cases hlt : st.idx < s.length
    · rw [unmarshalLoop, if_pos hlt] at hs
      cases hstep : step s st with
      | error e => rw [hstep] at hs; simp at hs
      | ok r =>
        rw [hstep] at hs
        cases r with
        | ret t1 e =>
          simp only [Except.ok.injEq, Prod.mk.injEq] at hs
          rw [hs.1, hs.2] at hstep
          exact absurd hstep (step_ne_ret_none s st v hplus)
        | next st1 =>
          simp only [] at hs
          obtain ⟨hle, hsim | hodd⟩ := step_append s u st st1 hlt hplus hstep
          · rw [unmarshalLoop, if_pos (by simp only [List.length_append]; omega), hsim]
            exact ih st1 g1 (by omega) hle hs
          · exact absurd hs (unmarshalLoop_trailing_dot s f st1 v hodd.1 hodd.2)
    · rw [unmarshalLoop, if_neg hlt] at hs
      simp only [Except.ok.injEq, Prod.mk.injEq, and_true] at hs
      have hi : st.idx = s.length := by omega
      rw [unmarshalLoop_drop, hi, List.drop_left, hs]
      exact unmarshalLoop_plus u g1 _ _ v

theorem newVersion_v :
    NewVersion [118] = .ok (Version.zero, some errInvalidVersionString) := by decide!

/-- `NewVersion` on an accepted text without `+`, followed by `+u`: the result
is what the build case makes of `+u` with the version of the text. -/
theorem newVersion_append_plus (s u : List Nat) (v : Version)
    (hs : NewVersion s = .ok (v, none)) (hplus : 43 ∉ s) :
    NewVersion (s ++ 43 :: u) = buildOutcome v u := by
  have h118 : s ≠ [118] := by
    intro h
    rw [h, newVersion_v] at hs
    simp at hs
  unfold NewVersion Version.unmarshalText at hs ⊢
  simp only [] at hs ⊢
  cases s with
  | nil =>
    simp only [List.length_nil, gt_iff_lt, Nat.not_lt_zero, if_false, Nat.lt_irrefl] at hs
    simp only [List.nil_append, byteAt_cons_zero, show decide ((43 : Nat) = 118) = false by decide,
      ite_self]
    exact unmarshalLoop_append [] u v hplus 0 _ _ (by simp) (by simp) (by simpa using hs)
  | cons c rest =>
    cases rest with
    | nil =>
      by_cases hc : c = 118
      · exact absurd (by rw [hc]) h118
      · simp only [List.length_singleton, gt_iff_lt, Nat.lt_irrefl, if_false] at hs
        simp only [List.cons_append, List.nil_append, byteAt_cons_zero, hc, decide_False,
          ite_self]
        exact unmarshalLoop_append [c] u v hplus 1 _ _ (by simp) (by simp) hs
    | cons d rest =>
      have hl : (c :: d :: rest).length > 1 := by simp
      have hl2 : (c :: d :: rest ++ 43 :: u).length > 1 := by simp
      rw [if_pos hl] at hs
      rw [if_pos hl2]
      simp only [List.cons_append, byteAt_cons_zero] at hs ⊢
      refine unmarshalLoop_append (c :: d :: rest) u v hplus _ _ _ ?_ ?_ hs
      · simp
      · simp only [List.length_cons]; split <;> omega

theorem atouiLoop_full (b : List Nat) :
    ∀ n val, (atouiLoop b n val).1 = n + b.length → ∀ c ∈ b, byteSub c 48 ≤ 9 := by
  induction b with
  | nil => intro n val _ c hc; simp at hc
  | cons d ds ih =>
    intro n val h c hc
    simp only [atouiLoop, List.length_cons] at h
    by_cases h10 : n ≤ 10
    · rw [if_pos h10] at h
      by_cases hv : byteSub d 48 > 9
      · rw [if_pos hv] at h; simp only [] at h; omega
      · rw [if_neg hv] at h
        rcases List.mem_cons.1 hc with rfl | hc1
        · omega
        · exact ih (n + 1) ((val * 10 + byteSub d 48) % 2 ^ 32) (by omega) c hc1
    · rw [if_neg h10] at h; simp only [] at h; omega

theorem buildOutcome_of_ret (t : Version) (u : List Nat) (t1 : Version)
    (e : Option InvalidStringValue) (h : buildCase (43 :: u) ⟨0, 0, 0, t⟩ = .ok (.ret t1 e)) :
    buildOutcome t u = .ok (t1, e) := by
  unfold buildOutcome
  rw [unmarshalLoop, if_pos (by simp), step_plus, h]

/-- The build case on `+build` and a numeral. -/
theorem buildOutcome_numeral (t : Version) (ds : List Nat) (hds : isNumeral ds) :
    buildOutcome t ([98, 117, 105, 108, 100] ++ ds)
      = .ok ({ t with build := (decVal ds : Nat) }, none) := by
  obtain ⟨hat, hval⟩ := atoui_numeral ds [] hds stopsNumber_nil
  rw [List.append_nil] at hat
  have h1 := hds.1
  have h9 := hds.2.1
  apply buildOutcome_of_ret
  unfold buildCase
  simp only [buildsuffix, List.length_cons, List.length_append, List.length_nil, Nat.zero_add]
  rw [if_neg (by omega)]
  have hsl : slice (43 :: ([98, 117, 105, 108, 100] ++ ds)) 0 6
      = .ok [43, 98, 117, 105, 108, 100] := by
    unfold slice
    rw [if_pos (by simp only [List.length_cons, List.length_append]; omega)]
    simp
  have hsf : sliceFrom (43 :: ([98, 117, 105, 108, 100] ++ ds)) 6 = .ok ds := by
    unfold sliceFrom
    rw [if_pos (by simp only [List.length_cons, List.length_append]; omega)]
    simp
  simp only [hsl, hsf, hat, ne_eq, not_true_eq_false, if_false]
  rw [if_neg (by omega), int32_natCast hval]

/-- The build case on any other text behind the `+`. -/
theorem buildOutcome_cases (t : Version) (u : List Nat) (hu : isBytes u) :
    buildOutcome t u = .ok (t, some errInvalidBuildSuffix)
      ∨ ∃ ds, isNumeral ds ∧ u = [98, 117, 105, 108, 100] ++ ds := by
  have key : buildCase (43 :: u) ⟨0, 0, 0, t⟩ = .ok (.ret t (some errInvalidBuildSuffix))
      ∨ ∃ ds, isNumeral ds ∧ u = [98, 117, 105, 108, 100] ++ ds := by
    unfold buildCase
    simp only [buildsuffix, List.length_cons, List.length_nil, Nat.zero_add]
    by_cases hlen : u.length + 1 < 6 + 1
    · left; rw [if_pos hlen]
    · rw [if_neg hlen]
      have hsl : slice (43 :: u) 0 6 = .ok ((43 :: u).take 6) := by
        unfold slice
        rw [if_pos (by simp only [List.length_cons]; omega)]
        simp
      have hsf : sliceFrom (43 :: u) 6 = .ok ((43 :: u).drop 6) := by
        unfold sliceFrom
        rw [if_pos (by simp only [List.length_cons]; omega)]
      simp only [hsl, hsf]
      by_cases hpre : (43 :: u).take 6 = [43, 98, 117, 105, 108, 100]
      · rw [if_neg (by simpa using hpre)]
        have hle := atoui_le ((43 :: u).drop 6)
        have hdl : ((43 :: u).drop 6).length = u.length + 1 - 6 := by simp
        by_cases hc : (atoui ((43 :: u).drop 6)).1 > 9
            ∨ 6 + (atoui ((43 :: u).drop 6)).1 < u.length + 1
        · left; rw [if_pos hc]
        · right
          have hfull : (atoui ((43 :: u).drop 6)).1 = 0 + ((43 :: u).drop 6).length := by omega
          have hdig := atouiLoop_full _ 0 0 hfull
          have hsplit : 43 :: u = [43, 98, 117, 105, 108, 100] ++ (43 :: u).drop 6 := by
            rw [← hpre, List.take_append_drop]
          refine ⟨(43 :: u).drop 6, ⟨by omega, by omega, ?_⟩, ?_⟩
          · intro c hcm
            have h1 := hdig c hcm
            have h2 : c < 256 := by
              have : c ∈ 43 :: u := List.mem_of_mem_drop hcm
              rcases List.mem_cons.1 this with rfl | h3
              · decide
              · exact hu c h3
            unfold byteSub at h1
            unfold isDigit
            omega
          · have := congrArg List.tail hsplit
            simpa using this
      · left
        rw [if_pos (by simpa using hpre)]
  rcases key with h | h
  · exact Or.inl (buildOutcome_of_ret t u _ _ h)
  · exact Or.inr h

theorem buildsuffix_append_iff (u ds : List Nat) :
    43 :: u = buildsuffix ++ ds ↔ u = [98, 117, 105, 108, 100] ++ ds := by
  simp [buildsuffix]

/-- C9: let `NewVersion` accept the text `s`, which has no `+`, and let `+u` be
a byte string. `NewVersion` accepts `s` followed by `+u` exactly when `+u` is
`+build` followed by 1 to 9 decimal digits; then the 14 fields are those of
`NewVersion(s)` and the build number is the value of the digits; otherwise the
error is `errInvalidBuildSuffix`. -/
theorem newVersion_build_suffix (s : List Nat) (v : Version)
    (hs : NewVersion s = .ok (v, none)) (hplus : 43 ∉ s) (u : List Nat) (hu : isBytes u) :
    ((∃ w, NewVersion (s ++ 43 :: u) = .ok (w, none))
        ↔ ∃ ds, isNumeral ds ∧ 43 :: u = buildsuffix ++ ds)
      ∧ (∀ ds, isNumeral ds → 43 :: u = buildsuffix ++ ds →
          NewVersion (s ++ 43 :: u) = .ok ({ v with build := (decVal ds : Nat) }, none))
      ∧ ((¬ ∃ ds, isNumeral ds ∧ 43 :: u = buildsuffix ++ ds) →
          ∃ w, NewVersion (s ++ 43 :: u) = .ok (w, some errInvalidBuildSuffix)) := by
  have hrun := newVersion_append_plus s u v hs hplus
  have hgood : ∀ ds, isNumeral ds → 43 :: u = buildsuffix ++ ds →
      NewVersion (s ++ 43 :: u) = .ok ({ v with build := (decVal ds : Nat) }, none) := by
    intro ds hds hsplit
    rw [hrun, (buildsuffix_append_iff u ds).1 hsplit]
    exact buildOutcome_numeral v ds hds
  have hbad : (¬ ∃ ds, isNumeral ds ∧ 43 :: u = buildsuffix ++ ds) →
      NewVersion (s ++ 43 :: u) = .ok (v, some errInvalidBuildSuffix) := by
    intro hnot
    rcases buildOutcome_cases v u hu with h | ⟨ds, hds, hsplit⟩
    · rw [hrun, h]
    · exact absurd ⟨ds, hds, (buildsuffix_append_iff u ds).2 hsplit⟩ hnot
  refine ⟨⟨?_, ?_⟩, hgood, fun hnot => ⟨v, hbad hnot⟩⟩
  · rintro ⟨w, hw⟩
    by_contra hnot
    rw [hbad hnot] at hw
    simp at hw
  · rintro ⟨ds, hds, hsplit⟩
    exact ⟨_, hgood ds hds hsplit⟩

theorem newVersion_build_suffix_witness :
    NewVersion (bytesOf "1.3.8" ++ 43 :: bytesOf "build2014")
      = .ok ({ Version.ofList [1, 3, 8] 0 with build := (decVal (bytesOf "2014") : Nat) }, none) :=
  (newVersion_build_suffix (bytesOf "1.3.8") (Version.ofList [1, 3, 8] 0) (by decide!)
    (by decide) (bytesOf "build2014") (by decide)).2.1 (bytesOf "2014") (by decide) (by decide)

theorem int32_range (x : Int) : -2147483648 ≤ int32 x ∧ int32 x < 2147483648 := by
  unfold int32 wrapInt
  norm_num
  omega

theorem signOfDelta_eq (x : Int) (h1 : -2147483648 ≤ x) (h2 : x < 2147483648) :
    signOfDelta x = if x = -2147483648 then 0 else if x < 0 then -1 else if x = 0 then 0 else 1 := by
  unfold signOfDelta
  have e1 : x >>> (31 : Nat) = x / 2147483648 := by
    rw [Int.shiftRight_eq_div_pow]; norm_num
  have hn := int32_range (-x)
  have e2 : int32 (-x) >>> (31 : Nat) = int32 (-x) / 2147483648 := by
    rw [Int.shiftRight_eq_div_pow]; norm_num
  have e3 : int32 (-x) = if x = -2147483648 then -2147483648 else -x := by
    unfold int32 wrapInt
    norm_num
    split_ifs <;> omega
  rw [e1, e2]
  have h3 : -1 ≤ x / 2147483648 - int32 (-x) / 2147483648
      ∧ x / 2147483648 - int32 (-x) / 2147483648 ≤ 1 := by omega
  rw [int32_of_bounds (by omega) (by omega), int8_of_bounds (by omega) (by omega), e3]
  split_ifs <;> omega

/-- The sign of the wrapped difference changes its sign when the two fields
change places. -/
theorem signOfDelta_swap (a b : Int) :
    signOfDelta (int32 (a - b)) = -signOfDelta (int32 (b - a)) := by
  have h1 := int32_range (a - b)
  have h2 := int32_range (b - a)
  rw [signOfDelta_eq _ h1.1 h1.2, signOfDelta_eq _ h2.1 h2.2]
  have e1 : int32 (a - b) = (a - b + 2147483648) % 4294967296 - 2147483648 := by
    unfold int32 wrapInt; norm_num
  have e2 : int32 (b - a) = (b - a + 2147483648) % 4294967296 - 2147483648 := by
    unfold int32 wrapInt; norm_num
  rw [e1, e2]
  split_ifs <;> omega

theorem signDeltaOver_antisymm (a b : Fin 14 → Int) (l : List (Fin 14)) : signDeltaOver a b l = -signDeltaOver b a l := by
  induction l with
  | nil => rfl
  | cons i rest ih =>
    simp only [signDeltaOver]
    by_cases h : a i = b i
    · rw [if_pos h, if_pos h.symm, ih]
    · rw [if_neg h, if_neg (fun hc => h hc.symm)]
      exact signOfDelta_swap (a i) (b i)

theorem signDeltaOver_self (a : Fin 14 → Int) (l : List (Fin 14)) : signDeltaOver a a l = 0 := by
  induction l with
  | nil => rfl
  | cons i rest ih => simp only [signDeltaOver, if_true, ih]

theorem compare_antisymm (a b : Version) : Compare a b = -Compare b a := by
  unfold Compare
  have h := lexSign_antisymm a.version b.version (List.finRange 14)
  simp only [h]
  split_ifs <;> omega

theorem compare_self (x : Version) : Compare x x = 0 := by
  unfold Compare
  have h : lexSign x.version x.version (List.finRange 14) = 0 :=
    (lexSign_eq_zero _ _ _).2 (fun _ _ => rfl)
  simp [h]

/-- C19: for all tuples `a`, `b` (whatever values the fields have, the
difference being wrapped to `int32`) and every cutoff from 0 to 14,
`signDelta(a, b, cutoff) = -signDelta(b, a, cutoff)` and
`signDelta(a, a, cutoff) = 0`; and `Compare`, as the spec describes it, has
`Compare(x, y) = -Compare(y, x)` and `Compare(x, x) = 0`. -/
theorem signDelta_antisymm (a b : Fin 14 → Int) (cutoffIdx : Nat) (_hc : cutoffIdx ≤ 14) :
    signDelta a b cutoffIdx = -signDelta b a cutoffIdx
      ∧ signDelta a a cutoffIdx = 0
      ∧ (∀ x y : Version, Compare x y = -Compare y x)
      ∧ (∀ x : Version, Compare x x = 0) :=
  ⟨signDeltaOver_antisymm a b _, signDeltaOver_self a _, compare_antisymm, compare_self⟩

theorem signDelta_antisymm_witness :
    signDelta (Version.ofList [2147483647] 0).version (Version.ofList [-2] 0).version 14
        = -signDelta (Version.ofList [-2] 0).version (Version.ofList [2147483647] 0).version 14
      ∧ signDelta (Version.ofList [2147483647] 0).version
          (Version.ofList [2147483647] 0).version 14 = 0 :=
  ⟨(signDelta_antisymm (Version.ofList [2147483647] 0).version (Version.ofList [-2] 0).version
      14 (by decide)).1,
   (signDelta_antisymm (Version.ofList [2147483647] 0).version (Version.ofList [-2] 0).version
      14 (by decide)).2.1⟩

theorem numericCase_ok (str : List Nat) (st : PState) (h : st.idx ≤ str.length)
    (hf : st.fieldNum < 14) : ∃ s, numericCase str st = .ok s := by
  unfold numericCase sliceFrom
  rw [if_pos h]
  simp only []
  split
  · exact ⟨_, rfl⟩
  · rw [setField_lt _ _ _ hf]
    exact ⟨_, rfl⟩

/-- What the numeric case does when it goes on: it reads at least one byte and
writes a value from 0 to 10^9 - 1 to the field `fieldNum`. -/
theorem numericCase_next (str : List Nat) (st st1 : PState)
    (hs : numericCase str st = .ok (.next st1)) :
    st.idx < st1.idx ∧ st1.fieldNum = st.fieldNum ∧ st1.column = st.column
      ∧ ∃ (h : st.fieldNum < 14) (x : Int), 0 ≤ x ∧ x < 1000000000
          ∧ st1.t = st.t.set ⟨st.fieldNum, h⟩ x := by
  unfold numericCase at hs
  cases hsl : sliceFrom str st.idx with
  | error f => rw [hsl] at hs; simp at hs
  | ok b =>
    rw [hsl] at hs
    simp only [] at hs
    by_cases hd : (atoui b).1 = 0 ∨ (atoui b).1 ≥ 10
    · rw [if_pos hd] at hs; simp at hs
    · rw [if_neg hd] at hs
      have hb := atoui_bound b (by omega)
      have hint : int32 ((atoui b).2 : Int) = (atoui b).2 := int32_natCast hb
      by_cases hf : st.fieldNum < 14
      · rw [setField_lt _ _ _ hf] at hs
        simp only [Except.ok.injEq, Step.next.injEq] at hs
        subst hs
        refine ⟨by simp only []; omega, rfl, rfl, hf, ((atoui b).2 : Int), by omega, ?_, ?_⟩
        · norm_num at hb; omega
        · simp only [hint]
      · unfold setField at hs
        rw [dif_neg hf] at hs
        simp at hs

theorem numericCase_ret (str : List Nat) (st : PState) (t : Version)
    (e : Option InvalidStringValue) (hs : numericCase str st = .ok (.ret t e)) :
    t = st.t ∧ e = some errInvalidVersionString := by
  unfold numericCase at hs
  split at hs
  · simp at hs
  · simp only [] at hs
    split at hs
    · simp only [Except.ok.injEq, Step.ret.injEq] at hs
      exact ⟨hs.1.symm, hs.2.symm⟩
    · split at hs <;> simp at hs

theorem tagCase_ok (str : List Nat) (st : PState) : ∃ s, tagCase str st = .ok s := by
  unfold tagCase
  simp only []
  have hge := scanLetters_ge (str.drop (st.idx + 1)) (st.idx + 1)
  generalize scanLetters (List.drop (st.idx + 1) str) (st.idx + 1) = T at hge
  by_cases hT : T > str.length
  · rw [if_pos hT]; exact ⟨_, rfl⟩
  · rw [if_neg hT]
    unfold slice
    rw [if_pos ⟨by omega, by omega⟩]
    simp only []
    cases releaseValue (List.drop st.idx (List.take T str)) with
    | none => exact ⟨_, rfl⟩
    | some typ =>
      simp only []
      by_cases h9 : st.fieldNum < idxReleaseType ∨ st.fieldNum < idxSpecifierType
      · rw [if_pos h9]
        have h14 : (if st.fieldNum < idxReleaseType then idxReleaseType else idxSpecifierType) < 14 := by
          split <;> decide
        rw [setField_lt _ _ _ h14]
        simp only []
        by_cases h1 : T + 1 < str.length
        · rw [if_pos h1]
          obtain ⟨c, hc⟩ := byteAt_lt str T (by omega)
          rw [hc]
          exact ⟨_, rfl⟩
        · rw [if_neg h1]
          exact ⟨_, rfl⟩
      · rw [if_neg h9]; exact ⟨_, rfl⟩

/-- What the tag case does when it goes on: it reads at least one byte, writes
a release type to field 4 or to field 9, and goes on at column 0 of the field
after it. -/
theorem tagCase_next (str : List Nat) (st st1 : PState)
    (hs : tagCase str st = .ok (.next st1)) :
    st.idx < st1.idx ∧ st1.column = 0
      ∧ st.fieldNum < idxSpecifierType
      ∧ st1.fieldNum = (if st.fieldNum < idxReleaseType then idxRelease else idxSpecifier)
      ∧ ∃ typ : Int, -4 ≤ typ ∧ typ ≤ 2
          ∧ st1.t = st.t.set (if st.fieldNum < idxReleaseType then ⟨idxReleaseType, by decide⟩
              else ⟨idxSpecifierType, by decide⟩) typ := by
  unfold tagCase at hs
  simp only [] at hs
  have hge := scanLetters_ge (str.drop (st.idx + 1)) (st.idx + 1)
  generalize scanLetters (List.drop (st.idx + 1) str) (st.idx + 1) = T at hs hge
  split at hs
  · simp at hs
  · split at hs
    · simp at hs
    · split at hs
      · simp at hs
      · rename_i typ htyp
        have hr := releaseValue_range htyp
        have hint : int32 typ = typ := int32_of_bounds (by omega) (by omega)
        by_cases h9 : st.fieldNum < idxReleaseType ∨ st.fieldNum < idxSpecifierType
        · rw [if_pos h9] at hs
          have h14 : (if st.fieldNum < idxReleaseType then idxReleaseType else idxSpecifierType) < 14 := by
            split <;> decide
          rw [setField_lt _ _ _ h14, hint] at hs
          simp only [] at hs
          have hfn : st.fieldNum < idxSpecifierType := by
            simp only [idxReleaseType, idxSpecifierType] at h9 ⊢; omega
          have hset : st.t.set ⟨if st.fieldNum < idxReleaseType then idxReleaseType
                else idxSpecifierType, h14⟩ typ
              = st.t.set (if st.fieldNum < idxReleaseType then ⟨idxReleaseType, by decide⟩
                else ⟨idxSpecifierType, by decide⟩) typ := by
            congr 1
            split <;> rfl
          have hnum : (if st.fieldNum < idxReleaseType then idxReleaseType else idxSpecifierType) + 1
              = (if st.fieldNum < idxReleaseType then idxRelease else idxSpecifier) := by
            split <;> rfl
          split at hs
          · simp at hs
          · rename_i b hb
            simp only [Except.ok.injEq, Step.next.injEq] at hs
            subst hs
            refine ⟨?_, rfl, hfn, hnum, typ, hr.1, hr.2, hset⟩
            simp only []
            split <;> omega
        · rw [if_neg h9] at hs; simp at hs

theorem tagCase_ret (str : List Nat) (st : PState) (t : Version)
    (e : Option InvalidStringValue) (hs : tagCase str st = .ok (.ret t e)) :
    t = st.t ∧ e = some errInvalidVersionString := by
  unfold tagCase at hs
  simp only [] at hs
  split at hs
  · simp only [Except.ok.injEq, Step.ret.injEq] at hs; exact ⟨hs.1.symm, hs.2.symm⟩
  · split at hs
    · simp at hs
    · split at hs
      · simp only [Except.ok.injEq, Step.ret.injEq] at hs; exact ⟨hs.1.symm, hs.2.symm⟩
      · split at hs
        · split at hs
          · simp at hs
          · split at hs <;> simp at hs
        · simp only [Except.ok.injEq, Step.ret.injEq] at hs; exact ⟨hs.1.symm, hs.2.symm⟩

theorem buildCase_ok (str : List Nat) (st : PState) : ∃ s, buildCase str st = .ok s := by
  unfold buildCase
  simp only []
  by_cases h : str.length < st.idx + buildsuffix.length + 1
  · rw [if_pos h]; exact ⟨_, rfl⟩
  · rw [if_neg h]
    unfold slice sliceFrom
    rw [if_pos ⟨by omega, by omega⟩]
    simp only []
    split
    · exact ⟨_, rfl⟩
    · rw [if_pos (by omega)]
      simp only []
      split <;> exact ⟨_, rfl⟩

theorem buildCase_ret (str : List Nat) (st : PState) (t : Version)
    (e : Option InvalidStringValue) (hs : buildCase str st = .ok (.ret t e)) :
    t.version = st.t.version := by
  unfold buildCase at hs
  simp only [] at hs
  split at hs
  · simp only [Except.ok.injEq, Step.ret.injEq] at hs; rw [← hs.1]
  · split at hs
    · simp at hs
    · split at hs
      · simp only [Except.ok.injEq, Step.ret.injEq] at hs; rw [← hs.1]
      · split at hs
        · simp at hs
        · split at hs
          · simp only [Except.ok.injEq, Step.ret.injEq] at hs; rw [← hs.1]
          · simp only [Except.ok.injEq, Step.ret.injEq] at hs; rw [← hs.1]

/-- The cases of one pass of the loop, by the byte `c` at the read position. -/
theorem step_cases (str : List Nat) (st : PState) (h : st.idx < str.length) :
    ∃ c, byteAt str st.idx = .ok c ∧
      ((c = 46 ∧ (st.column + 1 ≥ 4 ∨ st.idx + 1 ≥ str.length)
          ∧ step str st = .ok (.ret st.t (some errTooManyColumns)))
      ∨ (c = 46 ∧ st.column + 1 < 4 ∧ st.idx + 1 < str.length
          ∧ step str st = numericCase str ⟨st.idx + 1, st.fieldNum + 1, st.column + 1, st.t⟩)
      ∨ (c ≠ 46 ∧ isNumeric c = true ∧ step str st = numericCase str st)
      ∨ (c ≠ 46 ∧ isNumeric c = false ∧ (c = 45 ∨ c = 95) ∧ st.idx + 1 < str.length
          ∧ (∃ d, byteAt str (st.idx + 1) = .ok d ∧ isNumeric d = true)
          ∧ step str st
            = if st.fieldNum < idxReleaseType then
                .ok (.next ⟨st.idx + 1, idxReleaseType + 1, 0, st.t⟩)
              else if st.fieldNum < idxSpecifierType then
                .ok (.next ⟨st.idx + 1, idxSpecifierType + 1, 0, st.t⟩)
              else .ok (.ret st.t (some errInvalidVersionString)))
      ∨ (c ≠ 46 ∧ isNumeric c = false ∧ (c = 45 ∨ c = 95)
          ∧ (st.idx + 1 < str.length → ∃ d, byteAt str (st.idx + 1) = .ok d ∧ isNumeric d = false)
          ∧ step str st = tagCase str ⟨st.idx + 1, st.fieldNum, st.column, st.t⟩)
      ∨ (c ≠ 46 ∧ isNumeric c = false ∧ ¬ (c = 45 ∨ c = 95) ∧ isSmallLetter c = true
          ∧ step str st = tagCase str st)
      ∨ (c = 43 ∧ step str st = buildCase str st)
      ∨ (c ≠ 46 ∧ isNumeric c = false ∧ ¬ (c = 45 ∨ c = 95) ∧ isSmallLetter c = false ∧ c ≠ 43
          ∧ step str st = .ok (.ret st.t (some errInvalidVersionString)))) := by
  obtain ⟨c, hc⟩ := byteAt_lt str st.idx h
  refine ⟨c, hc, ?_⟩
  unfold step
  simp only [hc]
  by_cases hdot : c = 46
  · rw [if_pos hdot]
    by_cases h1 : st.column + 1 ≥ 4 ∨ st.idx + 1 ≥ str.length
    · rw [if_pos h1]; exact Or.inl ⟨hdot, h1, rfl⟩
    · rw [if_neg h1]; exact Or.inr (Or.inl ⟨hdot, by omega, by omega, rfl⟩)
  · rw [if_neg hdot]
    by_cases hnum : isNumeric c = true
    · rw [if_pos hnum]
      exact Or.inr (Or.inr (Or.inl ⟨hdot, hnum, rfl⟩))
    · rw [if_neg hnum]
      have hnf : isNumeric c = false := by simpa using hnum
      by_cases hdash : c = 45 ∨ c = 95
      · rw [if_pos hdash]
        by_cases h2 : st.idx + 1 < str.length
        · rw [if_pos h2]
          obtain ⟨d, hd⟩ := byteAt_lt str (st.idx + 1) h2
          rw [hd]
          by_cases hdn : isNumeric d = true
          · simp only [hdn]
            exact Or.inr (Or.inr (Or.inr (Or.inl ⟨hdot, hnf, hdash, h2, ⟨d, rfl, hdn⟩, by first | rfl | trivial⟩)))
          · have hdf : isNumeric d = false := by simpa using hdn
            simp only [hdf]
            exact Or.inr (Or.inr (Or.inr (Or.inr (Or.inl
              ⟨hdot, hnf, hdash, fun _ => ⟨d, rfl, hdf⟩, by first | rfl | trivial⟩))))
        · rw [if_neg h2]
          simp only []
          exact Or.inr (Or.inr (Or.inr (Or.inr (Or.inl
            ⟨hdot, hnf, hdash, fun h3 => absurd h3 h2, by first | rfl | trivial⟩))))
      · rw [if_neg hdash]
        by_cases hlet : isSmallLetter c = true
        · rw [if_pos hlet]
          exact Or.inr (Or.inr (Or.inr (Or.inr (Or.inr (Or.inl ⟨hdot, hnf, hdash, hlet, rfl⟩)))))
        · rw [if_neg hlet]
          have hlf : isSmallLetter c = false := by simpa using hlet
          by_cases hplus : c = 43
          · rw [if_pos hplus]
            exact Or.inr (Or.inr (Or.inr (Or.inr (Or.inr (Or.inr (Or.inl ⟨hplus, rfl⟩))))))
          · rw [if_neg hplus]
            exact Or.inr (Or.inr (Or.inr (Or.inr (Or.inr (Or.inr (Or.inr
              ⟨hdot, hnf, hdash, hlf, hplus, rfl⟩))))))

/-- A pass that goes on has read at least one byte and stays within the text. -/
theorem step_progress (str : List Nat) (st st1 : PState) (h : st.idx < str.length)
    (hs : step str st = .ok (.next st1)) : st.idx < st1.idx ∧ st1.idx ≤ str.length := by
  obtain ⟨c, _, hcase⟩ := step_cases str st h
  rcases hcase with ⟨_, _, he⟩ | ⟨_, _, h1, he⟩ | ⟨_, _, he⟩ | ⟨_, _, _, h1, _, he⟩
    | ⟨_, _, _, _, he⟩ | ⟨_, _, _, _, he⟩ | ⟨_, he⟩ | ⟨_, _, _, _, _, he⟩
  · rw [he] at hs; simp at hs
  · rw [he] at hs
    have h2 := numericCase_next str _ st1 hs
    have h3 := numericCase_idx_le str _ st1 (by simp only []; omega) hs
    simp only [] at h2
    exact ⟨by omega, h3⟩
  · rw [he] at hs
    have h2 := numericCase_next str _ st1 hs
    exact ⟨h2.1, numericCase_idx_le str _ st1 (by omega) hs⟩
  · rw [he] at hs
    split at hs
    · simp only [Except.ok.injEq, Step.next.injEq] at hs
      subst hs; simp only []; omega
    · split at hs
      · simp only [Except.ok.injEq, Step.next.injEq] at hs
        subst hs; simp only []; omega
      · simp at hs
  · rw [he] at hs
    have h2 := tagCase_next str _ st1 hs
    simp only [] at h2
    exact ⟨by omega, tagCase_idx_le str _ st1 hs⟩
  · rw [he] at hs
    have h2 := tagCase_next str _ st1 hs
    exact ⟨h2.1, tagCase_idx_le str _ st1 hs⟩
  · rw [he] at hs
    exact absurd hs (buildCase_ne_next _ _ _)
  · rw [he] at hs; simp at hs

/-- A pass that goes on keeps the field in the group of the column. -/
theorem step_slotOk (str : List Nat) (st st1 : PState) (h : st.idx < str.length)
    (hst : st.slotOk) (hs : step str st = .ok (.next st1)) : st1.slotOk := by
  obtain ⟨c, _, hcase⟩ := step_cases str st h
  unfold PState.slotOk at hst ⊢
  simp only [idxRelease, idxSpecifier] at hst ⊢
  rcases hcase with ⟨_, _, he⟩ | ⟨_, hcol, h1, he⟩ | ⟨_, _, he⟩ | ⟨_, _, _, h1, _, he⟩
    | ⟨_, _, _, _, he⟩ | ⟨_, _, _, _, he⟩ | ⟨_, he⟩ | ⟨_, _, _, _, _, he⟩
  · rw [he] at hs; simp at hs
  · rw [he] at hs
    have h2 := numericCase_next str _ st1 hs
    simp only [] at h2
    omega
  · rw [he] at hs
    have h2 := numericCase_next str _ st1 hs
    omega
  · rw [he] at hs
    split at hs
    · simp only [Except.ok.injEq, Step.next.injEq] at hs
      subst hs; simp [idxReleaseType]
    · split at hs
      · simp only [Except.ok.injEq, Step.next.injEq] at hs
        subst hs; simp [idxSpecifierType]
      · simp at hs
  · rw [he] at hs
    have h2 := tagCase_next str _ st1 hs
    simp only [idxRelease, idxSpecifier] at h2
    obtain ⟨_, h3, _, h4, _⟩ := h2
    split at h4 <;> omega
  · rw [he] at hs
    have h2 := tagCase_next str _ st1 hs
    simp only [idxRelease, idxSpecifier] at h2
    obtain ⟨_, h3, _, h4, _⟩ := h2
    split at h4 <;> omega
  · rw [he] at hs
    exact absurd hs (buildCase_ne_next _ _ _)
  · rw [he] at hs; simp at hs

/-- No pass of the loop faults: every index and every slice expression in it
is in range. -/
theorem step_ok (str : List Nat) (st : PState) (h : st.idx < str.length) (hst : st.slotOk) :
    ∃ s, step str st = .ok s := by
  obtain ⟨c, _, hcase⟩ := step_cases str st h
  unfold PState.slotOk at hst
  simp only [idxRelease, idxSpecifier] at hst
  rcases hcase with ⟨_, _, he⟩ | ⟨_, hcol, h1, he⟩ | ⟨_, _, he⟩ | ⟨_, _, _, h1, _, he⟩
    | ⟨_, _, _, _, he⟩ | ⟨_, _, _, _, he⟩ | ⟨_, he⟩ | ⟨_, _, _, _, _, he⟩
  · exact ⟨_, he⟩
  · rw [he]; exact numericCase_ok str _ (by simp only []; omega) (by simp only []; omega)
  · rw [he]; exact numericCase_ok str _ (by omega) (by omega)
  · rw [he]
    split
    · exact ⟨_, rfl⟩
    · split <;> exact ⟨_, rfl⟩
  · rw [he]; exact tagCase_ok str _
  · rw [he]; exact tagCase_ok str _
  · rw [he]; exact buildCase_ok str _
  · exact ⟨_, he⟩

/-- What a pass of the loop writes: nothing to the 14 fields; or, at a dot or a
digit, a number from 0 to 10^9 - 1 to a field other than the two type fields;
or, at another byte, a release type to one of the two type fields. -/
theorem step_writes (str : List Nat) (st : PState) (h : st.idx < str.length) (hst : st.slotOk)
    (s : Step) (hs : step str st = .ok s) :
    s.version.version = st.t.version
      ∨ (∃ (i : Fin 14) (x : Int), i.val ≠ idxReleaseType ∧ i.val ≠ idxSpecifierType
          ∧ 0 ≤ x ∧ x < 1000000000 ∧ s.version = st.t.set i x
          ∧ ∃ c, byteAt str st.idx = .ok c ∧ (c = 46 ∨ isNumeric c = true))
      ∨ (∃ (i : Fin 14) (typ : Int), (i.val = idxReleaseType ∨ i.val = idxSpecifierType)
          ∧ alpha ≤ typ ∧ typ ≤ patch ∧ s.version = st.t.set i typ
          ∧ ∃ c, byteAt str st.idx = .ok c ∧ c ≠ 46 ∧ isNumeric c = false) := by
  obtain ⟨c, hc, hcase⟩ := step_cases str st h
  unfold PState.slotOk at hst
  simp only [idxRelease, idxSpecifier] at hst
  have hnum : ∀ st0 : PState, st0.t = st.t → st0.fieldNum ≠ idxReleaseType →
      st0.fieldNum ≠ idxSpecifierType → (c = 46 ∨ isNumeric c = true) →
      numericCase str st0 = .ok s →
      s.version.version = st.t.version
      ∨ (∃ (i : Fin 14) (x : Int), i.val ≠ idxReleaseType ∧ i.val ≠ idxSpecifierType
          ∧ 0 ≤ x ∧ x < 1000000000 ∧ s.version = st.t.set i x
          ∧ ∃ c, byteAt str st.idx = .ok c ∧ (c = 46 ∨ isNumeric c = true))
      ∨ (∃ (i : Fin 14) (typ : Int), (i.val = idxReleaseType ∨ i.val = idxSpecifierType)
          ∧ alpha ≤ typ ∧ typ ≤ patch ∧ s.version = st.t.set i typ
          ∧ ∃ c, byteAt str st.idx = .ok c ∧ c ≠ 46 ∧ isNumeric c = false) := by
    intro st0 ht h4 h9 hcn hs0
    cases s with
    | ret t e =>
      have := numericCase_ret str st0 t e hs0
      left; simp only [Step.version]; rw [this.1, ht]
    | next st1 =>
      obtain ⟨_, _, _, hf, x, hx0, hx1, hset⟩ := numericCase_next str st0 st1 hs0
      right; left
      exact ⟨⟨st0.fieldNum, hf⟩, x, h4, h9, hx0, hx1, by simp only [Step.version]; rw [hset, ht],
        c, hc, hcn⟩
  have htag : ∀ st0 : PState, st0.t = st.t → c ≠ 46 → isNumeric c = false →
      tagCase str st0 = .ok s →
      s.version.version = st.t.version
      ∨ (∃ (i : Fin 14) (x : Int), i.val ≠ idxReleaseType ∧ i.val ≠ idxSpecifierType
          ∧ 0 ≤ x ∧ x < 1000000000 ∧ s.version = st.t.set i x
          ∧ ∃ c, byteAt str st.idx = .ok c ∧ (c = 46 ∨ isNumeric c = true))
      ∨ (∃ (i : Fin 14) (typ : Int), (i.val = idxReleaseType ∨ i.val = idxSpecifierType)
          ∧ alpha ≤ typ ∧ typ ≤ patch ∧ s.version = st.t.set i typ
          ∧ ∃ c, byteAt str st.idx = .ok c ∧ c ≠ 46 ∧ isNumeric c = false) := by
    intro st0 ht hdot hn hs0
    cases s with
    | ret t e =>
      have := tagCase_ret str st0 t e hs0
      left; simp only [Step.version]; rw [this.1, ht]
    | next st1 =>
      obtain ⟨_, _, _, _, typ, h1, h2, hset⟩ := tagCase_next str st0 st1 hs0
      right; right
      refine ⟨_, typ, ?_, h1, h2, by simp only [Step.version]; rw [hset, ht], c, hc, hdot, hn⟩
      split
      · left; rfl
      · right; rfl
  rcases hcase with ⟨_, _, he⟩ | ⟨hdot, hcol, h1, he⟩ | ⟨_, hn, he⟩ | ⟨_, _, _, h1, _, he⟩
    | ⟨hdot, hn, _, _, he⟩ | ⟨hdot, hn, _, _, he⟩ | ⟨_, he⟩ | ⟨_, _, _, _, _, he⟩
  · rw [he] at hs; simp only [Except.ok.injEq] at hs; subst hs; left; rfl
  · rw [he] at hs
    exact hnum ⟨st.idx + 1, st.fieldNum + 1, st.column + 1, st.t⟩ rfl
      (by simp only [idxReleaseType]; omega)
      (by simp only [idxSpecifierType]; omega) (Or.inl hdot) hs
  · rw [he] at hs
    exact hnum st rfl (by simp only [idxReleaseType]; omega)
      (by simp only [idxSpecifierType]; omega) (Or.inr hn) hs
  · rw [he] at hs
    left
    split at hs
    · simp only [Except.ok.injEq] at hs; subst hs; rfl
    · split at hs <;> (simp only [Except.ok.injEq] at hs; subst hs; rfl)
  · rw [he] at hs; exact htag ⟨st.idx + 1, st.fieldNum, st.column, st.t⟩ rfl hdot hn hs
  · rw [he] at hs; exact htag st rfl hdot hn hs
  · rw [he] at hs
    left
    cases s with
    | ret t e => exact buildCase_ret str st t e hs
    | next st1 => exact absurd hs (buildCase_ne_next _ _ _)
  · rw [he] at hs; simp only [Except.ok.injEq] at hs; subst hs; left; rfl

theorem wellFormed_zero : Version.zero.wellFormed := by
  intro i
  simp [Version.zero, alpha, patch]

theorem wellFormed_of_fields (t v : Version) (ht : t.wellFormed)
    (h : v.version = t.version) : v.wellFormed := by
  intro i; rw [h]; exact ht i

theorem wellFormed_set_number (t : Version) (ht : t.wellFormed) (i : Fin 14) (x : Int)
    (h4 : i.val ≠ idxReleaseType) (h9 : i.val ≠ idxSpecifierType) (h0 : 0 ≤ x)
    (h1 : x < 1000000000) : (t.set i x).wellFormed := by
  intro j
  unfold Version.set
  simp only [Function.update_apply]
  by_cases hj : j = i
  · rw [if_pos hj]
    subst hj
    exact ⟨fun h => by omega, fun _ _ => ⟨h0, h1⟩⟩
  · rw [if_neg hj]; exact ht j

theorem wellFormed_set_type (t : Version) (ht : t.wellFormed) (i : Fin 14) (x : Int)
    (h49 : i.val = idxReleaseType ∨ i.val = idxSpecifierType) (h0 : alpha ≤ x)
    (h1 : x ≤ patch) : (t.set i x).wellFormed := by
  intro j
  unfold Version.set
  simp only [Function.update_apply]
  by_cases hj : j = i
  · rw [if_pos hj]
    subst hj
    exact ⟨fun _ => ⟨h0, h1⟩, fun h4 h9 => by omega⟩
  · rw [if_neg hj]; exact ht j

theorem step_wellFormed (str : List Nat) (st : PState) (h : st.idx < str.length)
    (hst : st.slotOk) (ht : st.t.wellFormed) (s : Step) (hs : step str st = .ok s) :
    s.version.wellFormed := by
  rcases step_writes str st h hst s hs with hw | ⟨i, x, h4, h9, h0, h1, hw, _⟩
    | ⟨i, x, h49, h0, h1, hw, _⟩
  · exact wellFormed_of_fields _ _ ht hw
  · rw [hw]; exact wellFormed_set_number _ ht i x h4 h9 h0 h1
  · rw [hw]; exact wellFormed_set_type _ ht i x h49 h0 h1

/-- The loop ends: with the field in the group of the column, and with at least
as much fuel as there are bytes left, it returns a version and an error
value, and no fault. -/
theorem unmarshalLoop_total (str : List Nat) (fuel : Nat) :
    ∀ st : PState, st.slotOk → str.length - st.idx ≤ fuel →
      ∃ v e, unmarshalLoop str fuel st = .ok (v, e) := by
  induction fuel with
  | zero =>
    intro st _ hf
    rw [unmarshalLoop_end _ _ _ (by omega)]
    exact ⟨_, _, rfl⟩
  | succ fuel ih =>
    intro st hst hf
    by_cases h : st.idx < str.length
    · rw [unmarshalLoop, if_pos h]
      obtain ⟨s, hs⟩ := step_ok str st h hst
      rw [hs]
      cases s with
      | ret t e => exact ⟨_, _, rfl⟩
      | next st1 =>
        have hp := step_progress str st st1 h hs
        exact ih st1 (step_slotOk str st st1 h hst hs) (by omega)
    · rw [unmarshalLoop_end _ _ _ (by omega)]
      exact ⟨_, _, rfl⟩

/-- Fuel beyond the number of bytes left makes no difference. -/
theorem unmarshalLoop_fuel (str : List Nat) (f : Nat) :
    ∀ (g : Nat) (st : PState), str.length - st.idx ≤ f → str.length - st.idx ≤ g →
      unmarshalLoop str f st = unmarshalLoop str g st := by
  induction f with
  | zero =>
    intro g st hf _
    rw [unmarshalLoop_end _ _ _ (by omega), unmarshalLoop_end _ _ _ (by omega)]
  | succ f ih =>
    intro g st hf hg
    by_cases h : st.idx < str.length
    · cases g with
      | zero => omega
      | succ g =>
        rw [unmarshalLoop, unmarshalLoop, if_pos h, if_pos h]
        cases hs : step str st with
        | error e => rfl
        | ok s =>
          cases s with
          | ret t e => rfl
          | next st1 =>
            have hp := step_progress str st st1 h hs
            exact ih g st1 (by omega) (by omega)
    · rw [unmarshalLoop_end _ _ _ (by omega), unmarshalLoop_end _ _ _ (by omega)]

theorem unmarshalLoop_wellFormed (str : List Nat) (fuel : Nat) :
    ∀ (st : PState) (v : Version) (e : Option InvalidStringValue), st.slotOk →
      st.t.wellFormed → unmarshalLoop str fuel st = .ok (v, e) → v.wellFormed := by
  induction fuel with
  | zero =>
    intro st v e _ ht h
    unfold unmarshalLoop at h
    split at h
    · simp at h
    · simp only [Except.ok.injEq, Prod.mk.injEq] at h
      rw [← h.1]; exact ht
  | succ fuel ih =>
    intro st v e hst ht h
    rw [unmarshalLoop] at h
    by_cases hi : st.idx < str.length
    · rw [if_pos hi] at h
      cases hs : step str st with
      | error f => rw [hs] at h; simp at h
      | ok s =>
        have hb := step_wellFormed str st hi hst ht s hs
        rw [hs] at h
        cases s with
        | ret t err =>
          simp only [Except.ok.injEq, Prod.mk.injEq] at h
          rw [← h.1]; exact hb
        | next st1 => exact ih st1 v e (step_slotOk str st st1 hi hst hs) hb h
    · rw [if_neg hi] at h
      simp only [Except.ok.injEq, Prod.mk.injEq] at h
      rw [← h.1]; exact ht

theorem startState_slotOk (t : Version) (str : List Nat) : (startState t str).slotOk := by
  unfold startState PState.slotOk
  simp

theorem startState_idx_le (t : Version) (str : List Nat) :
    (startState t str).idx ≤ str.length := by
  unfold startState
  simp only []
  split <;> omega

theorem unmarshalText_eq_loop (t : Version) (str : List Nat) :
    t.unmarshalText str = unmarshalLoop str str.length (startState t str) := by
  unfold Version.unmarshalText startState
  simp only []
  by_cases h : str.length > 1
  · rw [if_pos h]
    cases str with
    | nil => simp at h
    | cons c cs =>
      simp only [byteAt_cons_zero, List.head?_cons, Option.some.injEq, h, true_and,
        decide_eq_true_eq]
  · rw [if_neg h]
    simp only [h, false_and, if_false, Bool.false_eq_true]

/-- The method `unmarshalText` returns, whatever the text and the receiver. -/
theorem unmarshalText_total (t : Version) (str : List Nat) :
    ∃ v e, t.unmarshalText str = .ok (v, e) := by
  rw [unmarshalText_eq_loop]
  exact unmarshalLoop_total str _ _ (startState_slotOk t str) (by omega)

/-- Every field of what `unmarshalText` leaves in a receiver with well-formed
fields is well-formed. -/
theorem unmarshalText_wellFormed (t : Version) (ht : t.wellFormed) (str : List Nat) (v : Version)
    (e : Option InvalidStringValue) (h : t.unmarshalText str = .ok (v, e)) : v.wellFormed := by
  rw [unmarshalText_eq_loop] at h
  exact unmarshalLoop_wellFormed str _ _ v e (startState_slotOk t str) ht h

theorem newVersion_wellFormed (str : List Nat) (v : Version) (e : Option InvalidStringValue)
    (h : NewVersion str = .ok (v, e)) : v.wellFormed :=
  unmarshalText_wellFormed _ wellFormed_zero str v e h

theorem stateAfter_succ (str : List Nat) (st0 : PState) (n : Nat) (st1 : PState)
    (h : stateAfter str st0 (n + 1) = some st1) :
    ∃ st, stateAfter str st0 n = some st ∧ st.idx < str.length
      ∧ step str st = .ok (.next st1) := by
  rw [stateAfter] at h
  cases hn : stateAfter str st0 n with
  | none => rw [hn] at h; simp at h
  | some st =>
    rw [hn] at h
    simp only [] at h
    by_cases hi : st.idx < str.length
    · rw [if_pos hi] at h
      refine ⟨st, rfl, hi, ?_⟩
      cases hs : step str st with
      | error f => rw [hs] at h; simp at h
      | ok s =>
        rw [hs] at h
        cases s with
        | ret t e => simp at h
        | next st2 =>
          simp only [Option.some.injEq] at h
          rw [h]
    · rw [if_neg hi] at h; simp at h

/-- The invariant of the loop holds after every number of passes. -/
theorem stateAfter_inv (str : List Nat) (st0 : PState) (h0 : st0.slotOk)
    (hi : st0.idx ≤ str.length) :
    ∀ (n : Nat) (st : PState), stateAfter str st0 n = some st →
      st.slotOk ∧ st.idx ≤ str.length := by
  intro n
  induction n with
  | zero =>
    intro st h
    simp only [stateAfter, Option.some.injEq] at h
    subst h; exact ⟨h0, hi⟩
  | succ n ih =>
    intro st1 h
    obtain ⟨st, hn, hlt, hs⟩ := stateAfter_succ str st0 n st1 h
    have hinv := ih st hn
    exact ⟨step_slotOk str st st1 hlt hinv.1 hs, (step_progress str st st1 hlt hs).2⟩

/-- C20: for every byte string `str` and every receiver `t`, `unmarshalText`
returns a version and an error value and no fault (no index or slice
expression out of range, and the loop ends within `len(str)` passes), and so
does `NewVersion`. At the start of every pass the read position is at most
`len(str)`, the column is at most 3 and the field index is `column`,
`5 + column` or `10 + column` (so at most 13, and not 4 or 9); the pass itself
does not fault, it moves the read position forward if the loop goes on, and a
pass that starts at a dot or a digit leaves the type fields 4 and 9 as they
are. -/
theorem unmarshalText_safe (t : Version) (str : List Nat) :
    (∃ v e, t.unmarshalText str = .ok (v, e))
      ∧ (∃ v e, NewVersion str = .ok (v, e))
      ∧ t.unmarshalText str = unmarshalLoop str str.length (startState t str)
      ∧ ∀ (n : Nat) (st : PState), stateAfter str (startState t str) n = some st →
          st.idx ≤ str.length ∧ st.slotOk
          ∧ (st.idx < str.length → ∃ s, step str st = .ok s
              ∧ (∀ st1, s = .next st1 → st.idx < st1.idx ∧ st1.idx ≤ str.length)
              ∧ (∀ c, byteAt str st.idx = .ok c → c = 46 ∨ isNumeric c = true →
                  s.version.version ⟨idxReleaseType, by decide⟩
                      = st.t.version ⟨idxReleaseType, by decide⟩
                    ∧ s.version.version ⟨idxSpecifierType, by decide⟩
                      = st.t.version ⟨idxSpecifierType, by decide⟩)) := by
  refine ⟨unmarshalText_total t str, unmarshalText_total _ str, unmarshalText_eq_loop t str, ?_⟩
  intro n st hn
  obtain ⟨hslot, hle⟩ := stateAfter_inv str _ (startState_slotOk t str)
    (startState_idx_le t str) n st hn
  refine ⟨hle, hslot, fun hlt => ?_⟩
  obtain ⟨s, hs⟩ := step_ok str st hlt hslot
  refine ⟨s, hs, fun st1 h1 => step_progress str st st1 hlt (h1 ▸ hs), fun c hc hcn => ?_⟩
  rcases step_writes str st hlt hslot s hs with hw | ⟨i, x, h4, h9, _, _, hw, _⟩
    | ⟨_, _, _, _, _, _, c2, hc2, hdot, hnum⟩
  · rw [hw]; exact ⟨rfl, rfl⟩
  · rw [hw]
    unfold Version.set
    simp only [Function.update_apply]
    rw [if_neg (fun hh => h4 (by rw [← hh])), if_neg (fun hh => h9 (by rw [← hh]))]
    exact ⟨rfl, rfl⟩
  · rw [hc] at hc2
    simp only [Except.ok.injEq] at hc2
    subst hc2
    rcases hcn with hcn | hcn
    · exact absurd hcn hdot
    · rw [hnum] at hcn; simp at hcn

/-- C12: for every non-empty byte string `s` that does not begin with `v`,
`NewVersion` of `v` followed by `s` returns what `NewVersion(s)` returns, the
same version and the same error. -/
theorem newVersion_v_prefix (s : List Nat) (hne : s ≠ []) (hv : s.head? ≠ some 118) :
    NewVersion (118 :: s) = NewVersion s := by
  unfold NewVersion
  rw [unmarshalText_eq_loop, unmarshalText_eq_loop]
  have hlen : 0 < s.length := List.length_pos.2 hne
  have h1 : startState Version.zero (118 :: s) = ⟨1, 0, 0, Version.zero⟩ := by
    unfold startState
    simp only [List.length_cons, List.head?_cons]
    rw [if_pos ⟨by omega, trivial⟩]
  have h2 : startState Version.zero s = ⟨0, 0, 0, Version.zero⟩ := by
    unfold startState
    rw [if_neg (fun h => hv h.2)]
  rw [h1, h2, unmarshalLoop_drop]
  simp only [List.drop_succ_cons, List.drop_zero, List.length_cons]
  exact unmarshalLoop_fuel s _ _ _ (by simp only []; omega) (by simp only []; omega)

theorem newVersion_v_prefix_witness :
    NewVersion (118 :: bytesOf "1.23.8") = NewVersion (bytesOf "1.23.8") :=
  newVersion_v_prefix (bytesOf "1.23.8") (by decide) (by decide)

theorem bounded_of_wellFormed (v : Version) (h : v.wellFormed) : bounded v.version := by
  intro i
  have := h i
  simp only [idxReleaseType, idxSpecifierType, alpha, patch] at this
  by_cases h4 : i.val = 4
  · have := this.1 (Or.inl h4); omega
  · by_cases h9 : i.val = 9
    · have := this.1 (Or.inr h9); omega
    · have := this.2 h4 h9; omega

theorem mem_prefix_iff (i : Fin 14) : i ∈ ([0, 1, 2, 3] : List (Fin 14)) ↔ i.val < 4 := by
  revert i; decide

theorem mem_limited_iff (i : Fin 14) :
    i ∈ ([0, 1, 2, 3, 4, 5, 6, 7, 8] : List (Fin 14)) ↔ i.val < 9 := by
  revert i; decide

/-- C17: let `t` and `o` be versions that `NewVersion` returns (with or without
an error). If the release type of `t` is `common` and that of `o` is
`revision` or `patch`, then `t.LimitedEqual(o)` is true exactly when `t` and `o`
agree on the fields 0–3; in every other case it is true exactly when they agree
on the fields 0–8. So a plain release is `LimitedEqual` to each of its
patch-levels, and no patch-level is `LimitedEqual` to the plain release. -/
theorem limitedEqual_spec (s1 s2 : List Nat) (t o : Version)
    (e1 e2 : Option InvalidStringValue) (h1 : NewVersion s1 = .ok (t, e1))
    (h2 : NewVersion s2 = .ok (o, e2)) :
    (t.version 4 = common ∧ (o.version 4 = revision ∨ o.version 4 = patch) →
        (t.LimitedEqual o = true ↔ ∀ i : Fin 14, i.val < 4 → t.version i = o.version i))
      ∧ (¬ (t.version 4 = common ∧ (o.version 4 = revision ∨ o.version 4 = patch)) →
        (t.LimitedEqual o = true ↔ ∀ i : Fin 14, i.val < 9 → t.version i = o.version i))
      ∧ (t.version 4 = common → (o.version 4 = revision ∨ o.version 4 = patch) →
        (∀ i : Fin 14, i.val < 4 → t.version i = o.version i) →
        t.LimitedEqual o = true ∧ o.LimitedEqual t = false) := by
  have wt := newVersion_wellFormed s1 t e1 h1
  have wo := newVersion_wellFormed s2 o e2 h2
  have bt := bounded_of_wellFormed t wt
  have bo := bounded_of_wellFormed o wo
  have ho4 := (wo 4).1 (Or.inl rfl)
  simp only [alpha, patch] at ho4
  simp only [common, revision, patch]
  have hpos : (t.version 4 = 0 ∧ 0 < o.version 4)
      ↔ (t.version 4 = 0 ∧ (o.version 4 = 1 ∨ o.version 4 = 2)) := by
    constructor
    · intro h; exact ⟨h.1, by omega⟩
    · intro h; exact ⟨h.1, by omega⟩
  have hA : t.version 4 = 0 ∧ (o.version 4 = 1 ∨ o.version 4 = 2) →
      (t.LimitedEqual o = true ↔ ∀ i : Fin 14, i.val < 4 → t.version i = o.version i) := by
    intro h
    rw [limitedEqual_iff t o bt bo, if_pos (hpos.2 h), lexSign_eq_zero]
    exact forall_congr' fun i => by rw [mem_prefix_iff]
  have hB : ∀ a b : Version, bounded a.version → bounded b.version →
      ¬ (a.version 4 = 0 ∧ 0 < b.version 4) →
      (a.LimitedEqual b = true ↔ ∀ i : Fin 14, i.val < 9 → a.version i = b.version i) := by
    intro a b ba bb h
    rw [limitedEqual_iff a b ba bb, if_neg h, lexSign_eq_zero]
    exact forall_congr' fun i => by rw [mem_limited_iff]
  refine ⟨hA, fun h => hB t o bt bo (fun h3 => h (hpos.1 h3)), fun h4 ho hp => ?_⟩
  refine ⟨(hA ⟨h4, ho⟩).2 hp, ?_⟩
  cases hl : o.LimitedEqual t with
  | false => rfl
  | true =>
    have h5 := (hB o t bo bt (fun h3 => by omega)).1 hl 4 (by decide)
    omega

theorem limitedEqual_spec_witness :
    (Version.ofList [1, 2, 3] 0).LimitedEqual (Version.ofList [1, 2, 3, 0, 2, 7] 0) = true
      ∧ (Version.ofList [1, 2, 3, 0, 2, 7] 0).LimitedEqual (Version.ofList [1, 2, 3] 0) = false :=
  (limitedEqual_spec (bytesOf "1.2.3") (bytesOf "1.2.3-p7") (Version.ofList [1, 2, 3] 0)
    (Version.ofList [1, 2, 3, 0, 2, 7] 0) none none (by decide!) (by decide!)).2.2
    (by decide!) (by decide!) (by decide!)

/-- C18, the claim as it stands fails: `1.2.3` is of release type `common`,
`1.2.3-beta4` is a pre-release with the same fields 0–3, and
`LimitedEqual` of `1.2.3` with `1.2.3-beta4` is false. -/
theorem limitedEqual_prerelease_counterexample :
    NewVersion (bytesOf "1.2.3") = .ok (Version.ofList [1, 2, 3] 0, none)
      ∧ NewVersion (bytesOf "1.2.3-beta4") = .ok (Version.ofList [1, 2, 3, 0, -3, 4] 0, none)
      ∧ (Version.ofList [1, 2, 3] 0).version 4 = common
      ∧ (Version.ofList [1, 2, 3, 0, -3, 4] 0).IsAPreRelease = true
      ∧ (∀ i : Fin 14, i.val < 4 →
          (Version.ofList [1, 2, 3] 0).version i = (Version.ofList [1, 2, 3, 0, -3, 4] 0).version i)
      ∧ (Version.ofList [1, 2, 3] 0).LimitedEqual (Version.ofList [1, 2, 3, 0, -3, 4] 0) = false := by
  refine ⟨by decide!, by decide!, by decide!, by decide!, by decide!, by decide!⟩

theorem signDelta_type_differs (a b : Fin 14 → Int)
    (hp : ∀ i : Fin 14, i.val < idxReleaseType → a i = b i) (hne : a 4 ≠ b 4)
    (ha1 : -4 ≤ a 4) (ha2 : a 4 ≤ 2) (hb1 : -4 ≤ b 4) (hb2 : b 4 ≤ 2) :
    signDelta a b idxSpecifierType ≠ 0 := by
  unfold signDelta
  rw [finRange_filter_9, signDeltaOver_cons_eq _ _ _ _ (hp 0 (by decide)),
    signDeltaOver_cons_eq _ _ _ _ (hp 1 (by decide)),
    signDeltaOver_cons_eq _ _ _ _ (hp 2 (by decide)),
    signDeltaOver_cons_eq _ _ _ _ (hp 3 (by decide)),
    signDeltaOver_cons _ _ _ _ (by omega) (by omega), if_neg hne]
  split <;> decide

/-- C18, amended: let `t` be of release type `common` and let `o` have the
same fields 0–3 (major, minor, patch, revision) as `t` and a release type from
`alpha` to `patch`. If `o` is a pre-release (release type below `common`), then
`t.LimitedEqual(o)` is false and `o.LimitedEqual(t)` is false. If `o` is a
patch-level (release type above `common`), then `t.LimitedEqual(o)` is true and
`o.LimitedEqual(t)` is false. -/
theorem limitedEqual_common (t o : Version)
    (ht : t.version ⟨idxReleaseType, by decide⟩ = common)
    (ho1 : alpha ≤ o.version ⟨idxReleaseType, by decide⟩)
    (ho2 : o.version ⟨idxReleaseType, by decide⟩ ≤ patch)
    (hp : ∀ i : Fin 14, i.val < idxReleaseType → t.version i = o.version i) :
    (o.version ⟨idxReleaseType, by decide⟩ < common →
        t.LimitedEqual o = false ∧ o.LimitedEqual t = false)
      ∧ (common < o.version ⟨idxReleaseType, by decide⟩ →
        t.LimitedEqual o = true ∧ o.LimitedEqual t = false) := by
  have h4 : (⟨idxReleaseType, by decide⟩ : Fin 14) = 4 := rfl
  rw [h4] at ht ho1 ho2
  simp only [h4]
  simp only [alpha, patch, common] at ht ho1 ho2 ⊢
  have hot : ∀ hne : o.version 4 ≠ 0, o.LimitedEqual t = false := by
    intro hne
    unfold Version.LimitedEqual
    simp only [h4, common]
    rw [if_neg (fun h => hne h.1)]
    have := signDelta_type_differs o.version t.version (fun i hi => (hp i hi).symm)
      (by omega) (by omega) (by omega) (by omega) (by omega)
    simpa using this
  constructor
  · intro hlt
    refine ⟨?_, hot (by omega)⟩
    unfold Version.LimitedEqual
    simp only [h4, common]
    rw [if_neg (fun h => by omega)]
    have := signDelta_type_differs t.version o.version hp
      (by omega) (by omega) (by omega) (by omega) (by omega)
    simpa using this
  · intro hgt
    refine ⟨?_, hot (by omega)⟩
    unfold Version.LimitedEqual Version.sharesPrefixWith
    simp only [h4, common]
    rw [if_pos ⟨ht, hgt⟩]
    simp only [decide_eq_true_eq]
    exact signDelta_prefix_eq _ _ (hp 0 (by decide)) (hp 1 (by decide)) (hp 2 (by decide))
      (hp 3 (by decide))

theorem limitedEqual_common_witness :
    (Version.ofList [1, 2, 3] 0).LimitedEqual (Version.ofList [1, 2, 3, 0, -3, 4] 0) = false
      ∧ (Version.ofList [1, 2, 3, 0, -3, 4] 0).LimitedEqual (Version.ofList [1, 2, 3] 0) = false :=
  (limitedEqual_common (Version.ofList [1, 2, 3] 0) (Version.ofList [1, 2, 3, 0, -3, 4] 0)
    (by decide!) (by decide!) (by decide!) (by decide!)).1 (by decide!)

/-- A pass that goes on, followed by the rest of the loop: the loop goes on
from the new read position, seen as index 0 of the text that is left. -/
theorem unmarshalLoop_of_next (str : List Nat) (st st1 : PState) (fuel : Nat)
    (h : st.idx < str.length) (hf : str.length - st.idx ≤ fuel)
    (hs : step str st = .ok (.next st1)) :
    unmarshalLoop str fuel st
      = unmarshalLoop (str.drop st1.idx) (str.drop st1.idx).length { st1 with idx := 0 } := by
  have hp := step_progress str st st1 h hs
  cases fuel with
  | zero => omega
  | succ f =>
    rw [unmarshalLoop, if_pos h, hs]
    simp only []
    rw [unmarshalLoop_fuel str f (str.length - st1.idx) st1 (by omega) (by omega),
      unmarshalLoop_drop, List.length_drop]

/-- A pass that returns ends the loop. -/
theorem unmarshalLoop_of_ret (str : List Nat) (st : PState) (fuel : Nat) (t : Version)
    (e : Option InvalidStringValue) (h : st.idx < str.length) (hf : 1 ≤ fuel)
    (hs : step str st = .ok (.ret t e)) : unmarshalLoop str fuel st = .ok (t, e) := by
  cases fuel with
  | zero => omega
  | succ f => rw [unmarshalLoop, if_pos h, hs]

/-- What `NewVersion` does on a text that begins with a numeric core: the loop
goes on behind the core, with the fields of the core set. -/
theorem newVersion_core_then (ns : List (List Nat)) (h1 : 1 ≤ ns.length) (h4 : ns.length ≤ 4)
    (hns : ∀ n ∈ ns, isNumeral n) (rest : List Nat) (hrest : stopsNumber rest) :
    NewVersion (numericCore ns ++ rest)
      = unmarshalLoop rest rest.length ⟨0, ns.length - 1, ns.length - 1, coreVersion ns⟩ := by
  unfold NewVersion
  rw [unmarshalText_numericCore rest hrest ns hns h1 h4]
  have := length_numericCore_ge ns hns
  exact unmarshalLoop_fuel rest _ _ _ (by simp only [List.length_append]; omega)
    (by simp only []; omega)

/-- A numeral at the read position is read into the current field. -/
theorem unmarshalLoop_numeral_then (ds rest : List Nat) (hds : isNumeral ds)
    (hrest : stopsNumber rest) (fuel fn col : Nat) (t : Version) (hfn : fn < 14)
    (hf : (ds ++ rest).length ≤ fuel) :
    unmarshalLoop (ds ++ rest) fuel ⟨0, fn, col, t⟩
      = unmarshalLoop rest rest.length ⟨0, fn, col, t.set ⟨fn, hfn⟩ (decVal ds)⟩ := by
  have := hds.1
  simp only [List.length_append] at hf
  cases fuel with
  | zero => omega
  | succ f =>
    rw [unmarshalLoop_numeral ds rest hds hrest f fn col t hfn]
    exact unmarshalLoop_fuel rest _ _ _ (by simp only []; omega) (by simp only []; omega)

/-- The tag case at index 0: the tag is the first byte and the small letters
behind it. -/
theorem tagCase_front (c : Nat) (q rest : List Nat) (hq : ∀ d ∈ q, isLower d)
    (hrest : ∀ d, rest.head? = some d → isSmallLetter d = false) (fn col : Nat) (t : Version) :
    (releaseValue (c :: q) = none ∨ idxSpecifierType ≤ fn →
        tagCase (c :: (q ++ rest)) ⟨0, fn, col, t⟩ = .ok (.ret t (some errInvalidVersionString)))
      ∧ (∀ typ, releaseValue (c :: q) = some typ → fn < idxSpecifierType →
          rest.head? ≠ some 46 →
          tagCase (c :: (q ++ rest)) ⟨0, fn, col, t⟩
            = .ok (.next ⟨1 + q.length, if fn < idxReleaseType then idxRelease else idxSpecifier,
                0, t.set (if fn < idxReleaseType then ⟨idxReleaseType, by decide⟩
                  else ⟨idxSpecifierType, by decide⟩) typ⟩)) := by
  have hscan : scanLetters (q ++ rest) (0 + 1) = 1 + q.length := by
    rw [scanLetters_append_stop q rest hrest, scanLetters_word q hq]
  have hslice : slice (c :: (q ++ rest)) 0 (1 + q.length) = .ok (c :: q) := by
    unfold slice
    rw [if_pos (by simp only [List.length_cons, List.length_append]; omega)]
    rw [show 1 + q.length = q.length + 1 by omega]
    simp
  constructor
  · intro h
    unfold tagCase
    simp only [List.drop_succ_cons, List.drop_zero, hscan, List.length_cons, List.length_append]
    rw [if_neg (by omega)]
    simp only [hslice]
    cases hr : releaseValue (c :: q) with
    | none => rfl
    | some typ =>
      simp only []
      rcases h with h | h
      · rw [hr] at h; simp at h
      · rw [if_neg (by simp only [idxReleaseType, idxSpecifierType] at h ⊢; omega)]
  · intro typ hr h9 hdot
    have hr2 := releaseValue_range hr
    unfold tagCase
    simp only [List.drop_succ_cons, List.drop_zero, hscan, List.length_cons, List.length_append]
    rw [if_neg (by omega)]
    simp only [hslice, hr]
    rw [if_pos (Or.inr h9)]
    have h14 : (if fn < idxReleaseType then idxReleaseType else idxSpecifierType) < 14 := by
      split <;> decide
    rw [setField_lt _ _ _ h14, int32_of_bounds (by omega) (by omega)]
    simp only []
    by_cases h1 : 1 + q.length + 1 < q.length + rest.length + 1
    · rw [if_pos h1]
      cases rest with
      | nil => simp at h1
      | cons d ds =>
        have hb : byteAt (c :: (q ++ d :: ds)) (1 + q.length) = .ok d := by
          have := byteAt_append_length (c :: q) ds d
          simp only [List.cons_append, List.length_cons] at this
          rw [show 1 + q.length = q.length + 1 by omega]
          exact this
        rw [hb]
        simp only [List.head?_cons, ne_eq, Option.some.injEq] at hdot
        simp only [hdot, decide_False, Bool.false_eq_true, if_false]
        congr 3
        · split <;> rfl
        · congr 1
          split <;> rfl
    · rw [if_neg h1]
      simp only [Bool.false_eq_true, if_false]
      congr 3
      · split <;> rfl
      · congr 1
        split <;> rfl

theorem drop_front (c : Nat) (q rest : List Nat) :
    (c :: (q ++ rest)).drop (1 + q.length) = rest := by
  rw [show 1 + q.length = q.length + 1 by omega, List.drop_succ_cons]
  exact List.drop_left q rest

theorem drop_behind (c0 c : Nat) (q rest : List Nat) :
    (c0 :: c :: (q ++ rest)).drop (1 + q.length + 1) = rest := by
  rw [List.drop_succ_cons]
  exact drop_front c q rest

theorem step_letter (c : Nat) (cs : List Nat) (hc : isLower c) (fn col : Nat) (t : Version) :
    step (c :: cs) ⟨0, fn, col, t⟩ = tagCase (c :: cs) ⟨0, fn, col, t⟩ := by
  unfold step
  simp only [byteAt_cons_zero]
  rw [if_neg (by unfold isLower at hc; omega), if_neg (by simp [isNumeric_lower hc]),
    if_neg (by unfold isLower at hc; omega), if_pos (isSmallLetter_lower hc)]

theorem step_separator (sep c : Nat) (cs : List Nat) (hsep : sep = 45 ∨ sep = 95)
    (hc : isNumeric c = false) (fn col : Nat) (t : Version) :
    step (sep :: c :: cs) ⟨0, fn, col, t⟩
      = shiftResult 1 (tagCase (c :: cs) ⟨0, fn, col, t⟩) := by
  have hn : isNumeric sep = false := by rcases hsep with h | h <;> subst h <;> decide
  have h1 : byteAt (sep :: c :: cs) (0 + 1) = .ok c := by simp [byteAt]
  unfold step
  simp only [byteAt_cons_zero]
  rw [if_neg (by omega), if_neg (by simp [hn]), if_pos hsep]
  simp only [List.length_cons, h1, hc]
  rw [if_pos (by omega)]
  simp only []
  rw [tagCase_drop _ _ (by simp)]
  simp

/-- A tag that is not known, or a third tag group, ends the loop with
`errInvalidVersionString`. -/
theorem unmarshalLoop_tag_err (c : Nat) (q rest : List Nat) (hc : isLower c)
    (hq : ∀ d ∈ q, isLower d) (hrest : ∀ d, rest.head? = some d → isSmallLetter d = false)
    (fuel fn col : Nat) (t : Version) (hf : 1 ≤ fuel)
    (h : releaseValue (c :: q) = none ∨ idxSpecifierType ≤ fn) :
    unmarshalLoop (c :: (q ++ rest)) fuel ⟨0, fn, col, t⟩
      = .ok (t, some errInvalidVersionString) := by
  refine unmarshalLoop_of_ret _ _ fuel _ _ (by simp) hf ?_
  rw [step_letter c _ hc]
  exact (tagCase_front c q rest hq hrest fn col t).1 h

/-- A known tag at the read position: its release type is written to field 4
or to field 9, and the loop goes on behind the tag. -/
theorem unmarshalLoop_tag_then (c : Nat) (q rest : List Nat) (hc : isLower c)
    (hq : ∀ d ∈ q, isLower d) (hrest : ∀ d, rest.head? = some d → isSmallLetter d = false)
    (hdot : rest.head? ≠ some 46) (fuel fn col : Nat) (t : Version)
    (hf : (c :: (q ++ rest)).length ≤ fuel) (typ : Int) (hr : releaseValue (c :: q) = some typ)
    (h9 : fn < idxSpecifierType) :
    unmarshalLoop (c :: (q ++ rest)) fuel ⟨0, fn, col, t⟩
      = unmarshalLoop rest rest.length
          ⟨0, if fn < idxReleaseType then idxRelease else idxSpecifier, 0,
            t.set (if fn < idxReleaseType then ⟨idxReleaseType, by decide⟩
              else ⟨idxSpecifierType, by decide⟩) typ⟩ := by
  have hs : step (c :: (q ++ rest)) ⟨0, fn, col, t⟩ = _ :=
    (step_letter c _ hc fn col t).trans ((tagCase_front c q rest hq hrest fn col t).2 typ hr h9 hdot)
  rw [unmarshalLoop_of_next _ _ _ fuel (by simp) (by simpa using hf) hs]
  simp only [drop_front]

/-- A separator and a tag that is not known, or a third tag group, end the
loop with `errInvalidVersionString`. -/
theorem unmarshalLoop_sep_tag_err (sep c : Nat) (q rest : List Nat)
    (hsep : sep = 45 ∨ sep = 95) (hc : isNumeric c = false)
    (hq : ∀ d ∈ q, isLower d) (hrest : ∀ d, rest.head? = some d → isSmallLetter d = false)
    (fuel fn col : Nat) (t : Version) (hf : 1 ≤ fuel)
    (h : releaseValue (c :: q) = none ∨ idxSpecifierType ≤ fn) :
    unmarshalLoop (sep :: c :: (q ++ rest)) fuel ⟨0, fn, col, t⟩
      = .ok (t, some errInvalidVersionString) := by
  refine unmarshalLoop_of_ret _ _ fuel _ _ (by simp) hf ?_
  rw [step_separator sep c _ hsep hc, (tagCase_front c q rest hq hrest fn col t).1 h]
  rfl

/-- A separator and a known tag at the read position: the release type is
written to field 4 or to field 9, and the loop goes on behind the tag. -/
theorem unmarshalLoop_sep_tag_then (sep c : Nat) (q rest : List Nat)
    (hsep : sep = 45 ∨ sep = 95) (hc : isNumeric c = false)
    (hq : ∀ d ∈ q, isLower d) (hrest : ∀ d, rest.head? = some d → isSmallLetter d = false)
    (hdot : rest.head? ≠ some 46) (fuel fn col : Nat) (t : Version)
    (hf : (sep :: c :: (q ++ rest)).length ≤ fuel) (typ : Int)
    (hr : releaseValue (c :: q) = some typ) (h9 : fn < idxSpecifierType) :
    unmarshalLoop (sep :: c :: (q ++ rest)) fuel ⟨0, fn, col, t⟩
      = unmarshalLoop rest rest.length
          ⟨0, if fn < idxReleaseType then idxRelease else idxSpecifier, 0,
            t.set (if fn < idxReleaseType then ⟨idxReleaseType, by decide⟩
              else ⟨idxSpecifierType, by decide⟩) typ⟩ := by
  have hs : step (sep :: c :: (q ++ rest)) ⟨0, fn, col, t⟩
      = .ok (.next ⟨1 + q.length + 1, if fn < idxReleaseType then idxRelease else idxSpecifier, 0,
          t.set (if fn < idxReleaseType then ⟨idxReleaseType, by decide⟩
            else ⟨idxSpecifierType, by decide⟩) typ⟩) := by
    rw [step_separator sep c _ hsep hc, (tagCase_front c q rest hq hrest fn col t).2 typ hr h9 hdot]
    rfl
  rw [unmarshalLoop_of_next _ _ _ fuel (by simp) (by simpa using hf) hs]
  simp only [drop_behind]

/-- A byte that opens no case of the loop ends it with
`errInvalidVersionString`. -/
theorem unmarshalLoop_bad_byte (c : Nat) (rest : List Nat) (h46 : c ≠ 46)
    (hn : isNumeric c = false) (h45 : c ≠ 45) (h95 : c ≠ 95) (hl : isSmallLetter c = false)
    (h43 : c ≠ 43) (fuel fn col : Nat) (t : Version) (hf : 1 ≤ fuel) :
    unmarshalLoop (c :: rest) fuel ⟨0, fn, col, t⟩ = .ok (t, some errInvalidVersionString) := by
  refine unmarshalLoop_of_ret _ _ fuel _ _ (by simp) hf ?_
  unfold step
  simp only [byteAt_cons_zero]
  rw [if_neg h46, if_neg (by simp [hn]), if_neg (by omega), if_neg (by simp [hl]), if_neg h43]

theorem isTag_cases {w : List Nat} (h : isTag w) :
    ∃ c q typ, w = c :: q ∧ isLower c ∧ (∀ d ∈ q, isLower d) ∧ releaseValue w = some typ := by
  unfold isTag tagTable at h
  simp only [List.map_cons, List.map_nil, List.mem_cons, List.mem_singleton, List.not_mem_nil,
    or_false] at h
  rcases h with rfl | rfl | rfl | rfl | rfl | rfl
  · exact ⟨97, [108, 112, 104, 97], alpha, rfl, by decide, by decide, rfl⟩
  · exact ⟨98, [101, 116, 97], beta, rfl, by decide, by decide, rfl⟩
  · exact ⟨112, [114, 101], pre, rfl, by decide, by decide, rfl⟩
  · exact ⟨114, [99], rc, rfl, by decide, by decide, rfl⟩
  · exact ⟨114, [], revision, rfl, by decide, by decide, rfl⟩
  · exact ⟨112, [], patch, rfl, by decide, by decide, rfl⟩

theorem isSmallLetter_digit {c : Nat} (h : isDigit c) : isSmallLetter c = false := by
  unfold isDigit at h; unfold isSmallLetter byteSub; simp; omega

theorem isSmallLetter_separator {c : Nat} (h : isSeparator c) : isSmallLetter c = false := by
  rcases h with h | h <;> subst h <;> decide

theorem stopsNumber_separator {c : Nat} (h : isSeparator c) (cs : List Nat) :
    stopsNumber (c :: cs) :=
  stopsNumber_cons cs (by rcases h with h | h <;> subst h <;> decide)

theorem stopsNumber_lower {c : Nat} (h : isLower c) (cs : List Nat) :
    stopsNumber (c :: cs) :=
  stopsNumber_cons cs (by unfold isLower at h; unfold byteSub; omega)

/-- A tag group at the read position, in front of the first or the second
group of fields: a separator, a tag and an optional numeral. The loop goes on
behind the group, at column 0 of the field behind the type field. -/
theorem unmarshalLoop_group (sep : Nat) (w d rest : List Nat) (hsep : isSeparator sep)
    (hw : isTag w) (hd : isOptNumeral d) (hrest : stopsNumber rest)
    (hrest2 : d = [] → ∀ c, rest.head? = some c → isSmallLetter c = false ∧ c ≠ 46)
    (fuel fn col : Nat) (t : Version) (hf : (sep :: (w ++ (d ++ rest))).length ≤ fuel)
    (h9 : fn < idxSpecifierType) :
    ∃ t1, unmarshalLoop (sep :: (w ++ (d ++ rest))) fuel ⟨0, fn, col, t⟩
      = unmarshalLoop rest rest.length
          ⟨0, if fn < idxReleaseType then idxRelease else idxSpecifier, 0, t1⟩ := by
  obtain ⟨c, q, typ, rfl, hc, hq, hr⟩ := isTag_cases hw
  have hhead : ∀ x, (d ++ rest).head? = some x → isSmallLetter x = false ∧ x ≠ 46 := by
    intro x hx
    rcases hd with rfl | hd
    · exact hrest2 rfl x hx
    · cases d with
      | nil => exact absurd hd.1 (by simp)
      | cons y ys =>
        simp only [List.cons_append, List.head?_cons, Option.some.injEq] at hx
        subst hx
        have hy := hd.2.2 y (List.mem_cons_self _ _)
        exact ⟨isSmallLetter_digit hy, by unfold isDigit at hy; omega⟩
  have hgo := unmarshalLoop_sep_tag_then sep c q (d ++ rest) hsep (isNumeric_lower hc) hq
    (fun x hx => (hhead x hx).1) (fun h => (hhead 46 h).2 rfl) fuel fn col t hf typ hr h9
  rw [List.cons_append, hgo]
  rcases hd with rfl | hd
  · exact ⟨_, rfl⟩
  · have hfn : (if fn < idxReleaseType then idxRelease else idxSpecifier) < 14 := by
      split <;> decide
    exact ⟨_, unmarshalLoop_numeral_then d rest hd hrest _ _ _ _ hfn (Nat.le_refl _)⟩

/-- C11: let `c` be a numeric core, `t1`, `t2`, `t3` tags among `alpha`, `beta`,
`pre`, `rc`, `r`, `p`, let `d1`, `d2` be optional numerals of at most 9 digits,
and `s1`, `s2`, `s3` separators (`-` or `_`). `NewVersion` of
`c s1 t1 d1 s2 t2 d2 s3 t3` fails with `errInvalidVersionString`, and so does
`NewVersion` of `c s1 t1 d1 s2 t2 d2 t3` when `d2` is not empty. -/
theorem newVersion_third_tag (ns : List (List Nat)) (h1 : 1 ≤ ns.length) (h4 : ns.length ≤ 4)
    (hns : ∀ n ∈ ns, isNumeral n) (t1 t2 t3 d1 d2 : List Nat) (s1 s2 s3 : Nat)
    (ht1 : isTag t1) (ht2 : isTag t2) (ht3 : isTag t3) (hd1 : isOptNumeral d1)
    (hd2 : isOptNumeral d2) (hs1 : isSeparator s1) (hs2 : isSeparator s2)
    (hs3 : isSeparator s3) :
    (∃ v, NewVersion (numericCore ns ++ s1 :: (t1 ++ (d1 ++ s2 :: (t2 ++ (d2 ++ s3 :: t3)))))
        = .ok (v, some errInvalidVersionString))
      ∧ (d2 ≠ [] →
        ∃ v, NewVersion (numericCore ns ++ s1 :: (t1 ++ (d1 ++ s2 :: (t2 ++ (d2 ++ t3)))))
          = .ok (v, some errInvalidVersionString)) := by
  obtain ⟨c, q, typ, rfl, hc, hq, hr⟩ := isTag_cases ht3
  have hsepHead : ∀ (s : Nat) (l : List Nat), isSeparator s →
      ∀ x, (s :: l).head? = some x → isSmallLetter x = false ∧ x ≠ 46 := by
    intro s l hs x hx
    simp only [List.head?_cons, Option.some.injEq] at hx
    subst hx
    exact ⟨isSmallLetter_separator hs, by rcases hs with h | h <;> omega⟩
  have hfn1 : (if ns.length - 1 < idxReleaseType then idxRelease else idxSpecifier) = 5 := by
    rw [if_pos (by simp only [idxReleaseType]; omega)]; rfl
  have hfn2 : (if 5 < idxReleaseType then idxRelease else idxSpecifier) = 10 := by decide
  constructor
  · rw [newVersion_core_then ns h1 h4 hns _ (stopsNumber_separator hs1 _)]
    obtain ⟨v1, e1⟩ := unmarshalLoop_group s1 t1 d1 (s2 :: (t2 ++ (d2 ++ s3 :: c :: q))) hs1 ht1
      hd1 (stopsNumber_separator hs2 _) (fun _ => hsepHead s2 _ hs2) _ (ns.length - 1)
      (ns.length - 1) (coreVersion ns) (Nat.le_refl _) (by simp only [idxSpecifierType]; omega)
    rw [e1, hfn1]
    obtain ⟨v2, e2⟩ := unmarshalLoop_group s2 t2 d2 (s3 :: c :: q) hs2 ht2
      hd2 (stopsNumber_separator hs3 _) (fun _ => hsepHead s3 _ hs3) _ 5 0 v1 (Nat.le_refl _)
      (by decide)
    rw [e2, hfn2]
    refine ⟨v2, ?_⟩
    have := unmarshalLoop_sep_tag_err s3 c q [] hs3 (isNumeric_lower hc) hq
      (fun d hd => by simp at hd) (s3 :: c :: q).length 10 0 v2 (by simp) (Or.inr (by decide))
    simpa using this
  · intro hne
    have hd2n : isNumeral d2 := by
      rcases hd2 with h | h
      · exact absurd h hne
      · exact h
    rw [newVersion_core_then ns h1 h4 hns _ (stopsNumber_separator hs1 _)]
    obtain ⟨v1, e1⟩ := unmarshalLoop_group s1 t1 d1 (s2 :: (t2 ++ (d2 ++ c :: q))) hs1 ht1
      hd1 (stopsNumber_separator hs2 _) (fun _ => hsepHead s2 _ hs2) _ (ns.length - 1)
      (ns.length - 1) (coreVersion ns) (Nat.le_refl _) (by simp only [idxSpecifierType]; omega)
    rw [e1, hfn1]
    obtain ⟨v2, e2⟩ := unmarshalLoop_group s2 t2 d2 (c :: q) hs2 ht2
      hd2 (stopsNumber_lower hc _) (fun h => absurd h hne) _ 5 0 v1 (Nat.le_refl _)
      (by decide)
    rw [e2, hfn2]
    refine ⟨v2, ?_⟩
    have := unmarshalLoop_tag_err c q [] hc hq
      (fun d hd => by simp at hd) (c :: q).length 10 0 v2 (by simp) (Or.inr (by decide))
    simpa using this

theorem newVersion_third_tag_witness :
    (∃ v, NewVersion (bytesOf "1.8-alpha-beta-rc") = .ok (v, some errInvalidVersionString))
      ∧ (∃ v, NewVersion (bytesOf "1.8-alpha-beta3rc") = .ok (v, some errInvalidVersionString)) :=
  ⟨(newVersion_third_tag [[49], [56]] (by decide) (by decide) (by decide)
      (bytesOf "alpha") (bytesOf "beta") (bytesOf "rc") [] [] 45 45 45
      (by decide) (by decide) (by decide) (by decide) (by decide) (by decide) (by decide)
      (by decide)).1,
   (newVersion_third_tag [[49], [56]] (by decide) (by decide) (by decide)
      (bytesOf "alpha") (bytesOf "beta") (bytesOf "rc") [] [51] 45 45 45
      (by decide) (by decide) (by decide) (by decide) (by decide) (by decide) (by decide)
      (by decide)).2 (by decide)⟩

theorem isSmallLetter_upper {c : Nat} (h : isUpper c) : isSmallLetter c = false := by
  unfold isUpper at h; unfold isSmallLetter byteSub; simp; omega

theorem isNumeric_upper {c : Nat} (h : isUpper c) : isNumeric c = false := by
  unfold isUpper at h; unfold isNumeric byteSub; simp; omega

theorem releaseValue_upper {c : Nat} (h : isUpper c) (q : List Nat) :
    releaseValue (c :: q) = none := by
  unfold isUpper at h
  unfold releaseValue
  simp only [List.cons.injEq, reduceCtorEq, if_false]
  rw [if_neg (fun hh => by omega), if_neg (fun hh => by omega), if_neg (fun hh => by omega),
    if_neg (fun hh => by omega), if_neg (fun hh => by omega), if_neg (fun hh => by omega)]

/-- A word of letters is a run of small letters followed by nothing or by a
capital letter and the rest. -/
theorem letters_split (l : List Nat) (hl : ∀ d ∈ l, isLower d ∨ isUpper d) :
    ∃ q rest, l = q ++ rest ∧ (∀ d ∈ q, isLower d) ∧ (∀ d, rest.head? = some d → isUpper d)
      ∧ (∀ d ∈ rest, isLower d ∨ isUpper d) := by
  induction l with
  | nil => exact ⟨[], [], rfl, by simp, by simp, by simp⟩
  | cons c cs ih =>
    rcases hl c (List.mem_cons_self _ _) with hc | hc
    · obtain ⟨q, rest, he, hq, hr, hr2⟩ := ih (fun d hd => hl d (List.mem_cons_of_mem _ hd))
      refine ⟨c :: q, rest, by rw [he]; rfl, ?_, hr, hr2⟩
      intro d hd
      rcases List.mem_cons.1 hd with h | h
      · rw [h]; exact hc
      · exact hq d h
    · refine ⟨[], c :: cs, rfl, by simp, ?_, hl⟩
      intro d hd
      simp only [List.head?_cons, Option.some.injEq] at hd
      rw [← hd]; exact hc

/-- Behind a separator, a word of letters with a capital letter in it ends the
loop with `errInvalidVersionString`. -/
theorem unmarshalLoop_sep_upper (sep : Nat) (l : List Nat) (hsep : isSeparator sep)
    (hl : ∀ d ∈ l, isLower d ∨ isUpper d) (hu : ∃ d ∈ l, isUpper d) (fuel fn col : Nat)
    (t : Version) (hf : (sep :: l).length ≤ fuel) :
    ∃ v, unmarshalLoop (sep :: l) fuel ⟨0, fn, col, t⟩
      = .ok (v, some errInvalidVersionString) := by
  have hf1 : 1 ≤ fuel := by simp only [List.length_cons] at hf; omega
  obtain ⟨q0, rest0, rfl, hq0, hr0, hr02⟩ := letters_split l hl
  have hupper : ∀ d, rest0.head? = some d → isSmallLetter d = false :=
    fun d hd => isSmallLetter_upper (hr0 d hd)
  cases q0 with
  | nil =>
    cases rest0 with
    | nil => obtain ⟨d, hd, _⟩ := hu; simp at hd
    | cons u r =>
      have hU : isUpper u := hr0 u rfl
      obtain ⟨q, rest, rfl, hq, hr, _⟩ :=
        letters_split r (fun d hd => hr02 d (List.mem_cons_of_mem _ hd))
      exact ⟨t, unmarshalLoop_sep_tag_err sep u q rest hsep (isNumeric_upper hU) hq
        (fun d hd => isSmallLetter_upper (hr d hd)) fuel fn col t hf1
        (Or.inl (releaseValue_upper hU q))⟩
  | cons c q =>
    have hc : isLower c := hq0 c (List.mem_cons_self _ _)
    have hq : ∀ d ∈ q, isLower d := fun d hd => hq0 d (List.mem_cons_of_mem _ hd)
    by_cases hbad : releaseValue (c :: q) = none ∨ idxSpecifierType ≤ fn
    · exact ⟨t, unmarshalLoop_sep_tag_err sep c q rest0 hsep (isNumeric_lower hc) hq hupper
        fuel fn col t hf1 hbad⟩
    · simp only [not_or, not_le] at hbad
      obtain ⟨typ, hr⟩ := Option.ne_none_iff_exists'.1 hbad.1
      cases rest0 with
      | nil =>
        obtain ⟨d, hd, hdu⟩ := hu
        have := hq0 d (by simpa using hd)
        unfold isLower at this; unfold isUpper at hdu; omega
      | cons u r =>
        have hU : isUpper u := hr0 u rfl
        have h46 : (u :: r).head? ≠ some 46 := by
          intro h
          simp only [List.head?_cons, Option.some.injEq] at h
          unfold isUpper at hU; omega
        rw [List.cons_append,
          unmarshalLoop_sep_tag_then sep c q (u :: r) hsep (isNumeric_lower hc) hq hupper h46
            fuel fn col t hf typ hr hbad.2]
        unfold isUpper at hU
        exact ⟨_, unmarshalLoop_bad_byte u r (by omega) (isNumeric_upper hU) (by omega)
          (by omega) (isSmallLetter_upper hU) (by omega) _ _ _ _ (by simp)⟩

theorem caseVariant_letters (w : List Nat) (hw : ∀ a ∈ w, isLower a) :
    ∀ w', caseVariant w w' →
      (∀ d ∈ w', isLower d ∨ isUpper d) ∧ (w' ≠ w → ∃ d ∈ w', isUpper d) := by
  induction w with
  | nil =>
    intro w' h
    cases w' with
    | nil => exact ⟨by simp, fun h => absurd rfl h⟩
    | cons b w' => exact absurd h (by simp [caseVariant])
  | cons a w ih =>
    intro w' h
    cases w' with
    | nil => exact absurd h (by simp [caseVariant])
    | cons b w' =>
      simp only [caseVariant] at h
      have ha := hw a (List.mem_cons_self _ _)
      obtain ⟨h1, h2⟩ := ih (fun x hx => hw x (List.mem_cons_of_mem _ hx)) w' h.2
      have hb : isLower b ∨ isUpper b := by
        unfold isLower at ha ⊢; unfold isUpper
        rcases h.1 with hh | hh <;> omega
      constructor
      · intro d hd
        rcases List.mem_cons.1 hd with hd | hd
        · rw [hd]; exact hb
        · exact h1 d hd
      · intro hne
        rcases h.1 with hh | hh
        · subst hh
          obtain ⟨d, hd, hdu⟩ := h2 (fun e => hne (by rw [e]))
          exact ⟨d, List.mem_cons_of_mem _ hd, hdu⟩
        · refine ⟨b, List.mem_cons_self _ _, ?_⟩
          unfold isLower at ha; unfold isUpper; omega

/-- C13, the claim as it stands fails: `NewVersion` rejects `1.0.0-ALPHA` with
`errInvalidVersionString`, while it accepts `1.0.0-alpha`. -/
theorem newVersion_uppercase_counterexample :
    caseVariant (bytesOf "alpha") (bytesOf "ALPHA")
      ∧ NewVersion (bytesOf "1.0.0-ALPHA")
          = .ok (Version.ofList [1, 0, 0] 0, some errInvalidVersionString)
      ∧ NewVersion (bytesOf "1.0.0-alpha") = .ok (Version.ofList [1, 0, 0, 0, -4] 0, none) := by
  refine ⟨by decide, by decide!, by decide!⟩

/-- C13, amended: tags are matched with their case. For every numeric core `c`
and every tag `w` among `alpha`, `beta`, `pre`, `rc`, `r`, `p`, `NewVersion`
accepts `c-w` and sets the release type of `w`; and for every `w'` obtained
from `w` by replacing at least one letter by its capital, `NewVersion` of
`c-w'` fails with `errInvalidVersionString`. -/
theorem newVersion_tag_case (ns : List (List Nat)) (h1 : 1 ≤ ns.length) (h4 : ns.length ≤ 4)
    (hns : ∀ n ∈ ns, isNumeral n) (w w' : List Nat) (hw : isTag w) (hv : caseVariant w w') :
    (∃ typ, releaseValue w = some typ ∧ NewVersion (numericCore ns ++ 45 :: w)
        = .ok ((coreVersion ns).set ⟨idxReleaseType, by decide⟩ typ, none))
      ∧ (w' ≠ w → ∃ v, NewVersion (numericCore ns ++ 45 :: w')
          = .ok (v, some errInvalidVersionString)) := by
  obtain ⟨c, q, typ, rfl, hc, hq, hr⟩ := isTag_cases hw
  have hlow : ∀ a ∈ c :: q, isLower a := by
    intro a ha
    rcases List.mem_cons.1 ha with h | h
    · rw [h]; exact hc
    · exact hq a h
  constructor
  · refine ⟨typ, hr, ?_⟩
    rw [newVersion_core_dash_word_run ns h1 h4 hns (c :: q) ⟨by simp, hlow⟩, hr]
  · intro hne
    obtain ⟨hl, hu⟩ := caseVariant_letters (c :: q) hlow w' hv
    rw [newVersion_core_then ns h1 h4 hns _ (stopsNumber_cons _ (by decide))]
    exact unmarshalLoop_sep_upper 45 w' (Or.inl rfl) hl (hu hne) _ _ _ _ (Nat.le_refl _)

theorem newVersion_tag_case_witness :
    ∃ v, NewVersion (bytesOf "1.0.0-ALPHA") = .ok (v, some errInvalidVersionString) :=
  (newVersion_tag_case [[49], [48], [48]] (by decide) (by decide) (by decide)
    (bytesOf "alpha") (bytesOf "ALPHA") (by decide) (by decide)).2 (by decide)

theorem atouiLoop_ge_start (b : List Nat) : ∀ n val, n ≤ (atouiLoop b n val).1 := by
  induction b with
  | nil => intro n val; simp [atouiLoop]
  | cons c cs ih =>
    intro n val
    simp only [atouiLoop]
    split
    · split
      · exact Nat.le_refl _
      · have := ih (n + 1) ((val * 10 + byteSub c 48) % 2 ^ 32); omega
    · exact Nat.le_refl _

/-- On ten or more digits `atoui` reads ten bytes at least. -/
theorem atouiLoop_long (ds rest : List Nat) (hdig : ∀ c ∈ ds, isDigit c) :
    ∀ n val, n ≤ 10 → 10 ≤ n + ds.length → 10 ≤ (atouiLoop (ds ++ rest) n val).1 := by
  induction ds with
  | nil =>
    intro n val _ h10
    have := atouiLoop_ge_start rest n val
    simp only [List.length_nil] at h10
    simp only [List.nil_append]; omega
  | cons d ds ih =>
    intro n val hn h10
    have hd := hdig d (List.mem_cons_self _ _)
    simp only [List.cons_append, atouiLoop]
    rw [if_pos hn, if_neg (by rw [byteSub_digit hd]; unfold isDigit at hd; omega)]
    by_cases h : n + 1 ≤ 10
    · exact ih (fun c hc => hdig c (List.mem_cons_of_mem _ hc)) _ _ h
        (by simp only [List.length_cons] at h10; omega)
    · have := atouiLoop_ge_start (ds ++ rest) (n + 1) ((val * 10 + byteSub d 48) % 2 ^ 32)
      show 10 ≤ (atouiLoop (ds ++ rest) (n + 1) ((val * 10 + byteSub d 48) % 2 ^ 32)).1
      omega

theorem numericCase_long (ds rest : List Nat) (h10 : 10 ≤ ds.length)
    (hdig : ∀ c ∈ ds, isDigit c) (fn col : Nat) (t : Version) :
    numericCase (ds ++ rest) ⟨0, fn, col, t⟩ = .ok (.ret t (some errInvalidVersionString)) := by
  have h : 10 ≤ (atoui (ds ++ rest)).1 := atouiLoop_long ds rest hdig 0 0 (by omega) (by omega)
  unfold numericCase
  simp only [sliceFrom_zero]
  rw [if_pos (Or.inr h)]

/-- A numeral of ten or more digits at the read position ends the loop with
`errInvalidVersionString`. -/
theorem unmarshalLoop_long_numeral (ds rest : List Nat) (h10 : 10 ≤ ds.length)
    (hdig : ∀ c ∈ ds, isDigit c) (fuel fn col : Nat) (t : Version) (hf : 1 ≤ fuel) :
    unmarshalLoop (ds ++ rest) fuel ⟨0, fn, col, t⟩ = .ok (t, some errInvalidVersionString) := by
  obtain ⟨d, ds1, rfl⟩ : ∃ d ds1, ds = d :: ds1 := by
    cases ds with
    | nil => simp at h10
    | cons d ds1 => exact ⟨d, ds1, rfl⟩
  have hd : isDigit d := hdig d (List.mem_cons_self _ _)
  refine unmarshalLoop_of_ret _ _ fuel _ _ (by simp) hf ?_
  rw [← numericCase_long (d :: ds1) rest h10 hdig fn col t]
  unfold step
  simp only [List.cons_append, byteAt_cons_zero]
  rw [if_neg (by unfold isDigit at hd; omega), if_pos (isNumeric_digit hd)]

/-- A dot and a numeral of ten or more digits at the read position, before the
fourth column, end the loop with `errInvalidVersionString`. -/
theorem unmarshalLoop_dot_long_numeral (ds rest : List Nat) (h10 : 10 ≤ ds.length)
    (hdig : ∀ c ∈ ds, isDigit c) (fuel fn col : Nat) (t : Version) (hf : 1 ≤ fuel)
    (hcol : col + 1 < 4) :
    unmarshalLoop (46 :: (ds ++ rest)) fuel ⟨0, fn, col, t⟩
      = .ok (t, some errInvalidVersionString) := by
  refine unmarshalLoop_of_ret _ _ fuel _ _ (by simp) hf ?_
  unfold step
  simp only [byteAt_cons_zero, if_true]
  rw [if_neg (by simp only [List.length_cons, List.length_append]; omega)]
  rw [numericCase_drop _ _ (by simp)]
  simp only [List.drop_succ_cons, List.drop_zero, Nat.zero_add]
  rw [numericCase_long ds rest h10 hdig]
  rfl

/-- The loop from the start is the loop from any state that it comes to. -/
theorem unmarshalLoop_stateAfter (str : List Nat) (st0 : PState) :
    ∀ (n : Nat) (st : PState), stateAfter str st0 n = some st →
      st0.idx ≤ st.idx ∧ ∀ fuel, str.length - st0.idx ≤ fuel →
        unmarshalLoop str fuel st0 = unmarshalLoop str (str.length - st.idx) st := by
  intro n
  induction n with
  | zero =>
    intro st h
    simp only [stateAfter, Option.some.injEq] at h
    subst h
    exact ⟨Nat.le_refl _, fun fuel hf => unmarshalLoop_fuel str _ _ _ hf (Nat.le_refl _)⟩
  | succ n ih =>
    intro st1 h
    obtain ⟨st, hn, hlt, hs⟩ := stateAfter_succ str st0 n st1 h
    obtain ⟨hle, hrun⟩ := ih st hn
    have hp := step_progress str st st1 hlt hs
    refine ⟨by omega, fun fuel hf => ?_⟩
    rw [hrun fuel hf]
    obtain ⟨k, hk⟩ : ∃ k, str.length - st.idx = k + 1 := ⟨str.length - st.idx - 1, by omega⟩
    rw [hk, unmarshalLoop, if_pos hlt, hs]
    exact unmarshalLoop_fuel str _ _ _ (by omega) (Nat.le_refl _)

/-- C14, the claim as it stands fails: `NewVersion` rejects `2147483647` with
`errInvalidVersionString`. -/
theorem newVersion_maxInt_counterexample :
    NewVersion (bytesOf "2147483647") = .ok (Version.zero, some errInvalidVersionString) := by
  decide!

/-- C14, amended: `NewVersion` accepts the 9-digit numeral `214748364`, with
`Major() = 214748364`, and every numeric column of 10 or more digits that the
loop comes to makes it fail with `errInvalidVersionString`: if after some
number of passes the text at the read position is 10 or more digits, or a dot
(before the fourth column) and 10 or more digits, and then anything, the
result of `NewVersion` is that error, with the fields read so far. -/
theorem newVersion_long_column (str : List Nat) (n : Nat) (st : PState) (ds rest : List Nat)
    (hreach : stateAfter str (startState Version.zero str) n = some st)
    (h10 : 10 ≤ ds.length) (hdig : ∀ c ∈ ds, isDigit c)
    (hat : str.drop st.idx = ds ++ rest
      ∨ (str.drop st.idx = 46 :: (ds ++ rest) ∧ st.column < 3)) :
    NewVersion str = .ok (st.t, some errInvalidVersionString)
      ∧ NewVersion (bytesOf "214748364") = .ok (Version.ofList [214748364] 0, none)
      ∧ (Version.ofList [214748364] 0).Major = 214748364 := by
  refine ⟨?_, by decide!, by decide!⟩
  unfold NewVersion
  rw [unmarshalText_eq_loop,
    (unmarshalLoop_stateAfter str _ n st hreach).2 _ (by omega), unmarshalLoop_drop]
  have hlen : 10 ≤ str.length - st.idx := by
    have : (str.drop st.idx).length = str.length - st.idx := List.length_drop _ _
    rcases hat with h | ⟨h, _⟩
    · rw [h] at this; simp only [List.length_append] at this; omega
    · rw [h] at this; simp only [List.length_cons, List.length_append] at this; omega
  rcases hat with h | ⟨h, hcol⟩
  · rw [h]
    exact unmarshalLoop_long_numeral ds rest h10 hdig _ _ _ _ (by omega)
  · rw [h]
    exact unmarshalLoop_dot_long_numeral ds rest h10 hdig _ _ _ _ (by omega) (by omega)

theorem newVersion_long_column_witness :
    NewVersion (bytesOf "1.2147483647.3")
      = .ok (Version.ofList [1] 0, some errInvalidVersionString) :=
  (newVersion_long_column (bytesOf "1.2147483647.3") 1
    ⟨1, 0, 0, Version.ofList [1] 0⟩ (bytesOf "2147483647") (bytesOf ".3")
    (by decide!) (by decide) (by decide) (Or.inr ⟨by decide, by decide⟩)).1

/-- C15, the claim as it stands fails: `NewVersion` accepts the empty string
(all fields zero) and the bare tag `alpha` (release type `alpha`), and also
`.5`, `-5` and `+build5`, none of which begins with a digit. -/
theorem newVersion_no_digit_counterexample :
    NewVersion [] = .ok (Version.zero, none)
      ∧ NewVersion (bytesOf "alpha") = .ok (Version.ofList [0, 0, 0, 0, -4] 0, none)
      ∧ NewVersion (bytesOf ".5") = .ok (Version.ofList [0, 5] 0, none)
      ∧ NewVersion (bytesOf "-5") = .ok (Version.ofList [0, 0, 0, 0, 0, 5] 0, none)
      ∧ NewVersion (bytesOf "+build5") = .ok (Version.ofList [] 5, none) := by
  refine ⟨by decide!, by decide!, by decide!, by decide!, by decide!⟩

/-- C15, amended: `NewVersion` fails with `errInvalidVersionString` on every
byte string whose first byte, or whose first byte behind one leading `v`, is
none of a decimal digit, a dot, `-`, `_`, `+` and a small letter. -/
theorem newVersion_bad_first_byte (s rest : List Nat) (c : Nat) (hc : c < 256)
    (hs : s = c :: rest ∨ s = 118 :: c :: rest) (hdigit : ¬ isDigit c) (hdot : c ≠ 46)
    (hsep : ¬ isSeparator c) (hplus : c ≠ 43) (hlow : ¬ isLower c) :
    NewVersion s = .ok (Version.zero, some errInvalidVersionString) := by
  have hn : isNumeric c = false := by
    unfold isDigit at hdigit; unfold isNumeric byteSub; simp; omega
  have hl : isSmallLetter c = false := by
    unfold isLower at hlow; unfold isSmallLetter byteSub; simp; omega
  have h45 : c ≠ 45 := fun h => hsep (Or.inl h)
  have h95 : c ≠ 95 := fun h => hsep (Or.inr h)
  have hv : c ≠ 118 := fun h => hlow (by rw [h]; decide)
  unfold NewVersion
  rw [unmarshalText_eq_loop]
  rcases hs with rfl | rfl
  · have h0 : startState Version.zero (c :: rest) = ⟨0, 0, 0, Version.zero⟩ := by
      unfold startState
      rw [if_neg (fun h => hv (by simpa using h.2))]
    rw [h0]
    exact unmarshalLoop_bad_byte c rest hdot hn h45 h95 hl hplus _ _ _ _ (by simp)
  · have h1 : startState Version.zero (118 :: c :: rest) = ⟨1, 0, 0, Version.zero⟩ := by
      unfold startState
      rw [if_pos ⟨by simp, by simp⟩]
    rw [h1, unmarshalLoop_drop]
    simp only [List.drop_succ_cons, List.drop_zero]
    exact unmarshalLoop_bad_byte c rest hdot hn h45 h95 hl hplus _ _ _ _ (by simp)

theorem newVersion_bad_first_byte_witness :
    NewVersion (bytesOf "vX1.2") = .ok (Version.zero, some errInvalidVersionString) :=
  newVersion_bad_first_byte (bytesOf "vX1.2") (bytesOf "1.2") 88 (by decide)
    (Or.inr (by decide)) (by decide) (by decide) (by decide) (by decide) (by decide)

/-- C16: `NewRange` faults on `.x` and on `*.*`: the trimming of the wildcard
suffix leaves the empty text, and the index expression `str[0]` behind it is
out of range. -/
theorem newRange_wildcard_fault :
    NewRange (bytesOf ".x") = .error .indexOutOfRange
      ∧ NewRange (bytesOf "*.*") = .error .indexOutOfRange
      ∧ trimRight (bytesOf ".x") [46, 120, 42] = [] := by
  refine ⟨by decide!, by decide!, by decide!⟩

/-- What the build case returns: the receiver as it is, or with a build number
from 0 to 10^9 - 1. -/
theorem buildCase_build (str : List Nat) (st : PState) (t : Version)
    (e : Option InvalidStringValue) (hs : buildCase str st = .ok (.ret t e)) :
    t.build = st.t.build ∨ t.buildOk := by
  unfold buildCase at hs
  simp only [] at hs
  split at hs
  · simp only [Except.ok.injEq, Step.ret.injEq] at hs; left; rw [← hs.1]
  · split at hs
    · simp at hs
    · split at hs
      · simp only [Except.ok.injEq, Step.ret.injEq] at hs; left; rw [← hs.1]
      · cases hsl : sliceFrom str (st.idx + buildsuffix.length) with
        | error f => rw [hsl] at hs; simp at hs
        | ok b =>
          rw [hsl] at hs
          simp only [] at hs
          by_cases hd : (atoui b).1 > 9 ∨ st.idx + buildsuffix.length + (atoui b).1 < str.length
          · rw [if_pos hd] at hs
            simp only [Except.ok.injEq, Step.ret.injEq] at hs; left; rw [← hs.1]
          · rw [if_neg hd] at hs
            simp only [Except.ok.injEq, Step.ret.injEq] at hs
            right
            have hb := atoui_bound b (by omega)
            rw [← hs.1]
            unfold Version.buildOk
            simp only [int32_natCast hb]
            norm_num at hb
            omega

theorem set_build (t : Version) (i : Fin 14) (x : Int) : (t.set i x).build = t.build := rfl

/-- A pass of the loop leaves the build number as it is, or sets one from 0 to
10^9 - 1. -/
theorem step_build (str : List Nat) (st : PState) (h : st.idx < str.length) (s : Step)
    (hs : step str st = .ok s) : s.version.build = st.t.build ∨ s.version.buildOk := by
  have hnum : ∀ st0 : PState, st0.t = st.t → numericCase str st0 = .ok s →
      s.version.build = st.t.build := by
    intro st0 ht hs0
    cases s with
    | ret t e => simp only [Step.version]; rw [(numericCase_ret str st0 t e hs0).1, ht]
    | next st1 =>
      obtain ⟨_, _, _, hf, x, _, _, hset⟩ := numericCase_next str st0 st1 hs0
      simp only [Step.version]; rw [hset, set_build, ht]
  have htag : ∀ st0 : PState, st0.t = st.t → tagCase str st0 = .ok s →
      s.version.build = st.t.build := by
    intro st0 ht hs0
    cases s with
    | ret t e => simp only [Step.version]; rw [(tagCase_ret str st0 t e hs0).1, ht]
    | next st1 =>
      obtain ⟨_, _, _, _, typ, _, _, hset⟩ := tagCase_next str st0 st1 hs0
      simp only [Step.version]; rw [hset, set_build, ht]
  obtain ⟨c, _, hcase⟩ := step_cases str st h
  rcases hcase with ⟨_, _, he⟩ | ⟨_, _, _, he⟩ | ⟨_, _, he⟩ | ⟨_, _, _, _, _, he⟩
    | ⟨_, _, _, _, he⟩ | ⟨_, _, _, _, he⟩ | ⟨_, he⟩ | ⟨_, _, _, _, _, he⟩
  · rw [he] at hs; simp only [Except.ok.injEq] at hs; subst hs; left; rfl
  · rw [he] at hs
    exact Or.inl (hnum ⟨st.idx + 1, st.fieldNum + 1, st.column + 1, st.t⟩ rfl hs)
  · rw [he] at hs; exact Or.inl (hnum st rfl hs)
  · rw [he] at hs
    left
    split at hs
    · simp only [Except.ok.injEq] at hs; subst hs; rfl
    · split at hs <;> (simp only [Except.ok.injEq] at hs; subst hs; rfl)
  · rw [he] at hs; exact Or.inl (htag ⟨st.idx + 1, st.fieldNum, st.column, st.t⟩ rfl hs)
  · rw [he] at hs; exact Or.inl (htag st rfl hs)
  · rw [he] at hs
    cases s with
    | ret t e => exact buildCase_build str st t e hs
    | next st1 => exact absurd hs (buildCase_ne_next _ _ _)
  · rw [he] at hs; simp only [Except.ok.injEq] at hs; subst hs; left; rfl

theorem unmarshalLoop_buildOk (str : List Nat) (fuel : Nat) :
    ∀ (st : PState) (v : Version) (e : Option InvalidStringValue), st.t.buildOk →
      unmarshalLoop str fuel st = .ok (v, e) → v.buildOk := by
  induction fuel with
  | zero =>
    intro st v e ht h
    unfold unmarshalLoop at h
    split at h
    · simp at h
    · simp only [Except.ok.injEq, Prod.mk.injEq] at h
      rw [← h.1]; exact ht
  | succ fuel ih =>
    intro st v e ht h
    rw [unmarshalLoop] at h
    by_cases hi : st.idx < str.length
    · rw [if_pos hi] at h
      cases hs : step str st with
      | error f => rw [hs] at h; simp at h
      | ok s =>
        have hb : s.version.buildOk := by
          rcases step_build str st hi s hs with hb | hb
          · unfold Version.buildOk at ht ⊢; rw [hb]; exact ht
          · exact hb
        rw [hs] at h
        cases s with
        | ret t err =>
          simp only [Except.ok.injEq, Prod.mk.injEq] at h
          rw [← h.1]; exact hb
        | next st1 => exact ih st1 v e hb h
    · rw [if_neg hi] at h
      simp only [Except.ok.injEq, Prod.mk.injEq] at h
      rw [← h.1]; exact ht

theorem newVersion_buildOk (str : List Nat) (v : Version) (e : Option InvalidStringValue)
    (h : NewVersion str = .ok (v, e)) : v.buildOk := by
  unfold NewVersion at h
  rw [unmarshalText_eq_loop] at h
  exact unmarshalLoop_buildOk str _ _ v e (show Version.zero.buildOk by decide) h

/-- C21: whatever `NewVersion` returns for a byte string `s`, on success (and
also next to an error), has every field other than the two type fields
(indices 0–3, 5–8 and 10–13) and the build number from 0 to 999999999, and
the two type fields (indices 4 and 9) from -4 to 2. -/
theorem newVersion_ranges (s : List Nat) (v : Version) (e : Option InvalidStringValue)
    (h : NewVersion s = .ok (v, e)) :
    (∀ i : Fin 14, i.val ≠ 4 → i.val ≠ 9 → 0 ≤ v.version i ∧ v.version i ≤ 999999999)
      ∧ (0 ≤ v.build ∧ v.build ≤ 999999999)
      ∧ (-4 ≤ v.version 4 ∧ v.version 4 ≤ 2)
      ∧ (-4 ≤ v.version 9 ∧ v.version 9 ≤ 2) := by
  have hw := newVersion_wellFormed s v e h
  have hb := newVersion_buildOk s v e h
  unfold Version.buildOk at hb
  refine ⟨fun i h4 h9 => ?_, by omega, ?_, ?_⟩
  · have := (hw i).2 h4 h9; omega
  · have := (hw 4).1 (Or.inl rfl); simp only [alpha, patch] at this; exact this
  · have := (hw 9).1 (Or.inr rfl); simp only [alpha, patch] at this; exact this

theorem newVersion_ranges_witness :
    (0 ≤ (Version.ofList [1, 3, 8, 0, -3, 999999999, 0, 0, 0, 2] 999999999).build
      ∧ (Version.ofList [1, 3, 8, 0, -3, 999999999, 0, 0, 0, 2] 999999999).build ≤ 999999999) :=
  (newVersion_ranges (bytesOf "1.3.8-beta999999999_p+build999999999")
    (Version.ofList [1, 3, 8, 0, -3, 999999999, 0, 0, 0, 2] 999999999) none (by decide!)).2.1

/-- Over an ascending list of indices `lexSign` is negative exactly when `a` is
smaller at the first index of the list at which the tuples differ. -/
theorem lexSign_neg_iff (a b : Fin 14 → Int) (l : List (Fin 14))
    (hl : l.Pairwise (fun i j => i < j)) :
    lexSign a b l < 0 ↔ ∃ k ∈ l, a k < b k ∧ ∀ i ∈ l, i < k → a i = b i := by
  induction l with
  | nil => simp [lexSign]
  | cons i rest ih =>
    rw [List.pairwise_cons] at hl
    have ih := ih hl.2
    rw [lexSign_cons]
    constructor
    · intro h
      by_cases h1 : a i < b i
      · refine ⟨i, List.mem_cons_self _ _, h1, fun j hj hlt => ?_⟩
        rcases List.mem_cons.1 hj with hj | hj
        · rw [hj] at hlt; exact absurd hlt (lt_irrefl _)
        · exact absurd (hl.1 j hj) (lt_asymm hlt)
      · rw [if_neg h1] at h
        by_cases h2 : b i < a i
        · rw [if_pos h2] at h; exact absurd h (by decide)
        · rw [if_neg h2] at h
          obtain ⟨k, hk, hlt, hall⟩ := ih.1 h
          refine ⟨k, List.mem_cons_of_mem _ hk, hlt, fun j hj hjk => ?_⟩
          rcases List.mem_cons.1 hj with hj | hj
          · rw [hj]; omega
          · exact hall j hj hjk
    · rintro ⟨k, hk, hlt, hall⟩
      rcases List.mem_cons.1 hk with hk | hk
      · rw [hk] at hlt; rw [if_pos hlt]; decide
      · have hi := hall i (List.mem_cons_self _ _) (hl.1 k hk)
        rw [if_neg (by omega), if_neg (by omega)]
        exact ih.2 ⟨k, hk, hlt, fun j hj hjk => hall j (List.mem_cons_of_mem _ hj) hjk⟩

theorem lexSign_lt_zero_iff (a b : Fin 14 → Int) (n : Nat) :
    lexSign a b ((List.finRange 14).filter fun i => decide (i.val < n)) < 0
      ↔ lexLess a b n := by
  rw [lexSign_neg_iff a b _ ((List.pairwise_lt_finRange 14).filter _)]
  unfold lexLess
  constructor
  · rintro ⟨k, hk, hlt, hall⟩
    have hkn : k.val < n := by simpa using (List.mem_filter.1 hk).2
    refine ⟨k, hkn, fun i hi => hall i ?_ (Fin.lt_def.2 hi), hlt⟩
    exact List.mem_filter.2 ⟨List.mem_finRange i, by simp; omega⟩
  · rintro ⟨k, hkn, hall, hlt⟩
    exact ⟨k, List.mem_filter.2 ⟨List.mem_finRange k, by simpa using hkn⟩, hlt,
      fun i _ hi => hall i (Fin.lt_def.1 hi)⟩

theorem limitedLess_iff_lexLess (a b : Version) (ha : bounded a.version)
    (hb : bounded b.version) : a.limitedLess b = true ↔ lexLess a.version b.version 9 := by
  unfold Version.limitedLess
  rw [decide_eq_true_eq, signDelta_eq_lexSign _ _ ha hb]
  exact lexSign_lt_zero_iff a.version b.version 9

theorem not_lexLess_of_eq (a b : Fin 14 → Int) (n : Nat)
    (h : ∀ i : Fin 14, i.val < n → a i = b i) : ¬ lexLess a b n := by
  rintro ⟨k, hk, _, hlt⟩
  have := h k hk
  omega

/-- C22: let `a` and `b` be versions that `NewVersion` returns (with or without
an error). Then `a.limitedLess(b)` is true exactly when the fields 0–8 of `a`
are lexicographically less than the fields 0–8 of `b`; so if `a` and `b`
agree on the fields 0–8 (they differ in the specifier group or in the build
number only), neither is `limitedLess` than the other. -/
theorem limitedLess_spec (s1 s2 : List Nat) (a b : Version)
    (e1 e2 : Option InvalidStringValue) (h1 : NewVersion s1 = .ok (a, e1))
    (h2 : NewVersion s2 = .ok (b, e2)) :
    (a.limitedLess b = true ↔ lexLess a.version b.version 9)
      ∧ ((∀ i : Fin 14, i.val < 9 → a.version i = b.version i) →
          a.limitedLess b = false ∧ b.limitedLess a = false) := by
  have ba := bounded_of_wellFormed a (newVersion_wellFormed s1 a e1 h1)
  have bb := bounded_of_wellFormed b (newVersion_wellFormed s2 b e2 h2)
  refine ⟨limitedLess_iff_lexLess a b ba bb, fun h => ⟨?_, ?_⟩⟩
  · cases hl : a.limitedLess b with
    | false => rfl
    | true =>
      exact absurd ((limitedLess_iff_lexLess a b ba bb).1 hl) (not_lexLess_of_eq _ _ 9 h)
  · cases hl : b.limitedLess a with
    | false => rfl
    | true =>
      exact absurd ((limitedLess_iff_lexLess b a bb ba).1 hl)
        (not_lexLess_of_eq _ _ 9 (fun i hi => (h i hi).symm))

theorem limitedLess_spec_witness :
    (Version.ofList [1, 2, 3, 0, -4, 4] 0).limitedLess
        (Version.ofList [1, 2, 3, 0, -4, 4, 0, 0, 0, 2, 5] 0) = false
      ∧ (Version.ofList [1, 2, 3, 0, -4, 4, 0, 0, 0, 2, 5] 0).limitedLess
        (Version.ofList [1, 2, 3, 0, -4, 4] 0) = false :=
  (limitedLess_spec (bytesOf "1.2.3-alpha4") (bytesOf "1.2.3-alpha4-p5")
    (Version.ofList [1, 2, 3, 0, -4, 4] 0) (Version.ofList [1, 2, 3, 0, -4, 4, 0, 0, 0, 2, 5] 0)
    none none (by decide!) (by decide!)).2 (by decide!)

/-- C23, the claim as it stands fails: `1.2.3` and `1.2.3-alpha` differ in the
release type (field 4), and `sharesPrefixWith` is true of them. (And over all
`int32` values it also fails the other way round: for the fields -2^31 and 0
the difference wraps, and `sharesPrefixWith` is true of two versions that
differ in field 0.) -/
theorem sharesPrefixWith_counterexample :
    NewVersion (bytesOf "1.2.3") = .ok (Version.ofList [1, 2, 3] 0, none)
      ∧ NewVersion (bytesOf "1.2.3-alpha") = .ok (Version.ofList [1, 2, 3, 0, -4] 0, none)
      ∧ (Version.ofList [1, 2, 3] 0).version 4 ≠ (Version.ofList [1, 2, 3, 0, -4] 0).version 4
      ∧ (Version.ofList [1, 2, 3] 0).sharesPrefixWith (Version.ofList [1, 2, 3, 0, -4] 0) = true
      ∧ (Version.ofList [-2147483648] 0).sharesPrefixWith (Version.ofList [0] 0) = true := by
  refine ⟨by decide!, by decide!, by decide!, by decide!, by decide!⟩

/-- C23, amended: for all versions `t` and `o` whose fields lie between -10^9
and 10^9 (as the fields of every version that `NewVersion` returns do),
`t.sharesPrefixWith(o)` is true exactly when the fields 0–3 of `t` and `o` are
identical, that is major, minor, patch and revision; the release type, the
sub-numbers and the specifier group are ignored. -/
theorem sharesPrefixWith_spec (t o : Version) (ht : bounded t.version)
    (ho : bounded o.version) :
    t.sharesPrefixWith o = true ↔ ∀ i : Fin 14, i.val < 4 → t.version i = o.version i := by
  rw [sharesPrefixWith_iff t o ht ho, lexSign_eq_zero]
  exact forall_congr' fun i => by rw [mem_prefix_iff]

theorem sharesPrefixWith_spec_witness :
    (Version.ofList [1, 2, 3] 0).sharesPrefixWith (Version.ofList [1, 2, 3, 0, -4, 7] 0) = true :=
  (sharesPrefixWith_spec (Version.ofList [1, 2, 3] 0) (Version.ofList [1, 2, 3, 0, -4, 7] 0)
    (by decide!) (by decide!)).2 (by decide!)

theorem magnitudeAwareKey_eq_keyClass (x : Int) (hx : 0 ≤ x) :
    magnitudeAwareKey x = keyClass x := by
  unfold magnitudeAwareKey keyClass uint8
  split_ifs <;> omega

theorem keyClass_le (x : Int) : keyClass x ≤ 15 := by
  unfold keyClass
  split_ifs <;> omega

theorem keyClass_mono (x y : Int) (hx : 0 ≤ x) (h : x ≤ y) : keyClass x ≤ keyClass y := by
  unfold keyClass
  split_ifs <;> omega

theorem keyClass_small (x y : Int) (hx : 0 ≤ x) (hy : 0 ≤ y) (h : keyClass x = keyClass y)
    (h11 : keyClass x ≤ 11) : x = y := by
  unfold keyClass at h h11
  split_ifs at h h11 <;> omega

theorem lor_nibble : ∀ c < 12, ∀ m < 16, (c * 16) ||| m = c * 16 + m := by decide

/-- The key, for non-negative fields: the class of field `k` in the high
nibble; in the low nibble the class of field `k + 1` if the class of field `k`
is at most 11, and 0 otherwise. -/
theorem twoFieldKey_eq (v : Fin 14 → Int) (hv : nonNegative v) (k : Nat) (hk : k ≤ 12) :
    twoFieldKey v k
      = .ok (if keyClass (v ⟨k, by omega⟩) ≤ 11 then
          keyClass (v ⟨k, by omega⟩) * 16 + keyClass (v ⟨k + 1, by omega⟩)
        else keyClass (v ⟨k, by omega⟩) * 16) := by
  have h1 : fieldAt v k = .ok (v ⟨k, by omega⟩) := by
    unfold fieldAt; rw [dif_pos (by omega)]
  have h2 : fieldAt v ((k + 1) % 256) = .ok (v ⟨k + 1, by omega⟩) := by
    unfold fieldAt
    rw [dif_pos (by omega)]
    congr 2
    apply Fin.ext
    show (k + 1) % 256 = k + 1
    omega
  have hc := keyClass_le (v ⟨k, by omega⟩)
  have hc2 := keyClass_le (v ⟨k + 1, by omega⟩)
  unfold twoFieldKey
  simp only [h1, h2, magnitudeAwareKey_eq_keyClass _ (hv _), Nat.shiftLeft_eq]
  norm_num
  have hm : keyClass (v ⟨k, by omega⟩) * 16 % 256 = keyClass (v ⟨k, by omega⟩) * 16 := by omega
  rw [hm]
  by_cases h11 : keyClass (v ⟨k, by omega⟩) ≤ 11
  · rw [if_neg (by omega), if_pos h11, lor_nibble _ (by omega) _ (by omega)]
  · rw [if_pos (by omega), if_neg h11]

theorem twoFieldKey_mono (v w : Fin 14 → Int) (hv : nonNegative v) (hw : nonNegative w)
    (k : Nat) (hk : k ≤ 12) (h : pairLe v w k hk) (kv kw : Nat)
    (h1 : twoFieldKey v k = .ok kv) (h2 : twoFieldKey w k = .ok kw) : kv ≤ kw := by
  rw [twoFieldKey_eq v hv k hk] at h1
  rw [twoFieldKey_eq w hw k hk] at h2
  simp only [Except.ok.injEq] at h1 h2
  have c1 := keyClass_le (v ⟨k + 1, by omega⟩)
  have c2 := keyClass_le (w ⟨k + 1, by omega⟩)
  rcases h with h | ⟨h, h'⟩
  · have hm := keyClass_mono _ _ (hv ⟨k, by omega⟩) (le_of_lt h)
    have hs : keyClass (v ⟨k, by omega⟩) = keyClass (w ⟨k, by omega⟩) →
        ¬ keyClass (v ⟨k, by omega⟩) ≤ 11 :=
      fun he h11 => absurd (keyClass_small _ _ (hv _) (hw _) he h11) (ne_of_lt h)
    rw [← h1, ← h2]
    split_ifs <;> omega
  · have hm := keyClass_mono _ _ (hv ⟨k + 1, by omega⟩) h'
    rw [← h1, ← h2, h]
    split_ifs <;> omega

/-- C24: for all tuples `v` and `w` with non-negative fields and every key
index `k` from 0 to 12, `twoFieldKey` returns a key for both; if the pair
`(v[k], v[k+1])` is lexicographically at most `(w[k], w[k+1])`, the key of `v`
is at most the key of `w`; if the key of `v` is less than the key of `w`, the
pair of `v` is lexicographically less than the pair of `w`; and distinct
pairs may share a key, as `(12, 0)` and `(13, 5)` do. -/
theorem twoFieldKey_ascending (v w : Fin 14 → Int) (hv : nonNegative v) (hw : nonNegative w)
    (k : Nat) (hk : k ≤ 12) :
    (∃ kv kw, twoFieldKey v k = .ok kv ∧ twoFieldKey w k = .ok kw
        ∧ (pairLe v w k hk → kv ≤ kw) ∧ (kv < kw → pairLt v w k hk))
      ∧ twoFieldKey (Version.ofList [12, 0] 0).version 0
          = twoFieldKey (Version.ofList [13, 5] 0).version 0 := by
  refine ⟨⟨_, _, twoFieldKey_eq v hv k hk, twoFieldKey_eq w hw k hk, ?_, ?_⟩, by decide⟩
  · intro h
    exact twoFieldKey_mono v w hv hw k hk h _ _ (twoFieldKey_eq v hv k hk)
      (twoFieldKey_eq w hw k hk)
  · intro hlt
    by_contra hn
    have hle : pairLe w v k hk := by
      unfold pairLt at hn
      unfold pairLe
      omega
    have := twoFieldKey_mono w v hw hv k hk hle _ _ (twoFieldKey_eq w hw k hk)
      (twoFieldKey_eq v hv k hk)
    omega

theorem twoFieldKey_ascending_witness :
    ∃ kv kw, twoFieldKey (Version.ofList [1, 2, 300, 7] 0).version 2 = .ok kv
      ∧ twoFieldKey (Version.ofList [1, 2, 301, 0] 0).version 2 = .ok kw
      ∧ (pairLe (Version.ofList [1, 2, 300, 7] 0).version
          (Version.ofList [1, 2, 301, 0] 0).version 2 (by decide) → kv ≤ kw)
      ∧ (kv < kw → pairLt (Version.ofList [1, 2, 300, 7] 0).version
          (Version.ofList [1, 2, 301, 0] 0).version 2 (by decide)) :=
  (twoFieldKey_ascending (Version.ofList [1, 2, 300, 7] 0).version
    (Version.ofList [1, 2, 301, 0] 0).version (by decide) (by decide) 2 (by decide)).1

/-- C25, the claim as it stands fails: for the fields 300 and 5 the key is
`0xD0`, with class 13 in the high nibble and 0, not the class 5 of the second
field, in the low nibble; and for the fields 2^24 and 5 the key is `0xF0`,
with the top class 15 in the high nibble and 0, not 15, in the low nibble. -/
theorem twoFieldKey_nibble_counterexample :
    twoFieldKey (Version.ofList [300, 5] 0).version 0 = .ok 0xD0
      ∧ keyClass 300 = 13 ∧ keyClass 5 = 5 ∧ 0xD0 % 16 ≠ 5
      ∧ twoFieldKey (Version.ofList [16777216, 5] 0).version 0 = .ok 0xF0
      ∧ keyClass 16777216 = 15 ∧ 0xF0 % 16 ≠ 15 := by
  refine ⟨by decide, by decide, by decide, by decide, by decide, by decide, by decide⟩

/-- C25, amended: for every tuple `v` with non-negative fields and every key
index `k` from 0 to 12, `twoFieldKey(v, k)` is a byte with the class of `v[k]`
in its high nibble; its low nibble is the class of `v[k+1]` when the class of
`v[k]` is at most 11, and 0 when the class of `v[k]` is 12 or more. -/
theorem twoFieldKey_nibbles (v : Fin 14 → Int) (hv : nonNegative v) (k : Nat) (hk : k ≤ 12) :
    ∃ key, twoFieldKey v k = .ok key ∧ key < 256
      ∧ key / 16 = keyClass (v ⟨k, by omega⟩)
      ∧ key % 16 = if keyClass (v ⟨k, by omega⟩) ≤ 11 then keyClass (v ⟨k + 1, by omega⟩)
          else 0 := by
  refine ⟨_, twoFieldKey_eq v hv k hk, ?_, ?_, ?_⟩
  all_goals
    have c1 := keyClass_le (v ⟨k, by omega⟩)
    have c2 := keyClass_le (v ⟨k + 1, by omega⟩)
    split_ifs <;> omega

theorem twoFieldKey_nibbles_witness :
    ∃ key, twoFieldKey (Version.ofList [1, 7, 300] 0).version 1 = .ok key ∧ key < 256
      ∧ key / 16 = keyClass ((Version.ofList [1, 7, 300] 0).version ⟨1, by omega⟩)
      ∧ key % 16 = if keyClass ((Version.ofList [1, 7, 300] 0).version ⟨1, by omega⟩) ≤ 11 then
          keyClass ((Version.ofList [1, 7, 300] 0).version ⟨1 + 1, by omega⟩)
          else 0 :=
  twoFieldKey_nibbles (Version.ofList [1, 7, 300] 0).version (by decide) 1 (by decide)

end Semver
